import Mathlib

/-!
# A verification development for `hashtable.cpp`

`HashTable<K, V>` is a chained hash table whose entries all live on ONE doubly
linked list (`head`, `DataNode::prev`, `DataNode::next`).  The entries of one
bucket form a contiguous run of that list and `table[i]` points at the first
entry of the run of bucket `i`.

The embedding is a shallow one with an explicit heap:

* a pointer `DataNode *` is `Option Nat` (`none` is `NULL`), an address into
  `heap`; `new` appends a cell, `delete` empties its cell;
* every operation returns an `Option`; `none` stands for undefined behaviour
  (reading through a dangling or freed pointer, indexing `table` out of
  bounds) or for a loop that does not end;
* a pointer-chasing loop runs for at most `heap.length + 1` rounds: a walk over
  distinct nodes needs no more, so the bound is only hit on a cyclic list;
* `int` is `Int`. The computation `bucket_num_ * 2 + 1` of `rehash`, which
  leaves the 32-bit range from `2 ^ 30` buckets on, goes through `checked`:
  signed overflow is undefined behaviour, and `rehash` has no result then. The
  counters `size_` and `used_bucket_num_` are not bounded: they move by one per
  call and leave the range only after `2 ^ 31` insertions;
* `double` is `Dbl`: not-a-number, the infinities and the finite values
  `m * 2 ^ e`, with the division rounded to 53 significant bits, to nearest and
  ties to even, so that the test of line 230 is the comparison the code makes;
* `hash<K>` is a function `hash_fn_ : K → Nat`;
* `get_all_keys` and `get_all_values` return a reference to a local vector that
  is destroyed on return: `get_all_keys_result` is the vector the loop builds,
  `get_all_keys` the reference the caller gets, a `Ref.dangling`;
* the constructor leaves `used_bucket_num_` uninitialised: its start value is an
  argument of `HashTable.construct`.
-/

namespace Hashtable

/-! ## The `double` values -/

/-- A `double`: not-a-number, minus and plus infinity, or the finite value
`m * 2 ^ e`. Zero has no sign here, and the exponent is not bounded: quotients of
32-bit ints neither overflow nor reach the subnormal range. -/
inductive Dbl where
  | nan : Dbl
  | ninf : Dbl
  | pinf : Dbl
  | fin (m : Int) (e : Int) : Dbl
deriving DecidableEq

/-- The test `m1 * 2 ^ e1 < m2 * 2 ^ e2`, both sides scaled to the smaller exponent. -/
def Dbl.finLt (m1 e1 m2 e2 : Int) : Bool :=
  decide (m1 * 2 ^ (e1 - min e1 e2).toNat < m2 * 2 ^ (e2 - min e1 e2).toNat)

/-- The comparison `a < b` of doubles; false when either side is not-a-number. -/
def Dbl.lt : Dbl → Dbl → Bool
  | Dbl.nan, _ => false
  | _, Dbl.nan => false
  | _, Dbl.ninf => false
  | Dbl.ninf, _ => true
  | Dbl.pinf, _ => false
  | Dbl.fin _ _, Dbl.pinf => true
  | Dbl.fin m1 e1, Dbl.fin m2 e2 => Dbl.finLt m1 e1 m2 e2

/-- The comparison `a > b` of doubles. -/
def Dbl.gt (a b : Dbl) : Bool := Dbl.lt b a

/-- The comparison `a <= b` of doubles; false when either side is not-a-number. -/
def Dbl.le : Dbl → Dbl → Bool
  | Dbl.nan, _ => false
  | _, Dbl.nan => false
  | a, b => !(Dbl.lt b a)

/-- The conversion `(double)i` of an `int`, which is exact. -/
def Dbl.ofInt (i : Int) : Dbl := Dbl.fin i 0

/-- The constant `0.75`. -/
def Dbl.three_quarters : Dbl := Dbl.fin 3 (-2)

/-- The least `j` with `c ≤ a * 2 ^ j`, for `1 ≤ a < c` and `fuel = c`. -/
def Dbl.doublings : Nat → Nat → Nat → Nat
  | 0, _, _ => 0
  | fuel + 1, a, c => if c ≤ a then 0 else Dbl.doublings fuel (2 * a) c + 1

/-- The greatest `j` with `c * 2 ^ j ≤ a`, for `1 ≤ c ≤ a` and `fuel = a`. -/
def Dbl.halvings : Nat → Nat → Nat → Nat
  | 0, _, _ => 0
  | fuel + 1, a, c => if a < 2 * c then 0 else Dbl.halvings fuel a (2 * c) + 1

/-- The binary exponent of the quotient `a / c` of two positive numbers: the
`e` with `2 ^ e ≤ a / c < 2 ^ (e + 1)`. -/
def Dbl.exponent (a c : Nat) : Int :=
  if c ≤ a then (Dbl.halvings a a c : Int) else -(Dbl.doublings c a c : Int)

/-- The quotient `a / c` of two positive numbers rounded to 53 significant bits,
to nearest and ties to even, as a pair `(m, e)` standing for `m * 2 ^ e`. -/
def Dbl.roundQuot (a c : Nat) : Nat × Int :=
  let e := Dbl.exponent a c
  let k := 52 - e
  let num := a * 2 ^ k.toNat
  let den := c * 2 ^ (-k).toNat
  let n := num / den
  let r := num % den
  (if den < 2 * r ∨ (2 * r = den ∧ n % 2 = 1) then n + 1 else n, e - 52)

/-- The division `a / b` of doubles. -/
def Dbl.div : Dbl → Dbl → Dbl
  | Dbl.nan, _ => Dbl.nan
  | _, Dbl.nan => Dbl.nan
  | Dbl.fin m1 e1, Dbl.fin m2 e2 =>
    if m2 = 0 then
      if m1 = 0 then Dbl.nan else if 0 < m1 then Dbl.pinf else Dbl.ninf
    else if m1 = 0 then Dbl.fin 0 0
    else
      let r := Dbl.roundQuot m1.natAbs m2.natAbs
      Dbl.fin ((if decide (0 < m1) = decide (0 < m2) then 1 else -1) * (r.1 : Int))
        (r.2 + e1 - e2)
  | Dbl.fin _ _, _ => Dbl.fin 0 0
  | Dbl.pinf, Dbl.fin m2 _ => if 0 ≤ m2 then Dbl.pinf else Dbl.ninf
  | Dbl.ninf, Dbl.fin m2 _ => if 0 ≤ m2 then Dbl.ninf else Dbl.pinf
  | _, _ => Dbl.nan

/-- The result of an `int` computation: the value when it lies in the 32-bit
range, nothing otherwise (signed overflow is undefined behaviour). -/
def checked (x : Int) : Option Int :=
  if -2147483648 ≤ x ∧ x ≤ 2147483647 then some x else none

/-- What a caller holds when a function returned a reference: a reference to a
live object, or a reference to an object that no longer exists. -/
inductive Ref (α : Type) where
  | live (v : α) : Ref α
  | dangling : Ref α
deriving DecidableEq

/-- Reading through a reference; undefined when it dangles. -/
def Ref.read {α : Type} : Ref α → Option α
  | Ref.live v => some v
  | Ref.dangling => none

/-! ## The table -/

/-- The struct `DataNode`: a key, a value and the two list pointers. -/
structure DataNode (K V : Type) where
  key : K
  value : V
  prev : Option Nat
  next : Option Nat
deriving DecidableEq

/-- The data members of `HashTable<K, V>`, together with the heap its nodes live in. -/
structure HashTable (K V : Type) where
  size_ : Int
  bucket_num_ : Int
  used_bucket_num_ : Int
  auto_rehash_ : Bool
  load_factor_ : Dbl
  head : Option Nat
  table : List (Option Nat)
  heap : List (Option (DataNode K V))
deriving DecidableEq

section Heap

variable {K V : Type}

/-- Read the node at address `p`; `none` when `p` was never allocated or was freed. -/
def deref (h : List (Option (DataNode K V))) (p : Nat) : Option (DataNode K V) :=
  match h[p]? with
  | some (some n) => some n
  | _ => none

/-- The assignment `p->prev = x`. -/
def setPrev (h : List (Option (DataNode K V))) (p : Nat) (x : Option Nat) :
    Option (List (Option (DataNode K V))) :=
  match deref h p with
  | some n => some (h.set p (some { n with prev := x }))
  | none => none

/-- The assignment `p->next = x`. -/
def setNext (h : List (Option (DataNode K V))) (p : Nat) (x : Option Nat) :
    Option (List (Option (DataNode K V))) :=
  match deref h p with
  | some n => some (h.set p (some { n with next := x }))
  | none => none

/-- The assignment `p->value = v`. -/
def setValue (h : List (Option (DataNode K V))) (p : Nat) (v : V) :
    Option (List (Option (DataNode K V))) :=
  match deref h p with
  | some n => some (h.set p (some { n with value := v }))
  | none => none

end Heap

section Operations

variable {K V : Type} [DecidableEq K] (hash_fn_ : K → Nat)

/-- The constructor `HashTable(bool, int, double)`. `used_bucket_num_` is not
assigned by it, so the value it happens to hold is the argument `used0`. -/
def HashTable.construct (auto_rehash : Bool) (bucket_num : Int) (load_factor : Dbl)
    (used0 : Int) : HashTable K V :=
  let bucket_num := if bucket_num < 1 then 13 else bucket_num
  let load_factor :=
    if Dbl.le load_factor (Dbl.ofInt 0) then Dbl.three_quarters else load_factor
  { size_ := 0
    bucket_num_ := bucket_num
    used_bucket_num_ := used0
    auto_rehash_ := auto_rehash
    load_factor_ := load_factor
    head := none
    table := List.replicate bucket_num.toNat none
    heap := [] }

/-- The method `index`: `hash_fn_(key) % bucket_num_`. -/
def HashTable.index (t : HashTable K V) (key : K) : Nat :=
  hash_fn_ key % t.bucket_num_.toNat

/-- The private `put(DataNode*)`, used by `rehash` only: link an existing node
in front of its bucket, or in front of the whole list when the bucket is empty. -/
def HashTable.put_node (t : HashTable K V) (new_node : Nat) : Option (HashTable K V) := do
  let nn ← deref t.heap new_node
  let idx := t.index hash_fn_ nn.key
  let node ← t.table[idx]?
  match node with
  | none =>
    let h1 ← setPrev t.heap new_node none
    let h2 ← setNext h1 new_node t.head
    let h3 ← (match t.head with
      | some hd => setPrev h2 hd (some new_node)
      | none => some h2)
    some { t with
      heap := h3
      head := some new_node
      table := t.table.set idx (some new_node)
      used_bucket_num_ := t.used_bucket_num_ + 1 }
  | some node =>
    let n ← deref t.heap node
    let h1 ← setPrev t.heap new_node n.prev
    let h2 ← setNext h1 new_node (some node)
    let h3 ← setPrev h2 node (some new_node)
    let tbl := t.table.set idx (some new_node)
    let nn3 ← deref h3 new_node
    match nn3.prev with
    | some p =>
      let h4 ← setNext h3 p (some new_node)
      some { t with heap := h4, table := tbl }
    | none =>
      if some node = t.head then
        some { t with heap := h3, table := tbl, head := some new_node }
      else
        some { t with heap := h3, table := tbl }

/-- The method `empty`. -/
def HashTable.empty (t : HashTable K V) : Bool :=
  decide (t.size_ = 0)

/-- The method `size`. -/
def HashTable.size (t : HashTable K V) : Int :=
  t.size_

/-- The `while (node != NULL)` loop of `rehash`: `node = node->next` is read
before `put(curr)` relinks `curr`. -/
def HashTable.rehash_loop : Nat → HashTable K V → Option Nat → Option (HashTable K V)
  | 0, _, _ => none
  | _ + 1, t, none => some t
  | fuel + 1, t, some curr =>
    match deref t.heap curr with
    | none => none
    | some c =>
      match t.put_node hash_fn_ curr with
      | none => none
      | some t1 => HashTable.rehash_loop fuel t1 c.next

/-- The method `rehash`: a fresh table of `bucket_num_ * 2 + 1` null buckets,
an empty list, and every node of the old list put again, in list order. The
`int` product and sum of line 148 have no defined result outside the 32-bit
range. -/
def HashTable.rehash (t : HashTable K V) : Option (Bool × HashTable K V) :=
  let node := t.head
  match checked (t.bucket_num_ * 2) with
  | none => none
  | some twice =>
    match checked (twice + 1) with
    | none => none
    | some bucket_num =>
      let t0 : HashTable K V := { t with
        head := none
        used_bucket_num_ := 0
        bucket_num_ := bucket_num
        table := List.replicate bucket_num.toNat none }
      match HashTable.rehash_loop hash_fn_ (t.heap.length + 1) t0 node with
      | none => none
      | some t1 => some (true, t1)

/-- The bucket scan shared by `has_key`, `get` and `put`:
`while (node != NULL && index(node->key) == idx) { if (node->key == key) ...; node = node->next; }`.
The result is the node with the key, or `none` when the loop falls through. -/
def HashTable.find_loop (t : HashTable K V) (key : K) (idx : Nat) :
    Nat → Option Nat → Option (Option Nat)
  | 0, _ => none
  | _ + 1, none => some none
  | fuel + 1, some p =>
    match deref t.heap p with
    | none => none
    | some n =>
      if t.index hash_fn_ n.key = idx then
        if n.key = key then some (some p) else HashTable.find_loop t key idx fuel n.next
      else some none

/-- The method `has_key`. -/
def HashTable.has_key (t : HashTable K V) (key : K) : Option Bool := do
  let idx := t.index hash_fn_ key
  let node ← t.table[idx]?
  let r ← t.find_loop hash_fn_ key idx (t.heap.length + 1) node
  some r.isSome

/-- The method `get`. The pointer `&node->value` it returns is represented by
the value it points to; the inner `none` is `NULL`. -/
def HashTable.get (t : HashTable K V) (key : K) : Option (Option V) := do
  let idx := t.index hash_fn_ key
  let node ← t.table[idx]?
  let r ← t.find_loop hash_fn_ key idx (t.heap.length + 1) node
  match r with
  | none => some none
  | some p =>
    let n ← deref t.heap p
    some (some n.value)

/-- Lines 233-283 of `put(const pair<K, V>&, bool)`: everything after the
automatic rehash. The fields `prev` and `next` of the node made by `new DataNode`
are assigned before they are read. -/
def HashTable.put_insert (t : HashTable K V) (key : K) (value : V) (replacing : Bool) :
    Option (Bool × HashTable K V) := do
  let idx := t.index hash_fn_ key
  let node ← t.table[idx]?
  match node with
  | none =>
    let new_node := t.heap.length
    let h0 := t.heap ++ [some { key := key, value := value, prev := none, next := none }]
    let h1 ← setPrev h0 new_node none
    let h2 ← setNext h1 new_node t.head
    let h3 ← (match t.head with
      | some hd => setPrev h2 hd (some new_node)
      | none => some h2)
    some (false, { t with
      heap := h3
      head := some new_node
      table := t.table.set idx (some new_node)
      size_ := t.size_ + 1
      used_bucket_num_ := t.used_bucket_num_ + 1 })
  | some first =>
    let r ← t.find_loop hash_fn_ key idx (t.heap.length + 1) (some first)
    match r with
    | some p =>
      if replacing then
        match setValue t.heap p value with
        | some h1 => some (true, { t with heap := h1 })
        | none => none
      else some (false, t)
    | none =>
      let node := first
      let new_node := t.heap.length
      let h0 := t.heap ++ [some { key := key, value := value, prev := none, next := none }]
      let n ← deref h0 node
      let h1 ← setPrev h0 new_node n.prev
      let h2 ← setNext h1 new_node (some node)
      let h3 ← setPrev h2 node (some new_node)
      let tbl := t.table.set idx (some new_node)
      let nn3 ← deref h3 new_node
      match nn3.prev with
      | some q =>
        let h4 ← setNext h3 q (some new_node)
        some (false, { t with heap := h4, table := tbl, size_ := t.size_ + 1 })
      | none =>
        if some node = t.head then
          some (false, { t with heap := h3, table := tbl, head := some new_node,
                                size_ := t.size_ + 1 })
        else
          some (false, { t with heap := h3, table := tbl, size_ := t.size_ + 1 })

/-- The test of line 230:
`auto_rehash_ && (double)used_bucket_num_ / (double)bucket_num_ > load_factor_`. -/
def HashTable.over_load (t : HashTable K V) : Bool :=
  t.auto_rehash_ &&
    Dbl.gt (Dbl.div (Dbl.ofInt t.used_bucket_num_) (Dbl.ofInt t.bucket_num_)) t.load_factor_

/-- The number of occupied buckets, in the words of the specification: the
slots of the bucket array that are not null. -/
def HashTable.occupied_bucket_count (t : HashTable K V) : Int :=
  ((t.table.countP (fun p => p.isSome) : Nat) : Int)

/-- The public `put(const pair<K, V>&, bool)`: the automatic rehash of lines
230-231, then the insertion proper. -/
def HashTable.put (t : HashTable K V) (kv_pair : K × V) (replacing : Bool) :
    Option (Bool × HashTable K V) := do
  let key := kv_pair.1
  let value := kv_pair.2
  let t ← (if t.over_load then
      (match t.rehash hash_fn_ with
        | some r => some r.2
        | none => none)
    else some t)
  t.put_insert hash_fn_ key value replacing

/-- The search loop of `remove`:
`while (node != NULL && node->key != key && index(node->key) == idx) node = node->next;`. -/
def HashTable.remove_loop (t : HashTable K V) (key : K) (idx : Nat) :
    Nat → Option Nat → Option (Option Nat)
  | 0, _ => none
  | _ + 1, none => some none
  | fuel + 1, some p =>
    match deref t.heap p with
    | none => none
    | some n =>
      if n.key ≠ key ∧ t.index hash_fn_ n.key = idx then
        HashTable.remove_loop t key idx fuel n.next
      else some (some p)

/-- The method `remove(K&&)`, statement by statement. Two things to note in the
source: `else if (node == head) head = node;` assigns `head` its own value, and
`table[idx]` is only reassigned when the removed node has no successor or a
successor of the same bucket. -/
def HashTable.remove (t : HashTable K V) (key : K) : Option (Bool × HashTable K V) := do
  let idx := t.index hash_fn_ key
  let first ← t.table[idx]?
  match first with
  | none => some (false, t)
  | some first =>
    let found ← t.remove_loop hash_fn_ key idx (t.heap.length + 1) (some first)
    match found with
    | none => some (false, t)
    | some node =>
      let n ← deref t.heap node
      if t.index hash_fn_ n.key ≠ idx then some (false, t)
      else
        -- if (node->prev != NULL) node->prev->next = node->next; else if (node == head) head = node;
        let h1 ← (match n.prev with
          | some q => setNext t.heap q n.next
          | none => some t.heap)
        let head1 := (match n.prev with
          | some _ => t.head
          | none => if some node = t.head then some node else t.head)
        -- if (node->next != NULL) node->next->prev = node->prev;
        let n1 ← deref h1 node
        let h2 ← (match n1.next with
          | some q => setPrev h1 q n1.prev
          | none => some h1)
        -- if (node == table[idx]) { ... }
        let n2 ← deref h2 node
        let cur ← t.table[idx]?
        let tu ← (if some node = cur then
            match n2.next with
            | none => some (t.table.set idx none, t.used_bucket_num_ - 1)
            | some q =>
              match deref h2 q with
              | none => none
              | some nq =>
                if idx = t.index hash_fn_ nq.key then
                  some (t.table.set idx (some q), t.used_bucket_num_)
                else some (t.table, t.used_bucket_num_)
          else some (t.table, t.used_bucket_num_))
        -- delete node; size_--;
        some (true, { t with
          heap := h2.set node none
          head := head1
          table := tu.1
          used_bucket_num_ := tu.2
          size_ := t.size_ - 1 })

/-- The loop of `get_all_keys`: walk `next` from `node`, collecting the keys. -/
def walk_keys (h : List (Option (DataNode K V))) : Nat → Option Nat → Option (List K)
  | 0, _ => none
  | _ + 1, none => some []
  | fuel + 1, some p =>
    match deref h p with
    | none => none
    | some n =>
      match walk_keys h fuel n.next with
      | none => none
      | some rest => some (n.key :: rest)

/-- The loop of `get_all_values`: walk `next` from `node`, collecting the values. -/
def walk_values (h : List (Option (DataNode K V))) : Nat → Option Nat → Option (List V)
  | 0, _ => none
  | _ + 1, none => some []
  | fuel + 1, some p =>
    match deref h p with
    | none => none
    | some n =>
      match walk_values h fuel n.next with
      | none => none
      | some rest => some (n.value :: rest)

/-- The local vector `result` of `get_all_keys` when its loop ends (lines
399-405): the keys in list order. -/
def HashTable.get_all_keys_result (t : HashTable K V) : Option (List K) :=
  walk_keys t.heap (t.heap.length + 1) t.head

/-- The local vector `result` of `get_all_values` when its loop ends (lines
412-418): the values in list order. -/
def HashTable.get_all_values_result (t : HashTable K V) : Option (List V) :=
  walk_values t.heap (t.heap.length + 1) t.head

/-- The method `get_all_keys`: it returns `vector<K>&`, a reference to the local
`result`, which is destroyed when the method returns. -/
def HashTable.get_all_keys (t : HashTable K V) : Option (Ref (List K)) :=
  match t.get_all_keys_result with
  | none => none
  | some _ => some Ref.dangling

/-- The method `get_all_values`: it returns `vector<V>&`, a reference to the
local `result`, which is destroyed when the method returns. -/
def HashTable.get_all_values (t : HashTable K V) : Option (Ref (List V)) :=
  match t.get_all_values_result with
  | none => none
  | some _ => some Ref.dangling

end Operations

/-! ## The abstract view: the list of entries a heap represents -/

section Abstract

variable {K V : Type} [DecidableEq K]

/-- An entry of the list: the address of its node, its key and its value. -/
structure Cell (K V : Type) where
  addr : Nat
  key : K
  value : V

/-- The address of the first cell of `L`, or `nxt` when `L` is empty. -/
def firstAddr (L : List (Cell K V)) (nxt : Option Nat) : Option Nat :=
  match L with
  | [] => nxt
  | c :: _ => some c.addr

/-- The address of the last cell of `L`, or `prv` when `L` is empty. -/
def lastAddr : List (Cell K V) → Option Nat → Option Nat
  | [], prv => prv
  | c :: cs, _ => lastAddr cs (some c.addr)

/-- The heap `h` holds the cells of `L` as a doubly linked segment entered from
`prv` and left towards `nxt`. -/
def Lnk (h : List (Option (DataNode K V))) : Option Nat → List (Cell K V) → Option Nat → Prop
  | _, [], _ => True
  | prv, c :: cs, nxt =>
    deref h c.addr = some ⟨c.key, c.value, prv, firstAddr cs nxt⟩ ∧ Lnk h (some c.addr) cs nxt

/-- The heap `h` holds the cells of `L` linked by `next` only (`prev` is free). -/
def Fwd (h : List (Option (DataNode K V))) : List (Cell K V) → Prop
  | [] => True
  | c :: cs =>
    (∃ pv, deref h c.addr = some ⟨c.key, c.value, pv, firstAddr cs none⟩) ∧ Fwd h cs

/-- The address of the first cell of `L` whose key has bucket index `i`. -/
def bucketHead (ix : K → Nat) (i : Nat) : List (Cell K V) → Option Nat
  | [] => none
  | c :: cs => if ix c.key = i then some c.addr else bucketHead ix i cs

/-- The first cell of `L` with key `k`. -/
def lookup (k : K) : List (Cell K V) → Option (Cell K V)
  | [] => none
  | c :: cs => if c.key = k then some c else lookup k cs

/-- The cells of one bucket are contiguous: when a later cell has the bucket
index of `c`, so has the cell right after `c`. -/
def Grouped (ix : K → Nat) : List (Cell K V) → Prop
  | [] => True
  | c :: cs =>
    (∀ d ∈ cs, ix d.key = ix c.key → ∃ e, cs.head? = some e ∧ ix e.key = ix c.key) ∧
      Grouped ix cs

/-- Put `e` right before the first cell of its bucket. -/
def linkBefore (ix : K → Nat) (e : Cell K V) : List (Cell K V) → List (Cell K V)
  | [] => [e]
  | c :: cs => if ix c.key = ix e.key then e :: c :: cs else c :: linkBefore ix e cs

/-- Where a node goes when it is linked: before the first cell of its bucket,
or in front of the whole list when its bucket is empty. -/
def link (ix : K → Nat) (e : Cell K V) (L : List (Cell K V)) : List (Cell K V) :=
  if bucketHead ix (ix e.key) L = none then e :: L else linkBefore ix e L

/-- The list after `rehash`: the cells of `L`, linked one by one in list order. -/
def relink (ix : K → Nat) (L : List (Cell K V)) : List (Cell K V) :=
  L.foldl (fun acc c => link ix c acc) []

/-- The cell with key `k` gets the value `v`. -/
def setVal (k : K) (v : V) : List (Cell K V) → List (Cell K V)
  | [] => []
  | c :: cs => if c.key = k then { c with value := v } :: cs else c :: setVal k v cs

/-- The representation invariant, size apart: `t` holds the list `L`. -/
structure Shape (hash_fn_ : K → Nat) (t : HashTable K V) (L : List (Cell K V)) : Prop where
  bucket_pos : 1 ≤ t.bucket_num_
  table_len : (t.table.length : Int) = t.bucket_num_
  table_ok : ∀ i, i < t.table.length → t.table[i]? = some (bucketHead (t.index hash_fn_) i L)
  head_ok : t.head = firstAddr L none
  linked : Lnk t.heap none L none
  addr_nodup : (L.map Cell.addr).Nodup
  key_nodup : (L.map Cell.key).Nodup
  grouped : Grouped (t.index hash_fn_) L

/-- The representation invariant: `t` holds the list `L` and counts it. -/
structure Rep (hash_fn_ : K → Nat) (t : HashTable K V) (L : List (Cell K V)) : Prop where
  shape : Shape hash_fn_ t L
  size_ok : t.size_ = (L.length : Int)

/-- The tables reached from a newly constructed one by `put` calls. -/
inductive ReachPut (hash_fn_ : K → Nat) : HashTable K V → Prop
  | construct (auto_rehash : Bool) (bucket_num : Int) (load_factor : Dbl) (used0 : Int) :
      ReachPut hash_fn_ (HashTable.construct auto_rehash bucket_num load_factor used0)
  | put {t t1 : HashTable K V} (kv : K × V) (replacing b : Bool) :
      ReachPut hash_fn_ t → t.put hash_fn_ kv replacing = some (b, t1) → ReachPut hash_fn_ t1

/-- The tables reached from a newly constructed one by `put` and `rehash` calls. -/
inductive Reach (hash_fn_ : K → Nat) : HashTable K V → Prop
  | construct (auto_rehash : Bool) (bucket_num : Int) (load_factor : Dbl) (used0 : Int) :
      Reach hash_fn_ (HashTable.construct auto_rehash bucket_num load_factor used0)
  | put {t t1 : HashTable K V} (kv : K × V) (replacing b : Bool) :
      Reach hash_fn_ t → t.put hash_fn_ kv replacing = some (b, t1) → Reach hash_fn_ t1
  | rehash {t t1 : HashTable K V} (b : Bool) :
      Reach hash_fn_ t → t.rehash hash_fn_ = some (b, t1) → Reach hash_fn_ t1

end Abstract

/-! ## The order after `rehash`, on key-value pairs -/

section Regroup

variable {K V : Type}

/-- Put the pair `e` right before the first pair of its bucket (at the end when
there is none). -/
def placeBefore (ix : K → Nat) (e : K × V) : List (K × V) → List (K × V)
  | [] => [e]
  | p :: ps => if ix p.1 = ix e.1 then e :: p :: ps else p :: placeBefore ix e ps

/-- Where `put(DataNode*)` links an entry: right before the first entry of its
bucket, or in front of the whole sequence when its bucket has no entry yet. -/
def place (ix : K → Nat) (e : K × V) (l : List (K × V)) : List (K × V) :=
  if l.any (fun p => decide (ix p.1 = ix e.1)) then placeBefore ix e l else e :: l

/-- The enumeration after `rehash`, computed from the enumeration before it: the
entries are linked again one by one, in their previous order, starting from
the empty sequence. -/
def regroup (ix : K → Nat) (l : List (K × V)) : List (K × V) :=
  l.foldl (fun acc e => place ix e acc) []

end Regroup

/-! ## Some concrete tables -/

section Examples

/-- The table after one more `put` with `replacing = true`. -/
def HashTable.after_put (t : HashTable Nat Nat) (kv : Nat × Nat) : HashTable Nat Nat :=
  match t.put id kv true with
  | some r => r.2
  | none => t

/-- The table after one `remove`. -/
def HashTable.after_remove (t : HashTable Nat Nat) (key : Nat) : HashTable Nat Nat :=
  match t.remove id key with
  | some r => r.2
  | none => t

/-- A table of 13 buckets, no automatic rehash, hashing a number to itself. -/
def table_empty : HashTable Nat Nat := HashTable.construct false 13 Dbl.three_quarters 0

/-- The table holding the key 0. -/
def table_0 : HashTable Nat Nat := table_empty.after_put (0, 10)

/-- The table holding the keys 0 and 1, put in that order. -/
def table_10 : HashTable Nat Nat := table_0.after_put (1, 11)

/-- The table holding the keys 0, 1 and 2, put in that order. -/
def table_210 : HashTable Nat Nat := table_10.after_put (2, 12)

/-- The `double` nearest to 0.6, which lies below it. -/
def six_tenths : Dbl := Dbl.fin 5404319552844595 (-53)

/-- A table of 5 buckets with automatic rehash and load factor 0.6, holding the
keys 0, 1, 2 in three buckets. -/
def table_sixty : HashTable Nat Nat :=
  (((HashTable.construct true 5 six_tenths 0 : HashTable Nat Nat).after_put (0, 10)).after_put
    (1, 11)).after_put (2, 12)

/-- A table with `2 ^ 30` buckets and no entry: `HashTable<int,int>(false, 1073741824)`. -/
def table_big : HashTable Nat Nat :=
  HashTable.construct false 1073741824 Dbl.three_quarters 0

end Examples

/-! ## Runs of calls -/

section Runs

variable {K V : Type} [DecidableEq K] (hash_fn_ : K → Nat)

/-- The calls `put(kv)` (with the default `replacing = true`) for the pairs of a
list, in list order. -/
def HashTable.put_all (t : HashTable K V) : List (K × V) → Option (HashTable K V)
  | [] => some t
  | kv :: rest =>
    match t.put hash_fn_ kv true with
    | some r => HashTable.put_all r.2 rest
    | none => none

/-- The tables reached from a newly constructed one by `put`, `remove` and
`rehash` calls that return. -/
inductive ReachAll (hash_fn_ : K → Nat) : HashTable K V → Prop
  | construct (auto_rehash : Bool) (bucket_num : Int) (load_factor : Dbl) (used0 : Int) :
      ReachAll hash_fn_ (HashTable.construct auto_rehash bucket_num load_factor used0)
  | put {t t1 : HashTable K V} (kv : K × V) (replacing b : Bool) :
      ReachAll hash_fn_ t → t.put hash_fn_ kv replacing = some (b, t1) → ReachAll hash_fn_ t1
  | remove {t t1 : HashTable K V} (key : K) (b : Bool) :
      ReachAll hash_fn_ t → t.remove hash_fn_ key = some (b, t1) → ReachAll hash_fn_ t1
  | rehash {t t1 : HashTable K V} (b : Bool) :
      ReachAll hash_fn_ t → t.rehash hash_fn_ = some (b, t1) → ReachAll hash_fn_ t1

end Runs

/-! ## The example scenario of the specification -/

section Scenario

/-- A hash function that sends the keys "a", "b", "c" to 0, 1, 2. -/
def abc_hash (s : String) : Nat :=
  if s = "a" then 0 else if s = "b" then 1 else 2

/-- The scenario table: automatic rehash, one bucket, load factor 0.75, and
`used_bucket_num_` starting at 0. -/
def scenario_new : HashTable String Nat :=
  HashTable.construct true 1 Dbl.three_quarters 0

/-- The scenario table after `put(("a", 1))`, which does not rehash. -/
def scenario_a : HashTable String Nat :=
  match scenario_new.put_insert abc_hash "a" 1 true with
  | some r => r.2
  | none => scenario_new

/-- The table `scenario_a` after the rehash that `put(("b", 2))` starts with. -/
def scenario_a3 : HashTable String Nat :=
  match scenario_a.rehash abc_hash with
  | some r => r.2
  | none => scenario_a

/-- The scenario table after `put(("b", 2))`. -/
def scenario_ab : HashTable String Nat :=
  match scenario_a3.put_insert abc_hash "b" 2 true with
  | some r => r.2
  | none => scenario_a3

/-- The scenario table after `put(("c", 3))`, which does not rehash. -/
def scenario_abc : HashTable String Nat :=
  match scenario_ab.put_insert abc_hash "c" 3 true with
  | some r => r.2
  | none => scenario_ab

/-- The scenario table after `remove("b")`. -/
def scenario_ac : HashTable String Nat :=
  match scenario_abc.remove abc_hash "b" with
  | some r => r.2
  | none => scenario_abc

/-- The table `table_210` after an explicit `rehash()`. -/
def table_012 : HashTable Nat Nat :=
  match table_210.rehash id with
  | some r => r.2
  | none => table_210

end Scenario

/-! ## Heap lemmas -/

section HeapLemmas

variable {K V : Type}

theorem deref_lt {h : List (Option (DataNode K V))} {p : Nat} {n : DataNode K V}
    (hd : deref h p = some n) : p < h.length := by
  by_contra hlt
  have hnone : h[p]? = none := List.getElem?_eq_none (by omega)
  simp [deref, hnone] at hd

theorem deref_set_self {h : List (Option (DataNode K V))} {p : Nat} (n : DataNode K V)
    (hp : p < h.length) : deref (h.set p (some n)) p = some n := by
  simp [deref, List.getElem?_set_self, hp]

theorem deref_set_ne {h : List (Option (DataNode K V))} {p q : Nat}
    (x : Option (DataNode K V)) (hq : q ≠ p) : deref (h.set p x) q = deref h q := by
  simp [deref, List.getElem?_set_ne (Ne.symm hq)]

theorem deref_append {h : List (Option (DataNode K V))} {p : Nat}
    (l : List (Option (DataNode K V))) (hp : p < h.length) :
    deref (h ++ l) p = deref h p := by
  simp [deref, List.getElem?_append_left hp]

theorem deref_append_length (h : List (Option (DataNode K V))) (n : DataNode K V) :
    deref (h ++ [some n]) h.length = some n := by
  simp [deref]

theorem setPrev_eq {h : List (Option (DataNode K V))} {p : Nat} {n : DataNode K V}
    (x : Option Nat) (hd : deref h p = some n) :
    setPrev h p x = some (h.set p (some { n with prev := x })) := by
  simp [setPrev, hd]

theorem setNext_eq {h : List (Option (DataNode K V))} {p : Nat} {n : DataNode K V}
    (x : Option Nat) (hd : deref h p = some n) :
    setNext h p x = some (h.set p (some { n with next := x })) := by
  simp [setNext, hd]

theorem setValue_eq {h : List (Option (DataNode K V))} {p : Nat} {n : DataNode K V}
    (v : V) (hd : deref h p = some n) :
    setValue h p v = some (h.set p (some { n with value := v })) := by
  simp [setValue, hd]

theorem nodup_length_le {l : List Nat} {n : Nat} (hn : l.Nodup) (hb : ∀ x ∈ l, x < n) :
    l.length ≤ n := by
  have hsub : l ⊆ List.range n := fun x hx => List.mem_range.2 (hb x hx)
  have hle := (List.subperm_of_subset hn hsub).length_le
  simpa using hle

end HeapLemmas

/-! ## Linked segments -/

section LnkLemmas

variable {K V : Type}

theorem Lnk_frame {h h1 : List (Option (DataNode K V))} :
    ∀ (L : List (Cell K V)) (prv nxt : Option Nat),
      (∀ c ∈ L, deref h1 c.addr = deref h c.addr) → Lnk h prv L nxt → Lnk h1 prv L nxt
  | [], _, _, _, _ => trivial
  | c :: cs, _, _, hf, hl =>
    ⟨by rw [hf c (List.mem_cons_self _ _)]; exact hl.1,
      Lnk_frame cs _ _ (fun d hd => hf d (List.mem_cons_of_mem _ hd)) hl.2⟩

theorem Fwd_frame {h h1 : List (Option (DataNode K V))} :
    ∀ (L : List (Cell K V)),
      (∀ c ∈ L, deref h1 c.addr = deref h c.addr) → Fwd h L → Fwd h1 L
  | [], _, _ => trivial
  | c :: cs, hf, hl =>
    ⟨by rw [hf c (List.mem_cons_self _ _)]; exact hl.1,
      Fwd_frame cs (fun d hd => hf d (List.mem_cons_of_mem _ hd)) hl.2⟩

theorem Fwd_of_Lnk {h : List (Option (DataNode K V))} :
    ∀ (L : List (Cell K V)) (prv : Option Nat), Lnk h prv L none → Fwd h L
  | [], _, _ => trivial
  | _ :: cs, prv, hl => ⟨⟨prv, hl.1⟩, Fwd_of_Lnk cs _ hl.2⟩

theorem Fwd_addr_lt {h : List (Option (DataNode K V))} :
    ∀ (L : List (Cell K V)), Fwd h L → ∀ c ∈ L, c.addr < h.length
  | [], _, _, hc => by simp at hc
  | d :: ds, hl, c, hc => by
    rcases List.mem_cons.1 hc with rfl | hc
    · obtain ⟨pv, hpv⟩ := hl.1
      exact deref_lt hpv
    · exact Fwd_addr_lt ds hl.2 c hc

theorem Fwd_length_le {h : List (Option (DataNode K V))} {L : List (Cell K V)}
    (hl : Fwd h L) (hn : (L.map Cell.addr).Nodup) : L.length ≤ h.length := by
  have hle := nodup_length_le hn (n := h.length) (by
    intro x hx
    obtain ⟨c, hc, rfl⟩ := List.mem_map.1 hx
    exact Fwd_addr_lt L hl c hc)
  simpa using hle

theorem lastAddr_mem : ∀ (L : List (Cell K V)) (prv : Option Nat), L ≠ [] →
    ∃ c ∈ L, lastAddr L prv = some c.addr
  | [], _, hne => absurd rfl hne
  | [c], _, _ => ⟨c, List.mem_cons_self _ _, rfl⟩
  | c :: d :: ds, _, _ => by
    obtain ⟨e, he, heq⟩ := lastAddr_mem (d :: ds) (some c.addr) (by simp)
    exact ⟨e, List.mem_cons_of_mem _ he, heq⟩

theorem firstAddr_append_ne (L1 L2 L3 : List (Cell K V)) (nxt : Option Nat) (hne : L1 ≠ []) :
    firstAddr (L1 ++ L2) nxt = firstAddr (L1 ++ L3) nxt := by
  cases L1 with
  | nil => exact absurd rfl hne
  | cons c cs => rfl

/-- The four pointer assignments that link the node `a` between `pv` and `nx`. -/
theorem splice_heap {h : List (Option (DataNode K V))} {a : Nat} {n0 : DataNode K V}
    (pv nx : Option Nat) (ha : deref h a = some n0)
    (hnx : ∀ b, nx = some b → b ≠ a ∧ ∃ nb, deref h b = some nb)
    (hpv : ∀ p, pv = some p → p ≠ a ∧ some p ≠ nx ∧ ∃ np, deref h p = some np) :
    ∃ h1 h2 h3 h4, setPrev h a pv = some h1 ∧ setNext h1 a nx = some h2 ∧
      (∀ b, nx = some b → setPrev h2 b (some a) = some h3) ∧ (nx = none → h3 = h2) ∧
      deref h3 a = some ⟨n0.key, n0.value, pv, nx⟩ ∧
      (∀ p, pv = some p → setNext h3 p (some a) = some h4) ∧ (pv = none → h4 = h3) ∧
      h4.length = h.length ∧
      deref h4 a = some ⟨n0.key, n0.value, pv, nx⟩ ∧
      (∀ b n, nx = some b → deref h b = some n →
        deref h4 b = some { n with prev := some a }) ∧
      (∀ p n, pv = some p → deref h p = some n →
        deref h4 p = some { n with next := some a }) ∧
      (∀ q, q ≠ a → some q ≠ nx → some q ≠ pv → deref h4 q = deref h q) := by
  have hal : a < h.length := deref_lt ha
  have e1 : setPrev h a pv = some (h.set a (some { n0 with prev := pv })) := setPrev_eq pv ha
  have d1 : deref (h.set a (some { n0 with prev := pv })) a = some { n0 with prev := pv } :=
    deref_set_self _ hal
  have e2 : setNext (h.set a (some { n0 with prev := pv })) a nx =
      some ((h.set a (some { n0 with prev := pv })).set a
        (some { key := n0.key, value := n0.value, prev := pv, next := nx })) := setNext_eq nx d1
  have hl2 : a < (h.set a (some { n0 with prev := pv })).length := by simpa using hal
  have d2 := deref_set_self (h := h.set a (some { n0 with prev := pv }))
    { key := n0.key, value := n0.value, prev := pv, next := nx } hl2
  cases nx with
  | none =>
    cases pv with
    | none =>
      refine ⟨_, _, _, _, e1, e2, (fun _ hb => by cases hb), (fun _ => rfl), d2,
        (fun _ hb => by cases hb), (fun _ => rfl), by simp, d2, ?_, ?_, ?_⟩
      · intro b n hb; cases hb
      · intro p n hp; cases hp
      · intro q hq _ _
        rw [deref_set_ne _ hq, deref_set_ne _ hq]
    | some p =>
      obtain ⟨hpa, -, np, hnp⟩ := hpv p rfl
      have d3 : deref ((h.set a (some { n0 with prev := some p })).set a
          (some { key := n0.key, value := n0.value, prev := some p, next := none })) p
          = some np := by
        rw [deref_set_ne _ hpa, deref_set_ne _ hpa]; exact hnp
      refine ⟨_, _, _, _, e1, e2, (fun _ hb => by cases hb), (fun _ => rfl), d2,
        (fun _ hb => by cases hb; exact setNext_eq _ d3), (fun hn => by cases hn), by simp,
        ?_, ?_, ?_, ?_⟩
      · rw [deref_set_ne _ (Ne.symm hpa)]; exact d2
      · intro b n hb; cases hb
      · intro q n hq hn
        cases hq
        rw [hnp] at hn
        cases hn
        exact deref_set_self _ (by simpa using deref_lt hnp)
      · intro q hq _ hqp
        have hqp1 : q ≠ p := fun e => hqp (by rw [e])
        rw [deref_set_ne _ hqp1, deref_set_ne _ hq, deref_set_ne _ hq]
  | some b =>
    obtain ⟨hba, nb, hnb⟩ := hnx b rfl
    have d3 : deref ((h.set a (some { n0 with prev := pv })).set a
        (some { key := n0.key, value := n0.value, prev := pv, next := some b })) b
        = some nb := by
      rw [deref_set_ne _ hba, deref_set_ne _ hba]; exact hnb
    have hbl : b < h.length := deref_lt hnb
    cases pv with
    | none =>
      refine ⟨_, _, _, _, e1, e2, (fun _ hb => by cases hb; exact setPrev_eq _ d3),
        (fun hn => by cases hn), ?_, (fun _ hb => by cases hb), (fun _ => rfl), by simp,
        ?_, ?_, ?_, ?_⟩
      · rw [deref_set_ne _ (Ne.symm hba)]; exact d2
      · rw [deref_set_ne _ (Ne.symm hba)]; exact d2
      · intro q n hq hn
        cases hq
        rw [hnb] at hn
        cases hn
        exact deref_set_self _ (by simpa using hbl)
      · intro p n hp; cases hp
      · intro q hq hqb _
        have hqb1 : q ≠ b := fun e => hqb (by rw [e])
        rw [deref_set_ne _ hqb1, deref_set_ne _ hq, deref_set_ne _ hq]
    | some p =>
      obtain ⟨hpa, hpb, np, hnp⟩ := hpv p rfl
      have hpb1 : p ≠ b := fun e => hpb (by rw [e])
      have d4 : deref (((h.set a (some { n0 with prev := some p })).set a
          (some { key := n0.key, value := n0.value, prev := some p, next := some b })).set b
          (some { nb with prev := some a })) p = some np := by
        rw [deref_set_ne _ hpb1, deref_set_ne _ hpa, deref_set_ne _ hpa]; exact hnp
      refine ⟨_, _, _, _, e1, e2, (fun _ hb => by cases hb; exact setPrev_eq _ d3),
        (fun hn => by cases hn), ?_, (fun _ hb => by cases hb; exact setNext_eq _ d4),
        (fun hn => by cases hn), by simp, ?_, ?_, ?_, ?_⟩
      · rw [deref_set_ne _ (Ne.symm hba)]; exact d2
      · rw [deref_set_ne _ (Ne.symm hpa), deref_set_ne _ (Ne.symm hba)]; exact d2
      · intro q n hq hn
        cases hq
        rw [hnb] at hn
        cases hn
        rw [deref_set_ne _ (Ne.symm hpb1)]
        exact deref_set_self _ (by simpa using hbl)
      · intro q n hq hn
        cases hq
        rw [hnp] at hn
        cases hn
        exact deref_set_self _ (by simpa using deref_lt hnp)
      · intro q hq hqb hqp
        have hqb1 : q ≠ b := fun e => hqb (by rw [e])
        have hqp1 : q ≠ p := fun e => hqp (by rw [e])
        rw [deref_set_ne _ hqp1, deref_set_ne _ hqb1, deref_set_ne _ hq, deref_set_ne _ hq]

/-- A heap that differs from `h` by the four assignments of `splice_heap` holds
the list with the new cell spliced in. -/
theorem Lnk_splice {h h4 : List (Option (DataNode K V))} {a : Nat} {k : K} {v : V}
    (L2 : List (Cell K V)) :
    ∀ (L1 : List (Cell K V)) (p0 : Option Nat),
      Lnk h p0 (L1 ++ L2) none →
      ((L1 ++ L2).map Cell.addr).Nodup →
      (∀ c ∈ L1 ++ L2, some c.addr ≠ p0) →
      deref h4 a = some ⟨k, v, lastAddr L1 p0, firstAddr L2 none⟩ →
      (∀ b n, firstAddr L2 none = some b → deref h b = some n →
        deref h4 b = some { n with prev := some a }) →
      (∀ p n, lastAddr L1 p0 = some p → deref h p = some n →
        deref h4 p = some { n with next := some a }) →
      (∀ c ∈ L1 ++ L2, some c.addr ≠ firstAddr L2 none → some c.addr ≠ lastAddr L1 p0 →
        deref h4 c.addr = deref h c.addr) →
      Lnk h4 p0 (L1 ++ ⟨a, k, v⟩ :: L2) none := by
  intro L1
  induction L1 with
  | nil =>
    intro p0 hl hn hp0 ha hx _ hf
    simp only [List.nil_append] at hl hn hp0 hf ⊢
    refine ⟨ha, ?_⟩
    cases L2 with
    | nil => trivial
    | cons d ds =>
      obtain ⟨hd, hds⟩ := hl
      refine ⟨hx d.addr _ rfl hd, ?_⟩
      refine Lnk_frame ds _ _ ?_ hds
      intro c hc
      refine hf c (List.mem_cons_of_mem _ hc) ?_ (hp0 c (List.mem_cons_of_mem _ hc))
      intro heq
      simp only [firstAddr, Option.some.injEq] at heq
      simp only [List.map_cons, List.nodup_cons, List.mem_map, not_exists, not_and] at hn
      exact hn.1 c hc heq
  | cons c cs ih =>
    intro p0 hl hn hp0 ha hx hv hf
    obtain ⟨hc, hcs⟩ := hl
    simp only [List.cons_append, List.map_cons, List.nodup_cons, List.mem_map, not_exists,
      not_and] at hn
    have hne : ∀ d ∈ cs ++ L2, some d.addr ≠ some c.addr := by
      intro d hd heq
      exact hn.1 d hd (Option.some.inj heq)
    have hcL2 : some c.addr ≠ firstAddr L2 none := by
      cases L2 with
      | nil => simp [firstAddr]
      | cons d ds =>
        intro heq
        exact hne d (List.mem_append_right _ (List.mem_cons_self _ _)) heq.symm
    refine ⟨?_, ih (some c.addr) hcs hn.2 hne ha hx hv ?_⟩
    · cases cs with
      | nil =>
        exact hv c.addr _ rfl hc
      | cons d ds =>
        have hlast : some c.addr ≠ lastAddr (c :: d :: ds) p0 := by
          obtain ⟨e, he, heq⟩ := lastAddr_mem (d :: ds) (some c.addr) (by simp)
          intro h1
          have h2 : lastAddr (c :: d :: ds) p0 = some e.addr := heq
          rw [h2] at h1
          exact hne e (List.mem_append_left _ he) h1.symm
        rw [hf c (List.mem_cons_self _ _) hcL2 hlast]
        exact hc
    · intro d hd h1 h2
      exact hf d (List.mem_cons_of_mem _ hd) h1 h2

end LnkLemmas

/-! ## The abstract list -/

section ListLemmas

variable {K V : Type}

theorem bucketHead_eq_none {ix : K → Nat} {i : Nat} :
    ∀ {L : List (Cell K V)}, bucketHead ix i L = none ↔ ∀ c ∈ L, ix c.key ≠ i
  | [] => by simp [bucketHead]
  | c :: cs => by
    by_cases hc : ix c.key = i
    · simp [bucketHead, hc]
    · simp [bucketHead, hc, bucketHead_eq_none (L := cs)]

theorem bucketHead_split {ix : K → Nat} {i p : Nat} :
    ∀ {L : List (Cell K V)}, bucketHead ix i L = some p →
      ∃ L1 b L2, L = L1 ++ b :: L2 ∧ (∀ c ∈ L1, ix c.key ≠ i) ∧ ix b.key = i ∧ b.addr = p
  | [], h => by simp [bucketHead] at h
  | c :: cs, h => by
    by_cases hc : ix c.key = i
    · simp only [bucketHead, hc, if_true, Option.some.injEq] at h
      exact ⟨[], c, cs, rfl, by simp, hc, h⟩
    · simp only [bucketHead, hc, if_false] at h
      obtain ⟨L1, b, L2, hL, h1, hb, hp⟩ := bucketHead_split h
      refine ⟨c :: L1, b, L2, by simp [hL], ?_, hb, hp⟩
      intro d hd
      rcases List.mem_cons.1 hd with rfl | hd
      · exact hc
      · exact h1 d hd

theorem linkBefore_append {ix : K → Nat} (e b : Cell K V) (L2 : List (Cell K V))
    (hb : ix b.key = ix e.key) :
    ∀ (L1 : List (Cell K V)), (∀ c ∈ L1, ix c.key ≠ ix e.key) →
      linkBefore ix e (L1 ++ b :: L2) = L1 ++ e :: b :: L2
  | [], _ => by simp [linkBefore, hb]
  | c :: cs, h => by
    have hc : ix c.key ≠ ix e.key := h c (List.mem_cons_self _ _)
    simp [linkBefore, hc, linkBefore_append e b L2 hb cs
      (fun d hd => h d (List.mem_cons_of_mem _ hd))]

theorem bucketHead_linkBefore {ix : K → Nat} (e : Cell K V) (i : Nat) :
    ∀ (L : List (Cell K V)),
      bucketHead ix i (linkBefore ix e L) =
        if i = ix e.key then some e.addr else bucketHead ix i L
  | [] => by
    by_cases h : i = ix e.key
    · simp [linkBefore, bucketHead, h]
    · simp [linkBefore, bucketHead, h, Ne.symm h]
  | c :: cs => by
    by_cases hc : ix c.key = ix e.key
    · by_cases h : i = ix e.key
      · simp [linkBefore, bucketHead, hc, h]
      · simp [linkBefore, bucketHead, hc, h, Ne.symm h]
    · by_cases h : i = ix e.key
      · subst h
        simp [linkBefore, bucketHead, hc, bucketHead_linkBefore e (ix e.key) cs]
      · by_cases hci : ix c.key = i
        · subst hci
          simp [linkBefore, bucketHead, hc]
        · simp [linkBefore, bucketHead, hc, hci, bucketHead_linkBefore e i cs, h]

theorem bucketHead_link {ix : K → Nat} (e : Cell K V) (i : Nat) (L : List (Cell K V)) :
    bucketHead ix i (link ix e L) =
      if i = ix e.key then some e.addr else bucketHead ix i L := by
  unfold link
  split
  · by_cases h : i = ix e.key
    · simp [bucketHead, h]
    · simp [bucketHead, h, Ne.symm h]
  · exact bucketHead_linkBefore e i L

theorem linkBefore_perm {ix : K → Nat} (e : Cell K V) :
    ∀ (L : List (Cell K V)), (linkBefore ix e L).Perm (e :: L)
  | [] => List.Perm.refl _
  | c :: cs => by
    by_cases hc : ix c.key = ix e.key
    · simp [linkBefore, hc]
    · simp only [linkBefore, hc, if_false]
      exact ((linkBefore_perm e cs).cons c).trans (List.Perm.swap e c cs)

theorem link_perm {ix : K → Nat} (e : Cell K V) (L : List (Cell K V)) :
    (link ix e L).Perm (e :: L) := by
  unfold link
  split
  · exact List.Perm.refl _
  · exact linkBefore_perm e L

theorem Grouped_linkBefore {ix : K → Nat} (e : Cell K V) :
    ∀ (L : List (Cell K V)), Grouped ix L → Grouped ix (linkBefore ix e L)
  | [], _ => by simp [linkBefore, Grouped]
  | c :: cs, hg => by
    by_cases hc : ix c.key = ix e.key
    · simp only [linkBefore, hc, if_true]
      exact ⟨fun _ _ _ => ⟨c, rfl, hc⟩, hg⟩
    · simp only [linkBefore, hc, if_false]
      refine ⟨?_, Grouped_linkBefore e cs hg.2⟩
      intro d hd hdc
      have hd1 : d ∈ e :: cs := (linkBefore_perm e cs).subset hd
      rcases List.mem_cons.1 hd1 with rfl | hd2
      · exact absurd hdc.symm hc
      · obtain ⟨f, hf, hfc⟩ := hg.1 d hd2 hdc
        cases cs with
        | nil => simp at hf
        | cons g gs =>
          simp only [List.head?_cons, Option.some.injEq] at hf
          subst hf
          have hge : ix g.key ≠ ix e.key := by rw [hfc]; exact hc
          exact ⟨g, by simp [linkBefore, hge], hfc⟩

theorem Grouped_link {ix : K → Nat} (e : Cell K V) (L : List (Cell K V))
    (hg : Grouped ix L) : Grouped ix (link ix e L) := by
  unfold link
  split
  · rename_i hnone
    refine ⟨?_, hg⟩
    intro d hd hde
    exact absurd hde (bucketHead_eq_none.1 hnone d hd)
  · exact Grouped_linkBefore e L hg

theorem Grouped_append_right {ix : K → Nat} :
    ∀ (L1 L2 : List (Cell K V)), Grouped ix (L1 ++ L2) → Grouped ix L2
  | [], _, h => h
  | _ :: cs, L2, h => Grouped_append_right cs L2 h.2

theorem lookup_eq_none [DecidableEq K] {k : K} :
    ∀ {L : List (Cell K V)}, lookup k L = none ↔ k ∉ L.map Cell.key
  | [] => by simp [lookup]
  | c :: cs => by
    by_cases hc : c.key = k
    · simp [lookup, hc]
    · simp [lookup, hc, lookup_eq_none (L := cs), Ne.symm hc]

theorem lookup_some [DecidableEq K] {k : K} {c : Cell K V} :
    ∀ {L : List (Cell K V)}, lookup k L = some c → c ∈ L ∧ c.key = k
  | [], h => by simp [lookup] at h
  | d :: ds, h => by
    by_cases hd : d.key = k
    · simp only [lookup, hd, if_true, Option.some.injEq] at h
      subst h
      exact ⟨List.mem_cons_self _ _, hd⟩
    · simp only [lookup, hd, if_false] at h
      exact ⟨List.mem_cons_of_mem _ (lookup_some h).1, (lookup_some h).2⟩

theorem lookup_of_mem [DecidableEq K] {c : Cell K V} :
    ∀ {L : List (Cell K V)}, (L.map Cell.key).Nodup → c ∈ L → lookup c.key L = some c
  | [], _, h => by simp at h
  | d :: ds, hn, h => by
    simp only [List.map_cons, List.nodup_cons, List.mem_map, not_exists, not_and] at hn
    rcases List.mem_cons.1 h with rfl | h1
    · simp [lookup]
    · have hd : d.key ≠ c.key := fun e => hn.1 c h1 e.symm
      simp only [lookup, hd, if_false]
      exact lookup_of_mem hn.2 h1

theorem lookup_perm [DecidableEq K] {k : K} {L L1 : List (Cell K V)} (hp : L.Perm L1)
    (hn : (L.map Cell.key).Nodup) : lookup k L = lookup k L1 := by
  have hn1 : (L1.map Cell.key).Nodup := (hp.map Cell.key).nodup_iff.1 hn
  cases h : lookup k L with
  | none =>
    have h1 : k ∉ L1.map Cell.key := by
      intro hk
      exact lookup_eq_none.1 h ((hp.map Cell.key).mem_iff.2 hk)
    exact (lookup_eq_none.2 h1).symm
  | some c =>
    obtain ⟨hc, hk⟩ := lookup_some h
    have := lookup_of_mem hn1 (hp.subset hc)
    rw [hk] at this
    exact this.symm

theorem foldl_link_perm {ix : K → Nat} :
    ∀ (L acc : List (Cell K V)),
      (L.foldl (fun acc c => link ix c acc) acc).Perm (L ++ acc)
  | [], _ => List.Perm.refl _
  | c :: cs, acc => by
    simp only [List.foldl_cons, List.cons_append]
    exact (foldl_link_perm cs (link ix c acc)).trans
      (((link_perm c acc).append_left cs).trans List.perm_middle)

theorem relink_perm {ix : K → Nat} (L : List (Cell K V)) : (relink ix L).Perm L := by
  have hp : (L.foldl (fun acc c => link ix c acc) []).Perm (L ++ []) := foldl_link_perm L []
  simpa [relink] using hp

end ListLemmas

/-! ## The operations on a well-formed table -/

section Simulation

variable {K V : Type} (hash_fn_ : K → Nat)

theorem index_congr {t t1 : HashTable K V} (h : t1.bucket_num_ = t.bucket_num_) :
    t1.index hash_fn_ = t.index hash_fn_ := by
  funext k
  simp [HashTable.index, h]

theorem Shape.toNat_eq {t : HashTable K V} {L : List (Cell K V)} (hS : Shape hash_fn_ t L) :
    t.bucket_num_.toNat = t.table.length := by
  have h1 := hS.table_len
  omega

theorem Shape.index_lt {t : HashTable K V} {L : List (Cell K V)} (hS : Shape hash_fn_ t L)
    (k : K) : t.index hash_fn_ k < t.table.length := by
  have h1 := hS.table_len
  have h2 := hS.bucket_pos
  have h3 := hS.toNat_eq
  unfold HashTable.index
  rw [h3]
  exact Nat.mod_lt _ (by omega)

theorem Shape.table_at {t : HashTable K V} {L : List (Cell K V)} (hS : Shape hash_fn_ t L)
    (k : K) :
    t.table[t.index hash_fn_ k]? = some (bucketHead (t.index hash_fn_) (t.index hash_fn_ k) L) :=
  hS.table_ok _ (hS.index_lt hash_fn_ k)

theorem Lnk_mid {h : List (Option (DataNode K V))} (c : Cell K V) (L2 : List (Cell K V))
    (nxt : Option Nat) :
    ∀ (L1 : List (Cell K V)) (p0 : Option Nat), Lnk h p0 (L1 ++ c :: L2) nxt →
      deref h c.addr = some ⟨c.key, c.value, lastAddr L1 p0, firstAddr L2 nxt⟩
  | [], _, hl => hl.1
  | _ :: ds, _, hl => Lnk_mid c L2 nxt ds _ hl.2

theorem Lnk_deref {h : List (Option (DataNode K V))} {c : Cell K V} :
    ∀ (L : List (Cell K V)) (p0 nxt : Option Nat), Lnk h p0 L nxt → c ∈ L →
      ∃ pv nx, deref h c.addr = some ⟨c.key, c.value, pv, nx⟩
  | [], _, _, _, hc => by simp at hc
  | d :: ds, _, _, hl, hc => by
    rcases List.mem_cons.1 hc with rfl | hc
    · exact ⟨_, _, hl.1⟩
    · exact Lnk_deref ds _ _ hl.2 hc

theorem firstAddr_mem {L : List (Cell K V)} {b : Nat} (h : firstAddr L none = some b) :
    ∃ c ∈ L, c.addr = b := by
  cases L with
  | nil => simp [firstAddr] at h
  | cons c cs =>
    simp only [firstAddr, Option.some.injEq] at h
    exact ⟨c, List.mem_cons_self _ _, h⟩

theorem lastAddr_mem_none {L : List (Cell K V)} {b : Nat} (h : lastAddr L none = some b) :
    ∃ c ∈ L, c.addr = b := by
  cases L with
  | nil => simp [lastAddr] at h
  | cons c cs =>
    obtain ⟨d, hd, hdq⟩ := lastAddr_mem (c :: cs) none (by simp)
    rw [h] at hdq
    exact ⟨d, hd, (Option.some.inj hdq).symm⟩

/-- The table that results from linking the cell `e` between `L1` and `L2` holds
the list with `e` linked in. -/
theorem Shape_link {t t1 : HashTable K V} (L1 L2 : List (Cell K V)) (e : Cell K V)
    (hS : Shape hash_fn_ t (L1 ++ L2))
    (hlink : link (t.index hash_fn_) e (L1 ++ L2) = L1 ++ e :: L2)
    (hfresh : e.addr ∉ (L1 ++ L2).map Cell.addr) (hk : e.key ∉ (L1 ++ L2).map Cell.key)
    (hbn : t1.bucket_num_ = t.bucket_num_)
    (htab : t1.table = t.table.set (t.index hash_fn_ e.key) (some e.addr))
    (hhead : t1.head = firstAddr (L1 ++ e :: L2) none)
    (ha : deref t1.heap e.addr = some ⟨e.key, e.value, lastAddr L1 none, firstAddr L2 none⟩)
    (hx : ∀ b n, firstAddr L2 none = some b → deref t.heap b = some n →
      deref t1.heap b = some { n with prev := some e.addr })
    (hv : ∀ p n, lastAddr L1 none = some p → deref t.heap p = some n →
      deref t1.heap p = some { n with next := some e.addr })
    (hf : ∀ q, q ≠ e.addr → some q ≠ firstAddr L2 none → some q ≠ lastAddr L1 none →
      deref t1.heap q = deref t.heap q) :
    Shape hash_fn_ t1 (link (t.index hash_fn_) e (L1 ++ L2)) := by
  have hix : t1.index hash_fn_ = t.index hash_fn_ := index_congr hash_fn_ hbn
  have hperm : (link (t.index hash_fn_) e (L1 ++ L2)).Perm (e :: (L1 ++ L2)) :=
    link_perm e (L1 ++ L2)
  refine ⟨?_, ?_, ?_, ?_, ?_, ?_, ?_, ?_⟩
  · rw [hbn]; exact hS.bucket_pos
  · rw [hbn, htab, List.length_set]; exact hS.table_len
  · intro i hi
    rw [htab, List.length_set] at hi
    rw [hix, bucketHead_link, htab]
    by_cases hie : i = t.index hash_fn_ e.key
    · subst hie
      rw [List.getElem?_set_self hi]
      simp
    · rw [List.getElem?_set_ne (Ne.symm hie), if_neg hie]
      exact hS.table_ok i hi
  · rw [hhead, hlink]
  · rw [hlink]
    refine Lnk_splice L2 L1 none hS.linked hS.addr_nodup (by simp) ha hx hv ?_
    intro c hc h1 h2
    refine hf c.addr ?_ h1 h2
    intro heq
    exact hfresh (List.mem_map.2 ⟨c, hc, heq⟩)
  · refine (hperm.map Cell.addr).nodup_iff.2 ?_
    simp only [List.map_cons, List.nodup_cons]
    exact ⟨hfresh, hS.addr_nodup⟩
  · refine (hperm.map Cell.key).nodup_iff.2 ?_
    simp only [List.map_cons, List.nodup_cons]
    exact ⟨hk, hS.key_nodup⟩
  · rw [hix]
    exact Grouped_link e _ hS.grouped

end Simulation

section PutNode

variable {K V : Type} (hash_fn_ : K → Nat)

theorem put_node_spec {t : HashTable K V} {L : List (Cell K V)} {a : Nat} {n0 : DataNode K V}
    (hS : Shape hash_fn_ t L) (ha : deref t.heap a = some n0)
    (hfresh : a ∉ L.map Cell.addr) (hk : n0.key ∉ L.map Cell.key) :
    ∃ t1, t.put_node hash_fn_ a = some t1 ∧
      Shape hash_fn_ t1 (link (t.index hash_fn_) ⟨a, n0.key, n0.value⟩ L) ∧
      t1.bucket_num_ = t.bucket_num_ ∧ t1.size_ = t.size_ ∧
      t1.auto_rehash_ = t.auto_rehash_ ∧ t1.load_factor_ = t.load_factor_ ∧
      t1.heap.length = t.heap.length ∧
      (∀ q, q ≠ a → q ∉ L.map Cell.addr → deref t1.heap q = deref t.heap q) := by
  have htab := hS.table_at hash_fn_ n0.key
  have hlive : ∀ c ∈ L, c.addr ≠ a ∧ ∃ n, deref t.heap c.addr = some n := by
    intro c hc
    refine ⟨fun heq => hfresh (List.mem_map.2 ⟨c, hc, heq⟩), ?_⟩
    obtain ⟨pv, nx, hd⟩ := Lnk_deref L _ _ hS.linked hc
    exact ⟨_, hd⟩
  cases hb : bucketHead (t.index hash_fn_) (t.index hash_fn_ n0.key) L with
  | none =>
    rw [hb] at htab
    have hlink : link (t.index hash_fn_) ⟨a, n0.key, n0.value⟩ ([] ++ L) =
        [] ++ (⟨a, n0.key, n0.value⟩ : Cell K V) :: L := by
      simp [link, hb]
    obtain ⟨h1, h2, h3, h4, e1, e2, e3, e3n, d3, e4, e4n, hlen, d4, hx, hv, hf⟩ :=
      splice_heap (h := t.heap) (a := a) none (firstAddr L none) ha
        (by intro b hb1; obtain ⟨c, hc, rfl⟩ := firstAddr_mem hb1; exact hlive c hc)
        (by intro p hp; cases hp)
    have e44 := e4n rfl
    subst e44
    refine ⟨{ t with heap := h4, head := some a,
                     table := t.table.set (t.index hash_fn_ n0.key) (some a),
                     used_bucket_num_ := t.used_bucket_num_ + 1 }, ?_, ?_, rfl, rfl, rfl, rfl,
      hlen, ?_⟩
    · unfold HashTable.put_node
      simp only [ha, htab, hS.head_ok, e1, e2, Option.bind_eq_bind, Option.some_bind]
      cases hfa : firstAddr L none with
      | none => simp [e3n hfa]
      | some b => simp [e3 b hfa]
    · exact Shape_link hash_fn_ [] L ⟨a, n0.key, n0.value⟩ hS hlink
        hfresh hk rfl rfl rfl d4 hx hv hf
    · intro q hqa hq
      refine hf q hqa ?_ (by simp)
      intro hq1
      obtain ⟨c, hc, hcq⟩ := firstAddr_mem hq1.symm
      exact hq (List.mem_map.2 ⟨c, hc, hcq⟩)
  | some b =>
    rw [hb] at htab
    obtain ⟨L1, cb, L2, hL, hL1, hcb, hcba⟩ := bucketHead_split hb
    subst hL
    subst hcba
    have hmid := Lnk_mid cb L2 none L1 none hS.linked
    have hnd := hS.addr_nodup
    have hlink : link (t.index hash_fn_) ⟨a, n0.key, n0.value⟩ (L1 ++ cb :: L2) =
        L1 ++ (⟨a, n0.key, n0.value⟩ : Cell K V) :: cb :: L2 := by
      unfold link
      rw [hb]
      simp only [reduceCtorEq, if_false]
      exact linkBefore_append _ cb L2 hcb L1 hL1
    have hpne : ∀ p, lastAddr L1 none = some p → p ≠ cb.addr := by
      intro p hp heq
      obtain ⟨c, hc, hcp⟩ := lastAddr_mem_none hp
      rw [List.map_append, List.nodup_append] at hnd
      exact hnd.2.2 (List.mem_map.2 ⟨c, hc, rfl⟩)
        (List.mem_map.2 ⟨cb, List.mem_cons_self _ _, by rw [hcp, heq]⟩)
    obtain ⟨h1, h2, h3, h4, e1, e2, e3, e3n, d3, e4, e4n, hlen, d4, hx, hv, hf⟩ :=
      splice_heap (h := t.heap) (a := a) (lastAddr L1 none) (some cb.addr) ha
        (by
          intro b hb1
          cases hb1
          exact hlive cb (List.mem_append_right _ (List.mem_cons_self _ _)))
        (by
          intro p hp
          obtain ⟨c, hc, hcp⟩ := lastAddr_mem_none hp
          have := hlive c (List.mem_append_left _ hc)
          rw [hcp] at this
          exact ⟨this.1, fun h => hpne p hp (Option.some.inj h), this.2⟩)
    have hframe : ∀ q, q ≠ a → q ∉ (L1 ++ cb :: L2).map Cell.addr →
        deref h4 q = deref t.heap q := by
      intro q hqa hq
      refine hf q hqa ?_ ?_
      · intro hq1
        exact hq (List.mem_map.2 ⟨cb, List.mem_append_right _ (List.mem_cons_self _ _),
          (Option.some.inj hq1).symm⟩)
      · intro hq1
        obtain ⟨c, hc, hcq⟩ := lastAddr_mem_none hq1.symm
        exact hq (List.mem_map.2 ⟨c, List.mem_append_left _ hc, hcq⟩)
    cases L1 with
    | nil =>
      have e44 := e4n rfl
      subst e44
      have hhead : t.head = some cb.addr := hS.head_ok
      have e1a : setPrev t.heap a none = some h1 := e1
      have d3a : deref h4 a = some ⟨n0.key, n0.value, none, some cb.addr⟩ := d3
      refine ⟨{ t with heap := h4, head := some a,
                       table := t.table.set (t.index hash_fn_ n0.key) (some a) }, ?_, ?_,
        rfl, rfl, rfl, rfl, hlen, hframe⟩
      · unfold HashTable.put_node
        simp only [ha, htab, hmid, lastAddr, e1a, e2, e3 cb.addr rfl, d3a, hhead,
          Option.bind_eq_bind, Option.some_bind, if_true]
      · exact Shape_link hash_fn_ [] (cb :: L2) ⟨a, n0.key, n0.value⟩
          hS hlink hfresh hk rfl rfl rfl d4 hx hv hf
    | cons c cs =>
      obtain ⟨d, hd, hdl⟩ := lastAddr_mem (c :: cs) none (by simp)
      have hhead : t.head = some c.addr := hS.head_ok
      refine ⟨{ t with heap := h4,
                       table := t.table.set (t.index hash_fn_ n0.key) (some a) }, ?_, ?_,
        rfl, rfl, rfl, rfl, hlen, hframe⟩
      · unfold HashTable.put_node
        simp only [ha, htab, hmid, hdl, Option.bind_eq_bind, Option.some_bind]
        rw [hdl] at e1 d3
        simp only [e1, e2, e3 cb.addr rfl, d3, e4 d.addr hdl, Option.some_bind]
      · exact Shape_link hash_fn_ (c :: cs) (cb :: L2) ⟨a, n0.key, n0.value⟩ hS hlink
          hfresh hk rfl rfl hhead d4 hx hv hf

end PutNode

section Rehash

variable {K V : Type} (hash_fn_ : K → Nat)

theorem rehash_loop_spec :
    ∀ (R : List (Cell K V)) (t : HashTable K V) (Lnew : List (Cell K V)) (fuel : Nat),
      Shape hash_fn_ t Lnew → Fwd t.heap R →
      ((Lnew ++ R).map Cell.addr).Nodup → ((Lnew ++ R).map Cell.key).Nodup →
      R.length < fuel →
      ∃ t1, HashTable.rehash_loop hash_fn_ fuel t (firstAddr R none) = some t1 ∧
        Shape hash_fn_ t1 (R.foldl (fun acc c => link (t.index hash_fn_) c acc) Lnew) ∧
        t1.bucket_num_ = t.bucket_num_ ∧ t1.size_ = t.size_ ∧
        t1.auto_rehash_ = t.auto_rehash_ ∧ t1.load_factor_ = t.load_factor_ ∧
        t1.heap.length = t.heap.length := by
  intro R
  induction R with
  | nil =>
    intro t Lnew fuel hS _ _ _ hfuel
    cases fuel with
    | zero => simp at hfuel
    | succ f => exact ⟨t, rfl, hS, rfl, rfl, rfl, rfl, rfl⟩
  | cons c cs ih =>
    intro t Lnew fuel hS hF hna hnk hfuel
    cases fuel with
    | zero => simp at hfuel
    | succ f =>
      obtain ⟨⟨pv, hc⟩, hFcs⟩ := hF
      have hna1 := hna
      have hnk1 := hnk
      rw [List.map_append, List.nodup_append] at hna1 hnk1
      simp only [List.map_cons, List.nodup_cons] at hna1 hnk1
      have hfresh : c.addr ∉ Lnew.map Cell.addr :=
        fun hm => hna1.2.2 hm (List.mem_cons_self _ _)
      have hk : c.key ∉ Lnew.map Cell.key :=
        fun hm => hnk1.2.2 hm (List.mem_cons_self _ _)
      obtain ⟨t1, hput, hS1, hbn, hsz, har, hlf, hlen, hfr⟩ :=
        put_node_spec hash_fn_ hS hc hfresh hk
      have hperm : (link (t.index hash_fn_) c Lnew).Perm (c :: Lnew) := link_perm c Lnew
      have hperm2 : (link (t.index hash_fn_) c Lnew ++ cs).Perm (Lnew ++ c :: cs) :=
        (hperm.append_right cs).trans List.perm_middle.symm
      have hF1 : Fwd t1.heap cs := by
        refine Fwd_frame cs ?_ hFcs
        intro d hd
        refine hfr d.addr ?_ ?_
        · intro heq
          exact hna1.2.1.1 (List.mem_map.2 ⟨d, hd, heq⟩)
        · intro hm
          exact hna1.2.2 hm (List.mem_cons_of_mem _ (List.mem_map.2 ⟨d, hd, rfl⟩))
      obtain ⟨t2, hloop, hS2, hbn2, hsz2, har2, hlf2, hlen2⟩ :=
        ih t1 (link (t.index hash_fn_) c Lnew) f hS1 hF1
          ((hperm2.map Cell.addr).nodup_iff.2 hna) ((hperm2.map Cell.key).nodup_iff.2 hnk)
          (by simpa using hfuel)
      refine ⟨t2, ?_, ?_, hbn2.trans hbn, hsz2.trans hsz, har2.trans har, hlf2.trans hlf,
        hlen2.trans hlen⟩
      · simp only [firstAddr, HashTable.rehash_loop, hc, hput]
        exact hloop
      · rw [index_congr hash_fn_ hbn] at hS2
        exact hS2

theorem checked_of_range {x : Int} (h1 : -2147483648 ≤ x) (h2 : x ≤ 2147483647) :
    checked x = some x := by
  simp [checked, h1, h2]

theorem checked_eq_some {x y : Int} (h : checked x = some y) :
    y = x ∧ -2147483648 ≤ x ∧ x ≤ 2147483647 := by
  unfold checked at h
  split at h
  · rename_i hr
    simp only [Option.some.injEq] at h
    exact ⟨h.symm, hr.1, hr.2⟩
  · simp at h

theorem rehash_eq_loop {t : HashTable K V} (h1 : 1 ≤ t.bucket_num_)
    (h2 : t.bucket_num_ * 2 + 1 ≤ 2147483647) :
    t.rehash hash_fn_ =
      (match HashTable.rehash_loop hash_fn_ (t.heap.length + 1) ({ t with
          head := none
          used_bucket_num_ := 0
          bucket_num_ := t.bucket_num_ * 2 + 1
          table := List.replicate (t.bucket_num_ * 2 + 1).toNat none } : HashTable K V)
          t.head with
        | none => none
        | some t1 => some (true, t1)) := by
  simp only [HashTable.rehash]
  rw [checked_of_range (by omega) (by omega)]
  simp only []
  rw [checked_of_range (by omega) (by omega)]

/-- The method `rehash` has a defined result only when `bucket_num_ * 2 + 1` is
an `int`, and the result is then `true`. -/
theorem rehash_some_bound {t : HashTable K V} {r : Bool × HashTable K V}
    (h : t.rehash hash_fn_ = some r) :
    -2147483648 ≤ t.bucket_num_ * 2 ∧ t.bucket_num_ * 2 + 1 ≤ 2147483647 ∧ r.1 = true := by
  simp only [HashTable.rehash] at h
  cases h1 : checked (t.bucket_num_ * 2) with
  | none => simp [h1] at h
  | some twice =>
    obtain ⟨e1, l1, _⟩ := checked_eq_some h1
    simp only [h1] at h
    cases h2 : checked (twice + 1) with
    | none => simp [h2] at h
    | some b =>
      obtain ⟨_, _, u2⟩ := checked_eq_some h2
      simp only [h2] at h
      subst e1
      refine ⟨l1, u2, ?_⟩
      split at h
      · simp at h
      · simp only [Option.some.injEq] at h
        rw [← h]

theorem rehash_none_of_overflow {t : HashTable K V} (h : 2147483647 < t.bucket_num_ * 2 + 1) :
    t.rehash hash_fn_ = none := by
  cases hr : t.rehash hash_fn_ with
  | none => rfl
  | some r =>
    have := (rehash_some_bound hash_fn_ hr).2.1
    omega

theorem rehash_spec {t : HashTable K V} {L : List (Cell K V)} (hS : Shape hash_fn_ t L)
    (hov : t.bucket_num_ * 2 + 1 ≤ 2147483647) :
    ∃ t1, t.rehash hash_fn_ = some (true, t1) ∧
      Shape hash_fn_ t1 (relink (t1.index hash_fn_) L) ∧
      t1.bucket_num_ = t.bucket_num_ * 2 + 1 ∧ t1.size_ = t.size_ ∧
      t1.auto_rehash_ = t.auto_rehash_ ∧ t1.load_factor_ = t.load_factor_ ∧
      t1.heap.length = t.heap.length := by
  have hpos := hS.bucket_pos
  have hS0 : Shape hash_fn_ ({ t with
      head := none
      used_bucket_num_ := 0
      bucket_num_ := t.bucket_num_ * 2 + 1
      table := List.replicate (t.bucket_num_ * 2 + 1).toNat none } : HashTable K V) [] := by
    refine ⟨?_, ?_, ?_, rfl, trivial, by simp, by simp, trivial⟩
    · show 1 ≤ t.bucket_num_ * 2 + 1
      omega
    · show ((List.replicate (t.bucket_num_ * 2 + 1).toNat (none : Option Nat)).length : Int)
        = t.bucket_num_ * 2 + 1
      rw [List.length_replicate]
      omega
    · intro i hi
      simp only [List.length_replicate] at hi
      simp [bucketHead, List.getElem?_replicate, hi]
  have hF := Fwd_of_Lnk L none hS.linked
  have hlen := Fwd_length_le hF hS.addr_nodup
  obtain ⟨t1, hloop, hS1, hbn, hsz, har, hlf, hl⟩ :=
    rehash_loop_spec hash_fn_ L _ [] (t.heap.length + 1) hS0 hF
      (by simpa using hS.addr_nodup) (by simpa using hS.key_nodup) (by omega)
  refine ⟨t1, ?_, ?_, hbn, hsz, har, hlf, hl⟩
  · rw [rehash_eq_loop hash_fn_ hpos hov, hS.head_ok, hloop]
  · rw [index_congr hash_fn_ hbn] 
    exact hS1

end Rehash

section Find

variable {K V : Type} [DecidableEq K] (hash_fn_ : K → Nat)

theorem find_loop_run {t : HashTable K V} (k : K) :
    ∀ (R : List (Cell K V)) (p0 : Option Nat) (fuel : Nat),
      Lnk t.heap p0 R none → Grouped (t.index hash_fn_) R → R.length < fuel →
      (∀ c ∈ R, c.key = k →
        ∃ e, R.head? = some e ∧ t.index hash_fn_ e.key = t.index hash_fn_ k) →
      t.find_loop hash_fn_ k (t.index hash_fn_ k) fuel (firstAddr R none) =
        some ((lookup k R).map Cell.addr) := by
  intro R
  induction R with
  | nil =>
    intro p0 fuel _ _ hfuel _
    cases fuel with
    | zero => simp at hfuel
    | succ f => rfl
  | cons c cs ih =>
    intro p0 fuel hl hg hfuel hhd
    cases fuel with
    | zero => simp at hfuel
    | succ f =>
      obtain ⟨hc, hcs⟩ := hl
      by_cases hi : t.index hash_fn_ c.key = t.index hash_fn_ k
      · by_cases hck : c.key = k
        · simp [firstAddr, HashTable.find_loop, hc, hi, hck, lookup]
        · have hrec := ih (some c.addr) f hcs hg.2 (by simpa using hfuel) (by
            intro d hd hdk
            have hdc : t.index hash_fn_ d.key = t.index hash_fn_ c.key := by rw [hdk, hi]
            obtain ⟨e, he, hec⟩ := hg.1 d hd hdc
            exact ⟨e, he, by rw [hec, hi]⟩)
          simp only [firstAddr, HashTable.find_loop, hc, hi, hck, lookup, if_true, if_false]
          exact hrec
      · have hnone : lookup k (c :: cs) = none := by
          rw [lookup_eq_none]
          intro hm
          obtain ⟨d, hd, hdk⟩ := List.mem_map.1 hm
          obtain ⟨e, he, hek⟩ := hhd d hd hdk
          simp only [List.head?_cons, Option.some.injEq] at he
          subst he
          exact hi hek
        rw [hnone]
        simp [firstAddr, HashTable.find_loop, hc, hi]

theorem find_loop_bucket {t : HashTable K V} (k : K) :
    ∀ (R : List (Cell K V)) (p0 : Option Nat) (fuel : Nat),
      Lnk t.heap p0 R none → Grouped (t.index hash_fn_) R → R.length < fuel →
      t.find_loop hash_fn_ k (t.index hash_fn_ k) fuel
          (bucketHead (t.index hash_fn_) (t.index hash_fn_ k) R) =
        some ((lookup k R).map Cell.addr) := by
  intro R
  induction R with
  | nil =>
    intro p0 fuel _ _ hfuel
    cases fuel with
    | zero => simp at hfuel
    | succ f => rfl
  | cons c cs ih =>
    intro p0 fuel hl hg hfuel
    by_cases hi : t.index hash_fn_ c.key = t.index hash_fn_ k
    · have hrun := find_loop_run hash_fn_ k (c :: cs) p0 fuel hl hg hfuel
        (fun _ _ _ => ⟨c, rfl, hi⟩)
      simpa [bucketHead, hi, firstAddr] using hrun
    · have hck : c.key ≠ k := fun e => hi (by rw [e])
      cases fuel with
      | zero => simp at hfuel
      | succ f =>
        have hrec := ih (some c.addr) (f + 1) hl.2 hg.2 (by simp at hfuel; omega)
        simpa [bucketHead, hi, lookup, hck] using hrec

theorem find_loop_spec {t : HashTable K V} {L : List (Cell K V)} (hS : Shape hash_fn_ t L)
    (k : K) :
    t.find_loop hash_fn_ k (t.index hash_fn_ k) (t.heap.length + 1)
        (bucketHead (t.index hash_fn_) (t.index hash_fn_ k) L) =
      some ((lookup k L).map Cell.addr) := by
  have hlen := Fwd_length_le (Fwd_of_Lnk L none hS.linked) hS.addr_nodup
  exact find_loop_bucket hash_fn_ k L none _ hS.linked hS.grouped (by omega)

theorem has_key_spec {t : HashTable K V} {L : List (Cell K V)} (hS : Shape hash_fn_ t L)
    (k : K) : t.has_key hash_fn_ k = some (lookup k L).isSome := by
  unfold HashTable.has_key
  simp only [hS.table_at hash_fn_ k, find_loop_spec hash_fn_ hS k, Option.bind_eq_bind,
    Option.some_bind]
  cases lookup k L <;> rfl

theorem get_spec {t : HashTable K V} {L : List (Cell K V)} (hS : Shape hash_fn_ t L)
    (k : K) : t.get hash_fn_ k = some ((lookup k L).map Cell.value) := by
  unfold HashTable.get
  simp only [hS.table_at hash_fn_ k, find_loop_spec hash_fn_ hS k, Option.bind_eq_bind,
    Option.some_bind]
  cases hlk : lookup k L with
  | none => rfl
  | some c =>
    obtain ⟨pv, nx, hd⟩ := Lnk_deref L _ _ hS.linked (lookup_some hlk).1
    simp [hd]

end Find

section Walk

variable {K V : Type} (hash_fn_ : K → Nat)

theorem walk_keys_spec {h : List (Option (DataNode K V))} :
    ∀ (L : List (Cell K V)) (fuel : Nat), Fwd h L → L.length < fuel →
      walk_keys h fuel (firstAddr L none) = some (L.map Cell.key)
  | [], 0, _, hf => by simp at hf
  | [], _ + 1, _, _ => rfl
  | _ :: _, 0, _, hf => by simp at hf
  | c :: cs, f + 1, hl, hf => by
    obtain ⟨⟨pv, hc⟩, hcs⟩ := hl
    have hrec := walk_keys_spec cs f hcs (by simpa using hf)
    show walk_keys h (f + 1) (some c.addr) = _
    simp only [walk_keys, hc, hrec, List.map_cons]

theorem walk_values_spec {h : List (Option (DataNode K V))} :
    ∀ (L : List (Cell K V)) (fuel : Nat), Fwd h L → L.length < fuel →
      walk_values h fuel (firstAddr L none) = some (L.map Cell.value)
  | [], 0, _, hf => by simp at hf
  | [], _ + 1, _, _ => rfl
  | _ :: _, 0, _, hf => by simp at hf
  | c :: cs, f + 1, hl, hf => by
    obtain ⟨⟨pv, hc⟩, hcs⟩ := hl
    have hrec := walk_values_spec cs f hcs (by simpa using hf)
    show walk_values h (f + 1) (some c.addr) = _
    simp only [walk_values, hc, hrec, List.map_cons]

theorem get_all_keys_result_spec {t : HashTable K V} {L : List (Cell K V)}
    (hS : Shape hash_fn_ t L) : t.get_all_keys_result = some (L.map Cell.key) := by
  have hF := Fwd_of_Lnk L none hS.linked
  have hlen := Fwd_length_le hF hS.addr_nodup
  unfold HashTable.get_all_keys_result
  rw [hS.head_ok]
  exact walk_keys_spec L _ hF (by omega)

theorem get_all_values_result_spec {t : HashTable K V} {L : List (Cell K V)}
    (hS : Shape hash_fn_ t L) : t.get_all_values_result = some (L.map Cell.value) := by
  have hF := Fwd_of_Lnk L none hS.linked
  have hlen := Fwd_length_le hF hS.addr_nodup
  unfold HashTable.get_all_values_result
  rw [hS.head_ok]
  exact walk_values_spec L _ hF (by omega)

theorem get_all_keys_spec {t : HashTable K V} {L : List (Cell K V)}
    (hS : Shape hash_fn_ t L) : t.get_all_keys = some Ref.dangling := by
  simp only [HashTable.get_all_keys, get_all_keys_result_spec hash_fn_ hS]

theorem get_all_values_spec {t : HashTable K V} {L : List (Cell K V)}
    (hS : Shape hash_fn_ t L) : t.get_all_values = some Ref.dangling := by
  simp only [HashTable.get_all_values, get_all_values_result_spec hash_fn_ hS]

end Walk

section GroupedKeys

variable {K V : Type}

theorem Grouped_iff_keys (ix : K → Nat) :
    ∀ (L L1 : List (Cell K V)), L1.map Cell.key = L.map Cell.key →
      Grouped ix L → Grouped ix L1
  | [], [], _, _ => trivial
  | [], _ :: _, h, _ => by simp at h
  | _ :: _, [], h, _ => by simp at h
  | c :: cs, d :: ds, h, hg => by
    simp only [List.map_cons, List.cons.injEq] at h
    refine ⟨?_, Grouped_iff_keys ix cs ds h.2 hg.2⟩
    intro x hx hxd
    have hxk : x.key ∈ cs.map Cell.key := by
      rw [← h.2]; exact List.mem_map.2 ⟨x, hx, rfl⟩
    obtain ⟨y, hy, hyk⟩ := List.mem_map.1 hxk
    obtain ⟨e, he, hec⟩ := hg.1 y hy (by rw [hyk, hxd, h.1])
    cases cs with
    | nil => simp at he
    | cons c1 cs1 =>
      cases ds with
      | nil => simp at h
      | cons d1 ds1 =>
        simp only [List.map_cons, List.cons.injEq] at h
        simp only [List.head?_cons, Option.some.injEq] at he
        subst he
        exact ⟨d1, rfl, by rw [h.2.1, hec, h.1]⟩

end GroupedKeys

section SetVal

variable {K V : Type} [DecidableEq K]

theorem setVal_addr (k : K) (v : V) :
    ∀ (L : List (Cell K V)), (setVal k v L).map Cell.addr = L.map Cell.addr
  | [] => rfl
  | c :: cs => by
    by_cases hc : c.key = k
    · simp [setVal, hc]
    · simp [setVal, hc, setVal_addr k v cs]

theorem setVal_key (k : K) (v : V) :
    ∀ (L : List (Cell K V)), (setVal k v L).map Cell.key = L.map Cell.key
  | [] => rfl
  | c :: cs => by
    by_cases hc : c.key = k
    · simp [setVal, hc]
    · simp [setVal, hc, setVal_key k v cs]

theorem setVal_firstAddr (k : K) (v : V) (nxt : Option Nat) :
    ∀ (L : List (Cell K V)), firstAddr (setVal k v L) nxt = firstAddr L nxt
  | [] => rfl
  | c :: cs => by
    by_cases hc : c.key = k
    · simp [setVal, hc, firstAddr]
    · simp [setVal, hc, firstAddr]

theorem setVal_bucketHead (ix : K → Nat) (i : Nat) (k : K) (v : V) :
    ∀ (L : List (Cell K V)), bucketHead ix i (setVal k v L) = bucketHead ix i L
  | [] => rfl
  | c :: cs => by
    by_cases hc : c.key = k
    · simp [setVal, hc, bucketHead]
    · simp [setVal, hc, bucketHead, setVal_bucketHead ix i k v cs]

theorem setVal_length (k : K) (v : V) (L : List (Cell K V)) :
    (setVal k v L).length = L.length := by
  have := congrArg List.length (setVal_addr k v L)
  simpa using this

theorem lookup_setVal (k k1 : K) (v : V) :
    ∀ (L : List (Cell K V)), lookup k1 (setVal k v L) =
      if k1 = k then (lookup k L).map (fun c => { c with value := v }) else lookup k1 L
  | [] => by simp [setVal, lookup]
  | c :: cs => by
    by_cases hc : c.key = k
    · subst hc
      by_cases h1 : k1 = c.key
      · simp [setVal, lookup, h1]
      · simp [setVal, lookup, h1, Ne.symm h1]
    · by_cases h1 : k1 = k
      · subst h1
        simp [setVal, lookup, hc, lookup_setVal k1 k1 v cs]
      · by_cases h2 : c.key = k1
        · simp [setVal, lookup, hc, h1, h2]
        · simp [setVal, lookup, hc, h1, h2, lookup_setVal k k1 v cs]

theorem Lnk_setVal {h : List (Option (DataNode K V))} {k : K} {v : V} {c : Cell K V}
    {n : DataNode K V} (hn : deref h c.addr = some n) :
    ∀ (L : List (Cell K V)) (p0 nxt : Option Nat), Lnk h p0 L nxt →
      (L.map Cell.addr).Nodup → lookup k L = some c →
      Lnk (h.set c.addr (some { n with value := v })) p0 (setVal k v L) nxt
  | [], _, _, _, _, hl => by simp [lookup] at hl
  | d :: ds, p0, nxt, hL, hnd, hl => by
    simp only [List.map_cons, List.nodup_cons, List.mem_map, not_exists, not_and] at hnd
    by_cases hd : d.key = k
    · subst hd
      simp only [lookup, if_true, Option.some.injEq] at hl
      subst hl
      simp only [setVal, if_true]
      refine ⟨?_, ?_⟩
      · rw [deref_set_self _ (deref_lt hn)]
        have h1 := hL.1
        rw [hn] at h1
        cases h1
        rfl
      · refine Lnk_frame ds _ _ ?_ hL.2
        intro e he
        exact deref_set_ne _ (fun heq => hnd.1 e he heq)
    · simp only [lookup, hd, if_false] at hl
      simp only [setVal, hd, if_false]
      have hcd : d.addr ≠ c.addr := fun heq => hnd.1 c (lookup_some hl).1 heq.symm
      refine ⟨?_, Lnk_setVal hn ds _ _ hL.2 hnd.2 hl⟩
      rw [deref_set_ne _ hcd, setVal_firstAddr]
      exact hL.1

end SetVal

section PutInsert

variable {K V : Type} (hash_fn_ : K → Nat)

theorem Shape_alloc {t : HashTable K V} {L : List (Cell K V)} (hS : Shape hash_fn_ t L)
    (x : Option (DataNode K V)) :
    Shape hash_fn_ ({ t with heap := t.heap ++ [x] } : HashTable K V) L := by
  refine ⟨hS.bucket_pos, hS.table_len, hS.table_ok, hS.head_ok, ?_, hS.addr_nodup,
    hS.key_nodup, hS.grouped⟩
  refine Lnk_frame L _ _ ?_ hS.linked
  intro c hc
  obtain ⟨pv, nx, hd⟩ := Lnk_deref L _ _ hS.linked hc
  exact deref_append _ (deref_lt hd)

theorem Shape_size {t : HashTable K V} {L : List (Cell K V)} (hS : Shape hash_fn_ t L)
    (s : Int) : Shape hash_fn_ ({ t with size_ := s } : HashTable K V) L :=
  ⟨hS.bucket_pos, hS.table_len, hS.table_ok, hS.head_ok, hS.linked, hS.addr_nodup,
    hS.key_nodup, hS.grouped⟩

theorem bind_map_congr {α β γ : Type} {x : Option α} {f : α → Option β} {g : α → Option γ}
    {m : γ → β} (h : ∀ a, f a = (g a).map m) : x.bind f = (x.bind g).map m := by
  cases x with
  | none => rfl
  | some a => simpa using h a

theorem put_insert_absent_eq [DecidableEq K] {t : HashTable K V} {L : List (Cell K V)}
    (hS : Shape hash_fn_ t L) (k : K) (v : V) (r : Bool) (hl : lookup k L = none) :
    t.put_insert hash_fn_ k v r =
      (HashTable.put_node hash_fn_
        ({ t with heap := t.heap ++ [some ⟨k, v, none, none⟩] } : HashTable K V)
        t.heap.length).map (fun t1 => (false, { t1 with size_ := t.size_ + 1 })) := by
  have htab := hS.table_at hash_fn_ k
  have hfind := find_loop_spec hash_fn_ hS k
  rw [hl] at hfind
  have hix : ∀ h : List (Option (DataNode K V)),
      HashTable.index hash_fn_ ({ t with heap := h } : HashTable K V) = t.index hash_fn_ :=
    fun _ => rfl
  unfold HashTable.put_insert HashTable.put_node
  simp only [deref_append_length, htab, hix, Option.bind_eq_bind, Option.some_bind]
  cases hb : bucketHead (t.index hash_fn_) (t.index hash_fn_ k) L with
  | none =>
    simp only []
    refine bind_map_congr (fun h1 => ?_)
    refine bind_map_congr (fun h2 => ?_)
    refine bind_map_congr (fun h3 => ?_)
    rfl
  | some b =>
    rw [hb] at hfind
    simp only [hfind, Option.map_some', Option.some_bind, Option.map_none']
    refine bind_map_congr (fun n => ?_)
    refine bind_map_congr (fun h1 => ?_)
    refine bind_map_congr (fun h2 => ?_)
    refine bind_map_congr (fun h3 => ?_)
    refine bind_map_congr (fun nn3 => ?_)
    cases nn3.prev with
    | none =>
      simp only []
      split <;> rfl
    | some q =>
      simp only []
      refine bind_map_congr (fun h4 => ?_)
      rfl

theorem put_insert_absent [DecidableEq K] {t : HashTable K V} {L : List (Cell K V)}
    (hS : Shape hash_fn_ t L) (k : K) (v : V) (r : Bool) (hl : lookup k L = none) :
    ∃ t1, t.put_insert hash_fn_ k v r = some (false, t1) ∧
      Shape hash_fn_ t1 (link (t.index hash_fn_) ⟨t.heap.length, k, v⟩ L) ∧
      t1.bucket_num_ = t.bucket_num_ ∧ t1.size_ = t.size_ + 1 ∧
      t1.auto_rehash_ = t.auto_rehash_ ∧ t1.load_factor_ = t.load_factor_ := by
  have hS0 := Shape_alloc hash_fn_ hS (some ⟨k, v, none, none⟩)
  have hfresh : t.heap.length ∉ L.map Cell.addr := by
    intro hm
    obtain ⟨c, hc, hca⟩ := List.mem_map.1 hm
    have := Fwd_addr_lt L (Fwd_of_Lnk L none hS.linked) c hc
    omega
  obtain ⟨t1, hput, hS1, hbn, hsz, har, hlf, -, -⟩ :=
    put_node_spec hash_fn_ hS0
      (deref_append_length t.heap ⟨k, v, none, none⟩) hfresh (lookup_eq_none.1 hl)
  refine ⟨{ t1 with size_ := t.size_ + 1 }, ?_, Shape_size hash_fn_ hS1 _, hbn, rfl, har, hlf⟩
  rw [put_insert_absent_eq hash_fn_ hS k v r hl, hput]
  rfl

theorem put_insert_present [DecidableEq K] {t : HashTable K V} {L : List (Cell K V)}
    (hS : Shape hash_fn_ t L) (k : K) (v : V) (r : Bool) {c : Cell K V}
    (hl : lookup k L = some c) :
    ∃ t1, t.put_insert hash_fn_ k v r = some (r, t1) ∧
      Shape hash_fn_ t1 (if r = true then setVal k v L else L) ∧
      t1.bucket_num_ = t.bucket_num_ ∧ t1.size_ = t.size_ ∧
      t1.auto_rehash_ = t.auto_rehash_ ∧ t1.load_factor_ = t.load_factor_ := by
  have htab := hS.table_at hash_fn_ k
  have hfind := find_loop_spec hash_fn_ hS k
  rw [hl] at hfind
  obtain ⟨hcL, hck⟩ := lookup_some hl
  obtain ⟨pv, nx, hd⟩ := Lnk_deref L _ _ hS.linked hcL
  cases hb : bucketHead (t.index hash_fn_) (t.index hash_fn_ k) L with
  | none =>
    exact absurd (by rw [hck]) (bucketHead_eq_none.1 hb c hcL)
  | some b =>
    rw [hb] at htab hfind
    cases r with
    | false =>
      refine ⟨t, ?_, by simpa using hS, rfl, rfl, rfl, rfl⟩
      unfold HashTable.put_insert
      simp [htab, hfind]
    | true =>
      refine ⟨{ t with heap := t.heap.set c.addr (some ⟨c.key, v, pv, nx⟩) }, ?_, ?_,
        rfl, rfl, rfl, rfl⟩
      · unfold HashTable.put_insert
        simp [htab, hfind, setValue_eq v hd]
      · simp only [if_true]
        refine ⟨hS.bucket_pos, hS.table_len, ?_, ?_, ?_, ?_, ?_, ?_⟩
        · intro i hi
          rw [setVal_bucketHead]
          exact hS.table_ok i hi
        · rw [setVal_firstAddr]
          exact hS.head_ok
        · exact Lnk_setVal hd L _ _ hS.linked hS.addr_nodup hl
        · rw [setVal_addr]; exact hS.addr_nodup
        · rw [setVal_key]; exact hS.key_nodup
        · exact Grouped_iff_keys _ L _ (setVal_key k v L) hS.grouped

end PutInsert

section Invariant

variable {K V : Type} (hash_fn_ : K → Nat)

theorem Rep_construct (auto_rehash : Bool) (bucket_num : Int) (load_factor : Dbl) (used0 : Int) :
    Rep hash_fn_ (HashTable.construct auto_rehash bucket_num load_factor used0 : HashTable K V)
      [] := by
  have hpos : (1 : Int) ≤ (if bucket_num < 1 then 13 else bucket_num) := by
    split <;> omega
  refine ⟨⟨hpos, ?_, ?_, rfl, trivial, by simp, by simp, trivial⟩, rfl⟩
  · show ((List.replicate (if bucket_num < 1 then 13 else bucket_num).toNat
      (none : Option Nat)).length : Int) = (if bucket_num < 1 then 13 else bucket_num)
    rw [List.length_replicate]
    omega
  · intro i hi
    have hi1 : i < (if bucket_num < 1 then 13 else bucket_num).toNat := by
      simpa [HashTable.construct] using hi
    show (List.replicate (if bucket_num < 1 then 13 else bucket_num).toNat
      (none : Option Nat))[i]? = _
    simp [bucketHead, List.getElem?_replicate, hi1]

theorem rehash_rep {t : HashTable K V} {L : List (Cell K V)} (hR : Rep hash_fn_ t L)
    (hov : t.bucket_num_ * 2 + 1 ≤ 2147483647) :
    ∃ t1, t.rehash hash_fn_ = some (true, t1) ∧
      Rep hash_fn_ t1 (relink (t1.index hash_fn_) L) ∧
      t1.bucket_num_ = t.bucket_num_ * 2 + 1 ∧ t1.size_ = t.size_ ∧
      t1.auto_rehash_ = t.auto_rehash_ ∧ t1.load_factor_ = t.load_factor_ := by
  obtain ⟨t1, hre, hS1, hbn, hsz, har, hlf, -⟩ := rehash_spec hash_fn_ hR.shape hov
  refine ⟨t1, hre, ⟨hS1, ?_⟩, hbn, hsz, har, hlf⟩
  rw [hsz, hR.size_ok, (relink_perm L).length_eq]

/-- The method `put` has a defined result only when its automatic rehash, if
any, does not overflow. -/
theorem put_some_bound [DecidableEq K] {t : HashTable K V} {kv : K × V} {r : Bool}
    {res : Bool × HashTable K V} (h : t.put hash_fn_ kv r = some res)
    (hov : t.over_load = true) : t.bucket_num_ * 2 + 1 ≤ 2147483647 := by
  unfold HashTable.put at h
  simp only [hov, if_true, Option.bind_eq_bind] at h
  cases hre : t.rehash hash_fn_ with
  | none => simp [hre] at h
  | some r0 => exact (rehash_some_bound hash_fn_ hre).2.1

theorem put_none_of_overflow [DecidableEq K] {t : HashTable K V} (kv : K × V) (r : Bool)
    (hov : t.over_load = true) (h : 2147483647 < t.bucket_num_ * 2 + 1) :
    t.put hash_fn_ kv r = none := by
  cases hp : t.put hash_fn_ kv r with
  | none => rfl
  | some res =>
    have := put_some_bound hash_fn_ hp hov
    omega

theorem put_rep [DecidableEq K] {t : HashTable K V} {L : List (Cell K V)} (hR : Rep hash_fn_ t L)
    (k : K) (v : V) (r : Bool)
    (hov : t.over_load = true → t.bucket_num_ * 2 + 1 ≤ 2147483647) :
    ∃ b t1 t0 L0 L1, t.put hash_fn_ (k, v) r = some (b, t1) ∧
      Rep hash_fn_ t1 L1 ∧ Rep hash_fn_ t0 L0 ∧ L0.Perm L ∧
      (if t.over_load = true
        then t.rehash hash_fn_ = some (true, t0) ∧ L0 = relink (t0.index hash_fn_) L
        else t0 = t ∧ L0 = L) ∧
      t1.bucket_num_ = t0.bucket_num_ ∧
      t1.auto_rehash_ = t.auto_rehash_ ∧ t1.load_factor_ = t.load_factor_ ∧
      (lookup k L = none →
        b = false ∧ L1 = link (t0.index hash_fn_) ⟨t0.heap.length, k, v⟩ L0) ∧
      (∀ c, lookup k L = some c → b = r ∧ L1 = if r = true then setVal k v L0 else L0) := by
  -- the table and the list after the automatic rehash
  have hpre : ∃ t0 L0, Rep hash_fn_ t0 L0 ∧ L0.Perm L ∧
      t.put hash_fn_ (k, v) r = t0.put_insert hash_fn_ k v r ∧
      t0.auto_rehash_ = t.auto_rehash_ ∧ t0.load_factor_ = t.load_factor_ ∧
      (if t.over_load = true
        then t.rehash hash_fn_ = some (true, t0) ∧ L0 = relink (t0.index hash_fn_) L
        else t0 = t ∧ L0 = L) := by
    by_cases htr : t.over_load = true
    · obtain ⟨t0, hre, hR0, -, -, har, hlf⟩ := rehash_rep hash_fn_ hR (hov htr)
      refine ⟨t0, _, hR0, relink_perm L, ?_, har, hlf, ?_⟩
      · unfold HashTable.put
        simp only [htr, hre, if_true, Option.bind_eq_bind, Option.some_bind]
      · rw [if_pos htr]
        exact ⟨hre, rfl⟩
    · refine ⟨t, L, hR, List.Perm.refl _, ?_, rfl, rfl, ?_⟩
      · unfold HashTable.put
        simp only [htr, if_false, Option.bind_eq_bind, Option.some_bind]
        simp
      · rw [if_neg htr]
        exact ⟨rfl, rfl⟩
  obtain ⟨t0, L0, hR0, hperm, hput, har0, hlf0, hif⟩ := hpre
  have hlk : lookup k L0 = lookup k L := lookup_perm hperm hR0.shape.key_nodup
  cases hl : lookup k L with
  | none =>
    rw [hl] at hlk
    obtain ⟨t1, hins, hS1, hbn, hsz, har, hlf⟩ :=
      put_insert_absent hash_fn_ hR0.shape k v r hlk
    refine ⟨false, t1, t0, L0, _, by rw [hput, hins], ⟨hS1, ?_⟩, hR0, hperm, hif, hbn,
      har.trans har0, hlf.trans hlf0, fun _ => ⟨rfl, rfl⟩, fun c hc => by cases hc⟩
    rw [hsz, hR0.size_ok, (link_perm _ L0).length_eq]
    simp
  | some c =>
    rw [hl] at hlk
    obtain ⟨t1, hins, hS1, hbn, hsz, har, hlf⟩ :=
      put_insert_present hash_fn_ hR0.shape k v r hlk
    refine ⟨r, t1, t0, L0, _, by rw [hput, hins], ⟨hS1, ?_⟩, hR0, hperm, hif, hbn,
      har.trans har0, hlf.trans hlf0, (fun hc => by cases hc), fun _ _ => ⟨rfl, rfl⟩⟩
    rw [hsz, hR0.size_ok]
    split
    · rw [setVal_length]
    · rfl

theorem put_defined_iff [DecidableEq K] {t : HashTable K V} {L : List (Cell K V)}
    (hR : Rep hash_fn_ t L) (kv : K × V) (r : Bool) :
    (∃ res, t.put hash_fn_ kv r = some res) ↔
      (t.over_load = true → t.bucket_num_ * 2 + 1 ≤ 2147483647) := by
  constructor
  · rintro ⟨res, hp⟩
    exact put_some_bound hash_fn_ hp
  · intro hov
    obtain ⟨b, t1, -, -, -, hp, -⟩ := put_rep hash_fn_ hR kv.1 kv.2 r hov
    exact ⟨_, hp⟩

theorem Reach.rep [DecidableEq K] {t : HashTable K V} (h : Reach hash_fn_ t) : ∃ L, Rep hash_fn_ t L := by
  induction h with
  | construct a b f u => exact ⟨[], Rep_construct hash_fn_ a b f u⟩
  | put kv r b _ hput ih =>
    obtain ⟨L, hR⟩ := ih
    obtain ⟨b1, t1, t0, L0, L1, hp, hR1, -⟩ := put_rep hash_fn_ hR kv.1 kv.2 r
      (put_some_bound hash_fn_ hput)
    rw [hput] at hp
    cases hp
    exact ⟨L1, hR1⟩
  | rehash b _ hre ih =>
    obtain ⟨L, hR⟩ := ih
    obtain ⟨t1, hr, hR1, -⟩ := rehash_rep hash_fn_ hR (rehash_some_bound hash_fn_ hre).2.1
    rw [hre] at hr
    cases hr
    exact ⟨_, hR1⟩

theorem ReachPut.reach [DecidableEq K] {t : HashTable K V} (h : ReachPut hash_fn_ t) : Reach hash_fn_ t := by
  induction h with
  | construct a b f u => exact Reach.construct a b f u
  | put kv r b _ hput ih => exact Reach.put kv r b ih hput

end Invariant

section Remove

variable {K V : Type} [DecidableEq K] (hash_fn_ : K → Nat)

omit [DecidableEq K] in
theorem Lnk_append_right {h : List (Option (DataNode K V))} (R : List (Cell K V))
    (nxt : Option Nat) :
    ∀ (L1 : List (Cell K V)) (p0 : Option Nat), Lnk h p0 (L1 ++ R) nxt →
      Lnk h (lastAddr L1 p0) R nxt
  | [], _, hl => hl
  | _ :: cs, _, hl => Lnk_append_right R nxt cs _ hl.2

theorem remove_loop_absent {t : HashTable K V} (k : K) (idx : Nat) :
    ∀ (R : List (Cell K V)) (p0 : Option Nat) (fuel : Nat),
      Lnk t.heap p0 R none → R.length < fuel → (∀ c ∈ R, c.key ≠ k) →
      t.remove_loop hash_fn_ k idx fuel (firstAddr R none) = some none ∨
        ∃ c ∈ R, t.remove_loop hash_fn_ k idx fuel (firstAddr R none) = some (some c.addr) ∧
          t.index hash_fn_ c.key ≠ idx := by
  intro R
  induction R with
  | nil =>
    intro p0 fuel _ hfuel _
    cases fuel with
    | zero => simp at hfuel
    | succ f => exact Or.inl rfl
  | cons c cs ih =>
    intro p0 fuel hl hfuel hk
    cases fuel with
    | zero => simp at hfuel
    | succ f =>
      obtain ⟨hc, hcs⟩ := hl
      have hck : c.key ≠ k := hk c (List.mem_cons_self _ _)
      by_cases hi : t.index hash_fn_ c.key = idx
      · have hstep : t.remove_loop hash_fn_ k idx (f + 1) (firstAddr (c :: cs) none) =
            t.remove_loop hash_fn_ k idx f (firstAddr cs none) := by
          show t.remove_loop hash_fn_ k idx (f + 1) (some c.addr) = _
          simp only [HashTable.remove_loop, hc, hi, hck, ne_eq, not_false_eq_true, and_self,
            if_true]
        rw [hstep]
        rcases ih (some c.addr) f hcs (by simpa using hfuel)
            (fun d hd => hk d (List.mem_cons_of_mem _ hd)) with h1 | ⟨d, hd, h1, h2⟩
        · exact Or.inl h1
        · exact Or.inr ⟨d, List.mem_cons_of_mem _ hd, h1, h2⟩
      · refine Or.inr ⟨c, List.mem_cons_self _ _, ?_, hi⟩
        show t.remove_loop hash_fn_ k idx (f + 1) (some c.addr) = _
        simp [HashTable.remove_loop, hc, hi]

theorem remove_absent_spec {t : HashTable K V} {L : List (Cell K V)}
    (hS : Shape hash_fn_ t L) (k : K) (hl : lookup k L = none) :
    t.remove hash_fn_ k = some (false, t) := by
  have htab := hS.table_at hash_fn_ k
  have hk : ∀ c ∈ L, c.key ≠ k := by
    intro c hc heq
    exact lookup_eq_none.1 hl (List.mem_map.2 ⟨c, hc, heq⟩)
  have hlen := Fwd_length_le (Fwd_of_Lnk L none hS.linked) hS.addr_nodup
  unfold HashTable.remove
  simp only [htab, Option.bind_eq_bind, Option.some_bind]
  cases hb : bucketHead (t.index hash_fn_) (t.index hash_fn_ k) L with
  | none => rfl
  | some b =>
    obtain ⟨L1, cb, L2, hL, -, -, hcba⟩ := bucketHead_split hb
    subst hL
    subst hcba
    have hR := Lnk_append_right (cb :: L2) none L1 none hS.linked
    have hlen2 : (cb :: L2).length < t.heap.length + 1 := by
      simp only [List.length_append, List.length_cons] at hlen ⊢
      omega
    rcases remove_loop_absent hash_fn_ k (t.index hash_fn_ k) (cb :: L2) _ _ hR hlen2
        (fun d hd => hk d (List.mem_append_right _ hd)) with h1 | ⟨d, hd, h1, h2⟩
    · have h1a : t.remove_loop hash_fn_ k (t.index hash_fn_ k) (t.heap.length + 1)
          (some cb.addr) = some none := h1
      simp only [h1a, Option.some_bind]
    · have h1a : t.remove_loop hash_fn_ k (t.index hash_fn_ k) (t.heap.length + 1)
          (some cb.addr) = some (some d.addr) := h1
      obtain ⟨pv, nx, hdd⟩ := Lnk_deref _ _ _ hS.linked (List.mem_append_right _ hd)
      simp only [h1a, Option.some_bind, hdd, ne_eq, h2, not_false_eq_true, if_true]

end Remove

/-! ## `rehash` on key-value pairs -/

section RegroupLemmas

variable {K V : Type}

theorem map_linkBefore (ix : K → Nat) (e : Cell K V) :
    ∀ (L : List (Cell K V)),
      (linkBefore ix e L).map (fun c => (c.key, c.value)) =
        placeBefore ix (e.key, e.value) (L.map (fun c => (c.key, c.value)))
  | [] => rfl
  | c :: cs => by
    by_cases hc : ix c.key = ix e.key
    · simp [linkBefore, placeBefore, hc]
    · simp [linkBefore, placeBefore, hc, map_linkBefore ix e cs]

theorem any_bucket (ix : K → Nat) (i : Nat) :
    ∀ (L : List (Cell K V)),
      (L.map (fun c => (c.key, c.value))).any (fun p => decide (ix p.1 = i)) =
        (bucketHead ix i L).isSome
  | [] => rfl
  | c :: cs => by
    by_cases hc : ix c.key = i
    · simp [bucketHead, hc]
    · simp only [List.map_cons, List.any_cons, hc, decide_False, Bool.false_or, bucketHead,
        if_false]
      exact any_bucket ix i cs

theorem map_link (ix : K → Nat) (e : Cell K V) (L : List (Cell K V)) :
    (link ix e L).map (fun c => (c.key, c.value)) =
      place ix (e.key, e.value) (L.map (fun c => (c.key, c.value))) := by
  unfold link place
  rw [any_bucket ix (ix e.key) L]
  cases hb : bucketHead ix (ix e.key) L with
  | none => simp
  | some b => simpa using map_linkBefore ix e L

theorem map_foldl_link (ix : K → Nat) :
    ∀ (L acc : List (Cell K V)),
      (L.foldl (fun acc c => link ix c acc) acc).map (fun c => (c.key, c.value)) =
        (L.map (fun c => (c.key, c.value))).foldl (fun acc e => place ix e acc)
          (acc.map (fun c => (c.key, c.value)))
  | [], _ => rfl
  | c :: cs, acc => by
    simp only [List.foldl_cons, List.map_cons]
    rw [map_foldl_link ix cs (link ix c acc), map_link]

theorem map_relink (ix : K → Nat) (L : List (Cell K V)) :
    (relink ix L).map (fun c => (c.key, c.value)) =
      regroup ix (L.map (fun c => (c.key, c.value))) := by
  simpa [relink, regroup] using map_foldl_link ix L []

theorem zip_key_value (L : List (Cell K V)) :
    (L.map Cell.key).zip (L.map Cell.value) = L.map (fun c => (c.key, c.value)) := by
  induction L with
  | nil => rfl
  | cons c cs ih => simp [ih]

end RegroupLemmas

section ExampleLemmas

theorem reachPut_table_0 : ReachPut id table_0 :=
  ReachPut.put (0, 10) true false (ReachPut.construct false 13 Dbl.three_quarters 0) rfl

theorem reachPut_table_10 : ReachPut id table_10 :=
  ReachPut.put (1, 11) true false reachPut_table_0 rfl

theorem reachPut_table_210 : ReachPut id table_210 :=
  ReachPut.put (2, 12) true false reachPut_table_10 rfl

end ExampleLemmas

/-! ## The claims -/

section Claims

variable {K V : Type} [DecidableEq K] (hash_fn_ : K → Nat)

/-- C1, lookup after insert: on every table reached from a newly constructed one
by `put` and `rehash` calls, whenever `put((k, v), true)` returns, `get(k)`
yields `v` and `has_key(k)` is true right after it, whether `k` was present or
not and whether or not the call rehashed first. The call returns on every such
table but one whose automatic rehash would compute a bucket count
`bucket_num_ * 2 + 1` beyond the largest `int`. -/
theorem put_then_get (t : HashTable K V) (hr : Reach hash_fn_ t) (k : K) (v : V) :
    ((∃ res, t.put hash_fn_ (k, v) true = some res) ↔
        (t.over_load = true → t.bucket_num_ * 2 + 1 ≤ 2147483647)) ∧
      ∀ b t1, t.put hash_fn_ (k, v) true = some (b, t1) →
        t1.get hash_fn_ k = some (some v) ∧ t1.has_key hash_fn_ k = some true := by
  obtain ⟨L, hR⟩ := Reach.rep hash_fn_ hr
  refine ⟨put_defined_iff hash_fn_ hR (k, v) true, ?_⟩
  intro b1 t2 hput1
  obtain ⟨b, t1, t0, L0, L1, hput, hR1, hR0, hperm, -, -, -, -, habs, hpres⟩ :=
    put_rep hash_fn_ hR k v true (put_some_bound hash_fn_ hput1)
  rw [hput1] at hput
  cases hput
  have hlk : ∃ c, lookup k L1 = some c ∧ c.value = v := by
    cases hl : lookup k L with
    | none =>
      have hL1 := (habs hl).2
      have hmem : (⟨t0.heap.length, k, v⟩ : Cell K V) ∈ L1 := by
        rw [hL1]
        exact (link_perm _ L0).symm.subset (List.mem_cons_self _ _)
      exact ⟨_, lookup_of_mem hR1.shape.key_nodup hmem, rfl⟩
    | some c =>
      have hL1 := (hpres c hl).2
      simp only [if_true] at hL1
      have h0 : lookup k L0 = some c := by
        rw [lookup_perm hperm hR0.shape.key_nodup, hl]
      refine ⟨{ c with value := v }, ?_, rfl⟩
      rw [hL1, lookup_setVal, if_pos rfl, h0]
      rfl
  obtain ⟨c, hc, hcv⟩ := hlk
  refine ⟨?_, ?_⟩
  · rw [get_spec hash_fn_ hR1.shape k, hc, ← hcv]
    rfl
  · rw [has_key_spec hash_fn_ hR1.shape k, hc]
    rfl

/-- C1 at a concrete table: the key 1 of `table_10` is put again with value 7,
and the call returns. -/
theorem put_then_get_witness :
    Reach id table_10 ∧ (table_10.put id (1, 7) true).isSome = true ∧
      ((∃ res, table_10.put id (1, 7) true = some res) ↔
        (table_10.over_load = true → table_10.bucket_num_ * 2 + 1 ≤ 2147483647)) ∧
      ∀ b t1, table_10.put id (1, 7) true = some (b, t1) →
        t1.get id 1 = some (some 7) ∧ t1.has_key id 1 = some true :=
  ⟨ReachPut.reach id reachPut_table_10, rfl,
    put_then_get id table_10 (ReachPut.reach id reachPut_table_10) 1 7⟩

/-- C2, remove then lookup, fails on the code: `table_210` holds the keys 2, 1, 0
in list order, one per bucket. `remove(1)` returns true but leaves `table[1]`
pointing at the deleted node, so `has_key(1)` and `get(1)` read freed memory
afterwards (no defined result) instead of answering false and null. -/
theorem remove_then_lookup_undefined :
    ReachPut id table_210 ∧
      (table_210.remove id 1).map Prod.fst = some true ∧
      (table_210.after_remove 1).table[1]? = some (some 1) ∧
      deref (table_210.after_remove 1).heap 1 = none ∧
      (table_210.after_remove 1).has_key id 1 = none ∧
      (table_210.after_remove 1).get id 1 = none :=
  ⟨reachPut_table_210, rfl, rfl, rfl, rfl, rfl⟩

/-- C3, removing a present key, fails on the code when the key is at the head of
the list: `table_0` holds the key 0 only, `has_key(0)` is true, `remove(0)`
returns true and `size()` drops to 0, but `head` still points at the deleted
node, so the walk of `get_all_keys()` reads freed memory instead of collecting
no key. -/
theorem remove_head_dangles :
    ReachPut id table_0 ∧ table_0.has_key id 0 = some true ∧
      table_0.get_all_keys_result = some [0] ∧
      (table_0.remove id 0).map Prod.fst = some true ∧
      (table_0.after_remove 0).size = table_0.size - 1 ∧
      (table_0.after_remove 0).head = some 0 ∧
      deref (table_0.after_remove 0).heap 0 = none ∧
      (table_0.after_remove 0).get_all_keys_result = none :=
  ⟨reachPut_table_0, rfl, rfl, rfl, rfl, rfl, rfl, rfl⟩

/-- C4, size consistency, fails on the code after a `remove` of the head entry:
after `remove(1)` on `table_10` (list order 1, 0) `size()` is 1, but the walk
from `head` starts at the deleted node, so the walks of `get_all_keys()` and
`get_all_values()` have no defined result. -/
theorem size_walk_diverge :
    ReachPut id table_10 ∧
      (table_10.remove id 1).map Prod.fst = some true ∧
      (table_10.after_remove 1).size = 1 ∧
      (table_10.after_remove 1).empty = false ∧
      (table_10.after_remove 1).head = some 1 ∧
      deref (table_10.after_remove 1).heap 1 = none ∧
      (table_10.after_remove 1).get_all_keys_result = none ∧
      (table_10.after_remove 1).get_all_values_result = none :=
  ⟨reachPut_table_10, rfl, rfl, rfl, rfl, rfl, rfl, rfl⟩

/-- C5, uniqueness, fails on the code at the call of `get_all_keys()` itself:
on every table reached by `put` calls from a newly constructed one the loop of
`get_all_keys()` ends with a vector that holds no key twice, but the method
returns a reference to that local vector, which is destroyed on return. The
caller holds a dangling reference, and reading the keys through it has no
defined result. -/
theorem keys_reference_dangles (t : HashTable K V) (hr : ReachPut hash_fn_ t) :
    (∃ ks, t.get_all_keys_result = some ks ∧ ks.Nodup) ∧
      t.get_all_keys = some Ref.dangling ∧ t.get_all_keys.bind Ref.read = none := by
  obtain ⟨L, hR⟩ := Reach.rep hash_fn_ (ReachPut.reach hash_fn_ hr)
  refine ⟨⟨_, get_all_keys_result_spec hash_fn_ hR.shape, hR.shape.key_nodup⟩,
    get_all_keys_spec hash_fn_ hR.shape, ?_⟩
  rw [get_all_keys_spec hash_fn_ hR.shape]
  rfl

/-- C5 on `table_210`: the loop builds the keys 2, 1, 0, the caller gets a
dangling reference. -/
theorem keys_reference_dangles_witness :
    ReachPut id table_210 ∧ table_210.get_all_keys_result = some [2, 1, 0] ∧
      (∃ ks, table_210.get_all_keys_result = some ks ∧ ks.Nodup) ∧
      table_210.get_all_keys = some Ref.dangling ∧
      table_210.get_all_keys.bind Ref.read = none :=
  ⟨reachPut_table_210, rfl, keys_reference_dangles id table_210 reachPut_table_210⟩

/-- C6, result of insert: on every table reached by `put` and `rehash` calls,
whenever `put((k, v), replacing)` returns, it returns true exactly when `k` was
present (`has_key(k)` true before the call) and `replacing` is true, and
`size()` has grown by one when `k` was absent and is unchanged otherwise. The
call returns on every such table but one whose automatic rehash would compute a
bucket count `bucket_num_ * 2 + 1` beyond the largest `int`. -/
theorem put_result (t : HashTable K V) (hr : Reach hash_fn_ t) (k : K) (v : V)
    (replacing : Bool) :
    ((∃ res, t.put hash_fn_ (k, v) replacing = some res) ↔
        (t.over_load = true → t.bucket_num_ * 2 + 1 ≤ 2147483647)) ∧
      ∃ present, t.has_key hash_fn_ k = some present ∧
        ∀ b t1, t.put hash_fn_ (k, v) replacing = some (b, t1) →
          (b = true ↔ (present = true ∧ replacing = true)) ∧
          t1.size = if present = true then t.size else t.size + 1 := by
  obtain ⟨L, hR⟩ := Reach.rep hash_fn_ hr
  refine ⟨put_defined_iff hash_fn_ hR (k, v) replacing, (lookup k L).isSome,
    has_key_spec hash_fn_ hR.shape k, ?_⟩
  intro b1 t2 hput1
  obtain ⟨b, t1, t0, L0, L1, hput, hR1, hR0, hperm, -, -, -, -, habs, hpres⟩ :=
    put_rep hash_fn_ hR k v replacing (put_some_bound hash_fn_ hput1)
  rw [hput1] at hput
  cases hput
  refine ⟨?_, ?_⟩
  · cases hl : lookup k L with
    | none => simp [(habs hl).1]
    | some c => simp [(hpres c hl).1]
  · show t2.size_ = if (lookup k L).isSome = true then t.size_ else t.size_ + 1
    rw [hR1.size_ok, hR.size_ok, ← hperm.length_eq]
    cases hl : lookup k L with
    | none =>
      rw [(habs hl).2, (link_perm _ L0).length_eq]
      simp
    | some c =>
      rw [(hpres c hl).2]
      cases replacing with
      | false => simp
      | true => simp [setVal_length]

/-- C6 at a concrete table: `put((1, 7), false)` on `table_10` returns. -/
theorem put_result_witness :
    Reach id table_10 ∧ (table_10.put id (1, 7) false).isSome = true ∧
      ((∃ res, table_10.put id (1, 7) false = some res) ↔
        (table_10.over_load = true → table_10.bucket_num_ * 2 + 1 ≤ 2147483647)) ∧
      ∃ present, table_10.has_key id 1 = some present ∧
        ∀ b t1, table_10.put id (1, 7) false = some (b, t1) →
          (b = true ↔ (present = true ∧ false = true)) ∧
          t1.size = if present = true then table_10.size else table_10.size + 1 :=
  ⟨ReachPut.reach id reachPut_table_10, rfl,
    put_result id table_10 (ReachPut.reach id reachPut_table_10) 1 7 false⟩

/-- C7, insert without replacement: on every table reached by `put` and `rehash`
calls, when `get(k)` yields `v0`, whenever `put((k, v), false)` returns it
leaves `get(k)` yielding `v0` and `size()` unchanged, for every `v`. The call
returns on every such table but one whose automatic rehash would compute a
bucket count `bucket_num_ * 2 + 1` beyond the largest `int`. -/
theorem put_keeps_value (t : HashTable K V) (hr : Reach hash_fn_ t) (k : K) (v0 v : V)
    (hg : t.get hash_fn_ k = some (some v0)) :
    ((∃ res, t.put hash_fn_ (k, v) false = some res) ↔
        (t.over_load = true → t.bucket_num_ * 2 + 1 ≤ 2147483647)) ∧
      ∀ b t1, t.put hash_fn_ (k, v) false = some (b, t1) →
        t1.get hash_fn_ k = some (some v0) ∧ t1.size = t.size := by
  obtain ⟨L, hR⟩ := Reach.rep hash_fn_ hr
  refine ⟨put_defined_iff hash_fn_ hR (k, v) false, ?_⟩
  intro b1 t2 hput1
  obtain ⟨b, t1, t0, L0, L1, hput, hR1, hR0, hperm, -, -, -, -, -, hpres⟩ :=
    put_rep hash_fn_ hR k v false (put_some_bound hash_fn_ hput1)
  rw [hput1] at hput
  cases hput
  rw [get_spec hash_fn_ hR.shape k] at hg
  cases hl : lookup k L with
  | none => simp [hl] at hg
  | some c =>
    have hL1 : L1 = L0 := by simpa using (hpres c hl).2
    subst hL1
    refine ⟨?_, ?_⟩
    · rw [get_spec hash_fn_ hR1.shape k, lookup_perm hperm hR0.shape.key_nodup]
      exact hg
    · show t2.size_ = t.size_
      rw [hR1.size_ok, hR.size_ok, hperm.length_eq]

/-- C7 at a concrete table: the key 1 of `table_10` holds 11, and the call
returns. -/
theorem put_keeps_value_witness :
    Reach id table_10 ∧ table_10.get id 1 = some (some 11) ∧
      (table_10.put id (1, 7) false).isSome = true ∧
      ((∃ res, table_10.put id (1, 7) false = some res) ↔
        (table_10.over_load = true → table_10.bucket_num_ * 2 + 1 ≤ 2147483647)) ∧
      ∀ b t1, table_10.put id (1, 7) false = some (b, t1) →
        t1.get id 1 = some (some 11) ∧ t1.size = table_10.size :=
  ⟨ReachPut.reach id reachPut_table_10, rfl, rfl,
    put_keeps_value id table_10 (ReachPut.reach id reachPut_table_10) 1 11 7 rfl⟩

/-- C8, removing an absent key: on every table reached by `put` and `rehash`
calls, when `has_key(k)` is false, `remove(k)` returns false and the table
afterwards is the very same state, so `size()`, the bucket count,
`get_all_keys()`, `get_all_values()` and every `get` are as before. -/
theorem remove_absent (t : HashTable K V) (hr : Reach hash_fn_ t) (k : K)
    (hk : t.has_key hash_fn_ k = some false) :
    t.remove hash_fn_ k = some (false, t) := by
  obtain ⟨L, hR⟩ := Reach.rep hash_fn_ hr
  rw [has_key_spec hash_fn_ hR.shape k] at hk
  refine remove_absent_spec hash_fn_ hR.shape k ?_
  cases hl : lookup k L with
  | none => rfl
  | some c => simp [hl] at hk

/-- C8 at a concrete table: the key 14 is not in `table_10` but shares the bucket
of the key 1. -/
theorem remove_absent_witness :
    Reach id table_10 ∧ table_10.has_key id 14 = some false ∧
      table_10.remove id 14 = some (false, table_10) :=
  ⟨(ReachPut.reach id reachPut_table_10), rfl, remove_absent id table_10 (ReachPut.reach id reachPut_table_10) 14 rfl⟩

/-- C9 as stated fails: `table_big` is newly constructed with `2 ^ 30` buckets,
and `rehash()` does not return true on it: the `int` expression
`bucket_num_ * 2 + 1` of line 148 overflows, so the call has no defined
result. -/
theorem rehash_overflow_counterexample :
    ReachPut id table_big ∧ table_big.bucket_num_ = 1073741824 ∧
      checked (table_big.bucket_num_ * 2) = none ∧ table_big.rehash id = none :=
  ⟨ReachPut.construct false 1073741824 Dbl.three_quarters 0, rfl, rfl, rfl⟩

/-- C9, amended: on every table reached by `put` calls, `rehash()` returns true
when `bucket_num_ * 2 + 1` is an `int` and has no defined result otherwise. When
it returns, `size()` is unchanged, `has_key(k)` and `get(k)` give the same
defined answers as before for every key `k`, and the keys the walk of
`get_all_keys()` collects afterwards are a permutation of those it collects
before. -/
theorem rehash_content (t : HashTable K V) (hr : ReachPut hash_fn_ t) :
    (t.bucket_num_ * 2 + 1 ≤ 2147483647 →
      ∃ t1 ks ks1, t.rehash hash_fn_ = some (true, t1) ∧ t1.size = t.size ∧
        (∀ k, ∃ b o, t.has_key hash_fn_ k = some b ∧ t1.has_key hash_fn_ k = some b ∧
          t.get hash_fn_ k = some o ∧ t1.get hash_fn_ k = some o) ∧
        t.get_all_keys_result = some ks ∧ t1.get_all_keys_result = some ks1 ∧
        ks1.Perm ks) ∧
      (2147483647 < t.bucket_num_ * 2 + 1 → t.rehash hash_fn_ = none) := by
  refine ⟨?_, rehash_none_of_overflow hash_fn_⟩
  intro hov
  obtain ⟨L, hR⟩ := Reach.rep hash_fn_ (ReachPut.reach hash_fn_ hr)
  obtain ⟨t1, hre, hR1, -, hsz, -, -⟩ := rehash_rep hash_fn_ hR hov
  have hperm : (relink (t1.index hash_fn_) L).Perm L := relink_perm L
  refine ⟨t1, _, _, hre, hsz, ?_, get_all_keys_result_spec hash_fn_ hR.shape,
    get_all_keys_result_spec hash_fn_ hR1.shape, hperm.map Cell.key⟩
  intro k
  have hlk : lookup k (relink (t1.index hash_fn_) L) = lookup k L :=
    lookup_perm hperm hR1.shape.key_nodup
  refine ⟨_, _, has_key_spec hash_fn_ hR.shape k, ?_, get_spec hash_fn_ hR.shape k, ?_⟩
  · rw [has_key_spec hash_fn_ hR1.shape k, hlk]
  · rw [get_spec hash_fn_ hR1.shape k, hlk]

/-- C9, amended, on `table_210`, whose 13 buckets become 27. -/
theorem rehash_content_witness :
    ReachPut id table_210 ∧
      ∃ t1 ks ks1, table_210.rehash id = some (true, t1) ∧ t1.size = table_210.size ∧
        (∀ k, ∃ b o, table_210.has_key id k = some b ∧ t1.has_key id k = some b ∧
          table_210.get id k = some o ∧ t1.get id k = some o) ∧
        table_210.get_all_keys_result = some ks ∧ t1.get_all_keys_result = some ks1 ∧
        ks1.Perm ks :=
  ⟨reachPut_table_210, (rehash_content id table_210 reachPut_table_210).1 (by decide)⟩

/-- C10 as stated fails: on `table_10` the walks of `get_all_keys()` and
`get_all_values()` collect the keys 1, 0 and the values 11, 10; after `rehash()`
they collect the keys 0, 1 and the values 10, 11. -/
theorem rehash_order_counterexample :
    ReachPut id table_10 ∧
      table_10.get_all_keys_result = some [1, 0] ∧
      table_10.get_all_values_result = some [11, 10] ∧
      (table_10.rehash id).map Prod.fst = some true ∧
      (table_10.rehash id).bind (fun r => r.2.get_all_keys_result) = some [0, 1] ∧
      (table_10.rehash id).bind (fun r => r.2.get_all_values_result) = some [10, 11] :=
  ⟨reachPut_table_10, rfl, rfl, rfl, rfl, rfl⟩

/-- C10, amended: on every table reached by `put` calls on which
`bucket_num_ * 2 + 1` is an `int`, `rehash()` returns true and doubles the bucket
count plus one, and the keys and values the walks of `get_all_keys()` and
`get_all_values()` collect afterwards are the two columns of `regroup` applied
to the pairs they collect before: the same pairs (a permutation), each entry
linked again, in the previous order, right before the first entry of its new
bucket or in front of all when that bucket is still empty. -/
theorem rehash_regroups (t : HashTable K V) (hr : ReachPut hash_fn_ t)
    (hov : t.bucket_num_ * 2 + 1 ≤ 2147483647) :
    ∃ t1 ks vs, t.rehash hash_fn_ = some (true, t1) ∧
      t1.bucket_num_ = t.bucket_num_ * 2 + 1 ∧
      t.get_all_keys_result = some ks ∧ t.get_all_values_result = some vs ∧
      ks.length = vs.length ∧
      t1.get_all_keys_result = some ((regroup (t1.index hash_fn_) (ks.zip vs)).map Prod.fst) ∧
      t1.get_all_values_result =
        some ((regroup (t1.index hash_fn_) (ks.zip vs)).map Prod.snd) ∧
      (regroup (t1.index hash_fn_) (ks.zip vs)).Perm (ks.zip vs) := by
  obtain ⟨L, hR⟩ := Reach.rep hash_fn_ (ReachPut.reach hash_fn_ hr)
  obtain ⟨t1, hre, hR1, hbn, -, -, -⟩ := rehash_rep hash_fn_ hR hov
  have hmap := map_relink (t1.index hash_fn_) L
  refine ⟨t1, _, _, hre, hbn, get_all_keys_result_spec hash_fn_ hR.shape,
    get_all_values_result_spec hash_fn_ hR.shape, by simp, ?_, ?_, ?_⟩
  · rw [get_all_keys_result_spec hash_fn_ hR1.shape, zip_key_value, ← hmap]
    simp
  · rw [get_all_values_result_spec hash_fn_ hR1.shape, zip_key_value, ← hmap]
    simp
  · rw [zip_key_value, ← hmap]
    exact (relink_perm L).map _

/-- C10, amended, on `table_210`: the keys 2, 1, 0 come back as 0, 1, 2. -/
theorem rehash_regroups_witness :
    ReachPut id table_210 ∧ table_210.bucket_num_ * 2 + 1 ≤ 2147483647 ∧
      table_210.get_all_keys_result = some [2, 1, 0] ∧
      (table_210.rehash id).bind (fun r => r.2.get_all_keys_result) = some [0, 1, 2] ∧
      ∃ t1 ks vs, table_210.rehash id = some (true, t1) ∧
        t1.bucket_num_ = table_210.bucket_num_ * 2 + 1 ∧
        table_210.get_all_keys_result = some ks ∧ table_210.get_all_values_result = some vs ∧
        ks.length = vs.length ∧
        t1.get_all_keys_result = some ((regroup (t1.index id) (ks.zip vs)).map Prod.fst) ∧
        t1.get_all_values_result = some ((regroup (t1.index id) (ks.zip vs)).map Prod.snd) ∧
        (regroup (t1.index id) (ks.zip vs)).Perm (ks.zip vs) :=
  ⟨reachPut_table_210, by decide, rfl, rfl,
    rehash_regroups id table_210 reachPut_table_210 (by decide)⟩

end Claims

section ClaimsTwo

variable {K V : Type} [DecidableEq K] (hash_fn_ : K → Nat)

/-- C13 as stated fails for a load factor that is not a number: neither
`f > 0` nor `f <= 0` holds of it, the test `load_factor <= 0` of line 70 is
false, and the constructor keeps it where the claim says 0.75. -/
theorem construct_nan_counterexample :
    Dbl.gt Dbl.nan (Dbl.ofInt 0) = false ∧ Dbl.le Dbl.nan (Dbl.ofInt 0) = false ∧
      (HashTable.construct false 13 Dbl.nan 0 : HashTable Nat Nat).load_factor_ = Dbl.nan ∧
      (HashTable.construct false 13 Dbl.nan 0 : HashTable Nat Nat).load_factor_
        ≠ Dbl.three_quarters :=
  ⟨rfl, rfl, rfl, by decide⟩

/-- C13, amended: for every requested bucket count and load factor (and
whatever `used_bucket_num_` happens to hold) the constructor yields a table with
the requested bucket count, or 13 when it is below 1, the requested load factor
when it is greater than 0 or not a number, and 0.75 otherwise, the flag as
supplied, `size() == 0`, `empty()` true, no key present, `get` null, and a null
`head`, so that the walks of `get_all_keys()` and `get_all_values()` collect
nothing. -/
theorem construct_empty (auto_rehash : Bool) (bucket_num : Int) (load_factor : Dbl)
    (used0 : Int) (k : K) :
    (HashTable.construct auto_rehash bucket_num load_factor used0 : HashTable K V).bucket_num_
        = (if 1 ≤ bucket_num then bucket_num else 13) ∧
      (HashTable.construct auto_rehash bucket_num load_factor used0 :
        HashTable K V).load_factor_ =
          (if Dbl.gt load_factor (Dbl.ofInt 0) = true ∨ load_factor = Dbl.nan
            then load_factor else Dbl.three_quarters) ∧
      (HashTable.construct auto_rehash bucket_num load_factor used0 :
        HashTable K V).auto_rehash_ = auto_rehash ∧
      (HashTable.construct auto_rehash bucket_num load_factor used0 : HashTable K V).size = 0 ∧
      (HashTable.construct auto_rehash bucket_num load_factor used0 :
        HashTable K V).empty = true ∧
      (HashTable.construct auto_rehash bucket_num load_factor used0 :
        HashTable K V).has_key hash_fn_ k = some false ∧
      (HashTable.construct auto_rehash bucket_num load_factor used0 :
        HashTable K V).get hash_fn_ k = some none ∧
      (HashTable.construct auto_rehash bucket_num load_factor used0 :
        HashTable K V).head = none ∧
      (HashTable.construct auto_rehash bucket_num load_factor used0 :
        HashTable K V).get_all_keys_result = some [] ∧
      (HashTable.construct auto_rehash bucket_num load_factor used0 :
        HashTable K V).get_all_values_result = some [] := by
  have hR := Rep_construct (V := V) hash_fn_ auto_rehash bucket_num load_factor used0
  refine ⟨?_, ?_, rfl, rfl, rfl, ?_, ?_, rfl, rfl, rfl⟩
  · show (if bucket_num < 1 then 13 else bucket_num) = _
    by_cases hb : 1 ≤ bucket_num
    · rw [if_pos hb, if_neg (by omega)]
    · rw [if_neg hb, if_pos (by omega)]
  · show (if Dbl.le load_factor (Dbl.ofInt 0) = true then Dbl.three_quarters
      else load_factor) = _
    cases load_factor with
    | nan => rfl
    | ninf => rfl
    | pinf => rfl
    | fin m e =>
      have hle : Dbl.le (Dbl.fin m e) (Dbl.ofInt 0)
          = !(Dbl.gt (Dbl.fin m e) (Dbl.ofInt 0)) := rfl
      rw [hle]
      cases hgt : Dbl.gt (Dbl.fin m e) (Dbl.ofInt 0) <;> simp
  · rw [has_key_spec hash_fn_ hR.shape k]
    rfl
  · rw [get_spec hash_fn_ hR.shape k]
    rfl

/-- C17, the agreement of the bucket view and the global view, fails on the code
at the calls of `get_all_keys()` and `get_all_values()` themselves: on every
table reached by `put` and `rehash` calls and for every key `k`, `has_key(k)` is
true exactly when `k` is among the keys the loop of `get_all_keys()` collects,
and `get(k)` yields the value the loop of `get_all_values()` collects at the
same position; but both methods return a reference to their local vector, which
is destroyed on return, so the caller holds two dangling references and reading
through them has no defined result. -/
theorem views_references_dangle (t : HashTable K V) (hr : Reach hash_fn_ t) (k : K) :
    (∃ ks vs, t.get_all_keys_result = some ks ∧ t.get_all_values_result = some vs ∧
      ks.length = vs.length ∧
      t.has_key hash_fn_ k = some (decide (k ∈ ks)) ∧
      ∀ i : Nat, ks[i]? = some k →
        ∃ v, vs[i]? = some v ∧ t.get hash_fn_ k = some (some v)) ∧
      t.get_all_keys = some Ref.dangling ∧ t.get_all_values = some Ref.dangling ∧
      t.get_all_keys.bind Ref.read = none ∧ t.get_all_values.bind Ref.read = none := by
  obtain ⟨L, hR⟩ := Reach.rep hash_fn_ hr
  refine ⟨⟨_, _, get_all_keys_result_spec hash_fn_ hR.shape,
    get_all_values_result_spec hash_fn_ hR.shape, by simp, ?_, ?_⟩,
    get_all_keys_spec hash_fn_ hR.shape, get_all_values_spec hash_fn_ hR.shape,
    by rw [get_all_keys_spec hash_fn_ hR.shape]; rfl,
    by rw [get_all_values_spec hash_fn_ hR.shape]; rfl⟩
  · rw [has_key_spec hash_fn_ hR.shape k]
    cases hl : lookup k L with
    | none =>
      have := lookup_eq_none.1 hl
      simp [this]
    | some c =>
      obtain ⟨hc, hck⟩ := lookup_some hl
      have : k ∈ L.map Cell.key := List.mem_map.2 ⟨c, hc, hck⟩
      simp [this]
  · intro i hi
    rw [List.getElem?_map] at hi
    cases hLi : L[i]? with
    | none => simp [hLi] at hi
    | some c =>
      rw [hLi] at hi
      have hck : c.key = k := by simpa using hi
      have hmem : c ∈ L := List.getElem?_mem hLi
      have hlk := lookup_of_mem hR.shape.key_nodup hmem
      rw [hck] at hlk
      refine ⟨c.value, by simp [List.getElem?_map, hLi], ?_⟩
      rw [get_spec hash_fn_ hR.shape k, hlk]
      rfl

/-- C17 on `table_210`: the loops collect the keys 2, 1, 0 and the values
12, 11, 10, the caller gets two dangling references. -/
theorem views_references_dangle_witness :
    Reach id table_210 ∧ table_210.get_all_keys_result = some [2, 1, 0] ∧
      table_210.get_all_values_result = some [12, 11, 10] ∧
      (∃ ks vs, table_210.get_all_keys_result = some ks ∧
        table_210.get_all_values_result = some vs ∧
        ks.length = vs.length ∧
        table_210.has_key id 1 = some (decide (1 ∈ ks)) ∧
        ∀ i : Nat, ks[i]? = some 1 →
          ∃ v, vs[i]? = some v ∧ table_210.get id 1 = some (some v)) ∧
      table_210.get_all_keys = some Ref.dangling ∧
      table_210.get_all_values = some Ref.dangling ∧
      table_210.get_all_keys.bind Ref.read = none ∧
      table_210.get_all_values.bind Ref.read = none :=
  ⟨ReachPut.reach id reachPut_table_210, rfl, rfl,
    views_references_dangle id table_210 (ReachPut.reach id reachPut_table_210) 1⟩

/-- C18, insert leaves other keys alone: on every table reached by `put` and
`rehash` calls, for every pair `(k, v)`, every `replacing` and every key `k1`
other than `k`, whenever `put((k, v), replacing)` returns, `has_key(k1)` and
`get(k1)` give the same answers after it as before, also when the call rehashes
first. The call returns on every such table but one whose automatic rehash would
compute a bucket count `bucket_num_ * 2 + 1` beyond the largest `int`. -/
theorem put_other_keys (t : HashTable K V) (hr : Reach hash_fn_ t) (k : K) (v : V)
    (replacing : Bool) (k1 : K) (hne : k1 ≠ k) :
    ((∃ res, t.put hash_fn_ (k, v) replacing = some res) ↔
        (t.over_load = true → t.bucket_num_ * 2 + 1 ≤ 2147483647)) ∧
      ∃ p o, t.has_key hash_fn_ k1 = some p ∧ t.get hash_fn_ k1 = some o ∧
        ∀ b t1, t.put hash_fn_ (k, v) replacing = some (b, t1) →
          t1.has_key hash_fn_ k1 = some p ∧ t1.get hash_fn_ k1 = some o := by
  obtain ⟨L, hR⟩ := Reach.rep hash_fn_ hr
  refine ⟨put_defined_iff hash_fn_ hR (k, v) replacing, _, _,
    has_key_spec hash_fn_ hR.shape k1, get_spec hash_fn_ hR.shape k1, ?_⟩
  intro b1 t2 hput1
  obtain ⟨b, t1, t0, L0, L1, hput, hR1, hR0, hperm, -, -, -, -, habs, hpres⟩ :=
    put_rep hash_fn_ hR k v replacing (put_some_bound hash_fn_ hput1)
  rw [hput1] at hput
  cases hput
  have h0 : lookup k1 L0 = lookup k1 L := lookup_perm hperm hR0.shape.key_nodup
  have h1 : lookup k1 L1 = lookup k1 L := by
    rw [← h0]
    cases hl : lookup k L with
    | none =>
      have hL1 := (habs hl).2
      have hp : L1.Perm (⟨t0.heap.length, k, v⟩ :: L0) := by
        rw [hL1]; exact link_perm _ L0
      rw [lookup_perm hp hR1.shape.key_nodup]
      simp [lookup, Ne.symm hne]
    | some c =>
      have hL1 := (hpres c hl).2
      cases replacing with
      | false =>
        simp only [Bool.false_eq_true, if_false] at hL1
        rw [hL1]
      | true =>
        simp only [if_true] at hL1
        rw [hL1, lookup_setVal, if_neg hne]
  refine ⟨?_, ?_⟩
  · rw [has_key_spec hash_fn_ hR1.shape k1, h1]
  · rw [get_spec hash_fn_ hR1.shape k1, h1]

/-- C18 at a concrete table: putting the key 14 into `table_210` returns and
leaves the key 1, which shares its bucket, alone. -/
theorem put_other_keys_witness :
    Reach id table_210 ∧ (1 : Nat) ≠ 14 ∧
      (table_210.put id (14, 7) true).isSome = true ∧
      ((∃ res, table_210.put id (14, 7) true = some res) ↔
        (table_210.over_load = true → table_210.bucket_num_ * 2 + 1 ≤ 2147483647)) ∧
      ∃ p o, table_210.has_key id 1 = some p ∧ table_210.get id 1 = some o ∧
        ∀ b t1, table_210.put id (14, 7) true = some (b, t1) →
          t1.has_key id 1 = some p ∧ t1.get id 1 = some o :=
  ⟨ReachPut.reach id reachPut_table_210, by decide, rfl,
    put_other_keys id table_210 (ReachPut.reach id reachPut_table_210) 14 7 true 1
      (by decide)⟩

end ClaimsTwo

section Runs

variable {K V : Type}

theorem Grouped_run (ix : K → Nat) (i : Nat) :
    ∀ (R : List (Cell K V)), Grouped ix R → (∀ c, R.head? = some c → ix c.key = i) →
      ∃ B C, R = B ++ C ∧ (∀ c ∈ B, ix c.key = i) ∧ (∀ c ∈ C, ix c.key ≠ i)
  | [], _, _ => ⟨[], [], rfl, by simp, by simp⟩
  | [c], _, hh => ⟨[c], [], rfl, by
      intro d hd
      rw [List.mem_singleton.1 hd]
      exact hh c rfl, by simp⟩
  | c :: d :: ds, hg, hh => by
    have hc : ix c.key = i := hh c rfl
    by_cases hd : ix d.key = i
    · obtain ⟨B, C, hBC, hB, hC⟩ := Grouped_run ix i (d :: ds) hg.2 (by
        intro e he
        simp only [List.head?_cons, Option.some.injEq] at he
        rw [← he]; exact hd)
      refine ⟨c :: B, C, by rw [hBC]; rfl, ?_, hC⟩
      intro e he
      rcases List.mem_cons.1 he with rfl | he
      · exact hc
      · exact hB e he
    · refine ⟨[c], d :: ds, rfl, ?_, ?_⟩
      · intro e he
        rw [List.mem_singleton.1 he]
        exact hc
      · intro e he hei
        obtain ⟨f, hf, hfc⟩ := hg.1 e he (by rw [hei, hc])
        simp only [List.head?_cons, Option.some.injEq] at hf
        subst hf
        exact hd (by rw [hfc, hc])

theorem Grouped_runs (ix : K → Nat) (i : Nat) :
    ∀ (L : List (Cell K V)), Grouped ix L →
      ∃ A B C, L = A ++ B ++ C ∧ (∀ c ∈ B, ix c.key = i) ∧ (∀ c ∈ A, ix c.key ≠ i) ∧
        (∀ c ∈ C, ix c.key ≠ i) ∧ bucketHead ix i L = firstAddr B none
  | [], _ => ⟨[], [], [], rfl, by simp, by simp, by simp, rfl⟩
  | c :: cs, hg => by
    by_cases hc : ix c.key = i
    · obtain ⟨B, C, hBC, hB, hC⟩ := Grouped_run ix i (c :: cs) hg (by
        intro e he
        simp only [List.head?_cons, Option.some.injEq] at he
        rw [← he]; exact hc)
      refine ⟨[], B, C, by simpa using hBC, hB, by simp, hC, ?_⟩
      cases B with
      | nil =>
        exfalso
        have hmem : c ∈ C := by
          rw [List.nil_append] at hBC
          rw [← hBC]; exact List.mem_cons_self _ _
        exact hC c hmem hc
      | cons b bs =>
        have hcb : c = b := by
          simp only [List.cons_append, List.cons.injEq] at hBC
          exact hBC.1
        subst hcb
        simp [bucketHead, hc, firstAddr]
    · obtain ⟨A, B, C, hL, hB, hA, hC, hbh⟩ := Grouped_runs ix i cs hg.2
      refine ⟨c :: A, B, C, by rw [hL]; rfl, hB, ?_, hC, ?_⟩
      · intro e he
        rcases List.mem_cons.1 he with rfl | he
        · exact hc
        · exact hA e he
      · simp only [bucketHead, hc, if_false]
        exact hbh

end Runs

section ClaimsThree

variable {K V : Type} [DecidableEq K] (hash_fn_ : K → Nat)

/-- C16, bucket grouping: on every table reached by `put` and `rehash` calls the
heap holds a doubly linked list `L` from `head`, the one `get_all_keys()`
walks, and for every bucket index `i` the entries of `L` whose keys have index
`i` form one contiguous run `B` of `L`; `table[i]` is the address of the first entry
of `B`, or null when `B` is empty. -/
theorem bucket_runs (t : HashTable K V) (hr : Reach hash_fn_ t) :
    ∃ L : List (Cell K V), t.head = firstAddr L none ∧ Lnk t.heap none L none ∧
      t.get_all_keys_result = some (L.map Cell.key) ∧
      (t.table.length : Int) = t.bucket_num_ ∧
      ∀ i, ∃ A B C, L = A ++ B ++ C ∧
        (∀ c ∈ B, t.index hash_fn_ c.key = i) ∧
        (∀ c ∈ A, t.index hash_fn_ c.key ≠ i) ∧
        (∀ c ∈ C, t.index hash_fn_ c.key ≠ i) ∧
        (i < t.table.length → t.table[i]? = some (firstAddr B none)) := by
  obtain ⟨L, hR⟩ := Reach.rep hash_fn_ hr
  refine ⟨L, hR.shape.head_ok, hR.shape.linked, get_all_keys_result_spec hash_fn_ hR.shape,
    hR.shape.table_len, ?_⟩
  intro i
  obtain ⟨A, B, C, hL, hB, hA, hC, hbh⟩ :=
    Grouped_runs (t.index hash_fn_) i L hR.shape.grouped
  refine ⟨A, B, C, hL, hB, hA, hC, ?_⟩
  intro hi
  rw [hR.shape.table_ok i hi, hbh]

/-- C16 at a concrete table. -/
theorem bucket_runs_witness :
    Reach id table_210 ∧
      ∃ L : List (Cell Nat Nat), table_210.head = firstAddr L none ∧
        Lnk table_210.heap none L none ∧
        table_210.get_all_keys_result = some (L.map Cell.key) ∧
        (table_210.table.length : Int) = table_210.bucket_num_ ∧
        ∀ i, ∃ A B C, L = A ++ B ++ C ∧
          (∀ c ∈ B, table_210.index id c.key = i) ∧
          (∀ c ∈ A, table_210.index id c.key ≠ i) ∧
          (∀ c ∈ C, table_210.index id c.key ≠ i) ∧
          (i < table_210.table.length → table_210.table[i]? = some (firstAddr B none)) :=
  ⟨ReachPut.reach id reachPut_table_210,
    bucket_runs id table_210 (ReachPut.reach id reachPut_table_210)⟩

end ClaimsThree

section Bounds

variable {K V : Type} (hash_fn_ : K → Nat)

theorem put_node_bounds {t t1 : HashTable K V} {a : Nat}
    (h : t.put_node hash_fn_ a = some t1) :
    t1.bucket_num_ = t.bucket_num_ ∧ t1.table.length = t.table.length := by
  unfold HashTable.put_node at h
  simp only [Option.bind_eq_bind, Option.bind_eq_some] at h
  obtain ⟨nn, -, node, -, h⟩ := h
  split at h
  · simp only [Option.bind_eq_some] at h
    obtain ⟨h1, -, h2, -, h3, -, h⟩ := h
    cases h
    simp
  · simp only [Option.bind_eq_some] at h
    obtain ⟨n, -, h1, -, h2, -, h3, -, nn3, -, h⟩ := h
    split at h
    · simp only [Option.bind_eq_some] at h
      obtain ⟨h4, -, h⟩ := h
      cases h
      simp
    · split at h <;> cases h <;> simp

theorem rehash_loop_bounds :
    ∀ (fuel : Nat) (t : HashTable K V) (p : Option Nat) (t1 : HashTable K V),
      HashTable.rehash_loop hash_fn_ fuel t p = some t1 →
      t1.bucket_num_ = t.bucket_num_ ∧ t1.table.length = t.table.length
  | 0, _, _, _, h => by simp [HashTable.rehash_loop] at h
  | _ + 1, t, none, t1, h => by
    simp only [HashTable.rehash_loop, Option.some.injEq] at h
    subst h
    exact ⟨rfl, rfl⟩
  | fuel + 1, t, some curr, t1, h => by
    simp only [HashTable.rehash_loop] at h
    split at h
    · cases h
    · split at h
      · cases h
      · rename_i t2 hput
        obtain ⟨hb, hl⟩ := rehash_loop_bounds fuel t2 _ t1 h
        obtain ⟨hb2, hl2⟩ := put_node_bounds hash_fn_ hput
        exact ⟨hb.trans hb2, hl.trans hl2⟩

theorem rehash_bounds {t t1 : HashTable K V} {b : Bool}
    (h : t.rehash hash_fn_ = some (b, t1)) :
    t1.bucket_num_ = t.bucket_num_ * 2 + 1 ∧
      t1.table.length = (t.bucket_num_ * 2 + 1).toNat := by
  obtain ⟨h1, h2, -⟩ := rehash_some_bound hash_fn_ h
  simp only [HashTable.rehash] at h
  rw [checked_of_range h1 (by omega)] at h
  simp only [] at h
  rw [checked_of_range (by omega) h2] at h
  simp only [] at h
  split at h
  · cases h
  · rename_i t2 hloop
    cases h
    obtain ⟨hb, hl⟩ := rehash_loop_bounds hash_fn_ _ _ _ _ hloop
    exact ⟨hb, by simpa using hl⟩

theorem put_insert_bounds [DecidableEq K] {t t1 : HashTable K V} {k : K} {v : V} {r b : Bool}
    (h : t.put_insert hash_fn_ k v r = some (b, t1)) :
    t1.bucket_num_ = t.bucket_num_ ∧ t1.table.length = t.table.length := by
  unfold HashTable.put_insert at h
  simp only [Option.bind_eq_bind, Option.bind_eq_some] at h
  obtain ⟨node, -, h⟩ := h
  split at h
  · simp only [Option.bind_eq_some] at h
    obtain ⟨h1, -, h2, -, h3, -, h⟩ := h
    cases h
    simp
  · simp only [Option.bind_eq_some] at h
    obtain ⟨found, -, h⟩ := h
    split at h
    · split at h
      · split at h
        · cases h
          exact ⟨rfl, rfl⟩
        · cases h
      · cases h
        exact ⟨rfl, rfl⟩
    · simp only [Option.bind_eq_some] at h
      obtain ⟨n, -, h1, -, h2, -, h3, -, nn3, -, h⟩ := h
      split at h
      · simp only [Option.bind_eq_some] at h
        obtain ⟨h4, -, h⟩ := h
        cases h
        simp
      · split at h <;> cases h <;> simp

theorem put_bounds [DecidableEq K] {t t1 : HashTable K V} {kv : K × V} {r b : Bool}
    (h : t.put hash_fn_ kv r = some (b, t1)) :
    (t1.bucket_num_ = t.bucket_num_ ∧ t1.table.length = t.table.length) ∨
      (t1.bucket_num_ = t.bucket_num_ * 2 + 1 ∧
        t1.table.length = (t.bucket_num_ * 2 + 1).toNat) := by
  unfold HashTable.put at h
  simp only [Option.bind_eq_bind, Option.bind_eq_some] at h
  obtain ⟨t0, h0, h⟩ := h
  obtain ⟨hb, hl⟩ := put_insert_bounds hash_fn_ h
  split at h0
  · split at h0
    · rename_i r0 hre
      cases h0
      have hre1 : t.rehash hash_fn_ = some (r0.1, r0.2) := hre
      obtain ⟨hb0, hl0⟩ := rehash_bounds hash_fn_ hre1
      exact Or.inr ⟨hb.trans hb0, hl.trans hl0⟩
    · cases h0
  · cases h0
    exact Or.inl ⟨hb, hl⟩

theorem remove_bounds [DecidableEq K] {t t1 : HashTable K V} {k : K} {b : Bool}
    (h : t.remove hash_fn_ k = some (b, t1)) :
    t1.bucket_num_ = t.bucket_num_ ∧ t1.table.length = t.table.length := by
  unfold HashTable.remove at h
  simp only [Option.bind_eq_bind, Option.bind_eq_some] at h
  obtain ⟨first, -, h⟩ := h
  split at h
  · cases h
    exact ⟨rfl, rfl⟩
  · simp only [Option.bind_eq_some] at h
    obtain ⟨found, -, h⟩ := h
    split at h
    · cases h
      exact ⟨rfl, rfl⟩
    · simp only [Option.bind_eq_some] at h
      obtain ⟨n, -, h⟩ := h
      split at h
      · cases h
        exact ⟨rfl, rfl⟩
      · simp only [Option.bind_eq_some] at h
        obtain ⟨h1, -, n1, -, h2, -, n2, -, cur, -, tu, htu, h⟩ := h
        cases h
        refine ⟨rfl, ?_⟩
        show tu.1.length = t.table.length
        split at htu
        · split at htu
          · cases htu
            simp
          · split at htu
            · cases htu
            · split at htu <;> cases htu <;> simp
        · cases htu
          rfl

theorem ReachAll.bounds [DecidableEq K] {t : HashTable K V} (h : ReachAll hash_fn_ t) :
    1 ≤ t.bucket_num_ ∧ (t.table.length : Int) = t.bucket_num_ := by
  induction h with
  | construct a b f u =>
    have hR := Rep_construct (V := V) hash_fn_ a b f u
    exact ⟨hR.shape.bucket_pos, hR.shape.table_len⟩
  | put kv r b _ hput ih =>
    rcases put_bounds hash_fn_ hput with ⟨hb, hl⟩ | ⟨hb, hl⟩
    · rw [hb, hl]; exact ih
    · rw [hb, hl]
      omega
  | remove k b _ hrem ih =>
    obtain ⟨hb, hl⟩ := remove_bounds hash_fn_ hrem
    rw [hb, hl]; exact ih
  | rehash b _ hre ih =>
    obtain ⟨hb, hl⟩ := rehash_bounds hash_fn_ hre
    rw [hb, hl]
    omega

theorem ReachPut.reachAll [DecidableEq K] {t : HashTable K V} (h : ReachPut hash_fn_ t) :
    ReachAll hash_fn_ t := by
  induction h with
  | construct a b f u => exact ReachAll.construct a b f u
  | put kv r b _ hput ih => exact ReachAll.put kv r b ih hput

end Bounds

section DblLemmas

theorem doublings_zero (fuel a c : Nat) (h : c ≤ a) : Dbl.doublings fuel a c = 0 := by
  cases fuel with
  | zero => rfl
  | succ f => simp [Dbl.doublings, h]

theorem doublings_spec :
    ∀ (fuel a c : Nat), 1 ≤ a → c ≤ a * 2 ^ fuel →
      c ≤ a * 2 ^ Dbl.doublings fuel a c ∧
      (a < c → 1 ≤ Dbl.doublings fuel a c ∧ a * 2 ^ (Dbl.doublings fuel a c - 1) < c)
  | 0, a, c, _, hc => by
    simp only [pow_zero, mul_one] at hc
    exact ⟨by simpa [Dbl.doublings] using hc, fun h => absurd hc (by omega)⟩
  | fuel + 1, a, c, ha, hc => by
    by_cases hca : c ≤ a
    · rw [doublings_zero _ _ _ hca]
      exact ⟨by simpa using hca, fun h => absurd hca (by omega)⟩
    · have hstep : Dbl.doublings (fuel + 1) a c = Dbl.doublings fuel (2 * a) c + 1 := by
        simp [Dbl.doublings, hca]
      obtain ⟨h1, h2⟩ := doublings_spec fuel (2 * a) c (by omega) (by
        rw [pow_succ] at hc
        calc c ≤ a * (2 ^ fuel * 2) := hc
          _ = 2 * a * 2 ^ fuel := by ring)
      rw [hstep]
      refine ⟨?_, fun _ => ⟨by omega, ?_⟩⟩
      · calc c ≤ 2 * a * 2 ^ Dbl.doublings fuel (2 * a) c := h1
          _ = a * 2 ^ (Dbl.doublings fuel (2 * a) c + 1) := by rw [pow_succ]; ring
      · rw [Nat.add_sub_cancel]
        by_cases h2a : 2 * a < c
        · obtain ⟨h3, h4⟩ := h2 h2a
          have hj : Dbl.doublings fuel (2 * a) c = (Dbl.doublings fuel (2 * a) c - 1) + 1 := by
            omega
          rw [hj, pow_succ]
          calc a * (2 ^ (Dbl.doublings fuel (2 * a) c - 1) * 2)
              = 2 * a * 2 ^ (Dbl.doublings fuel (2 * a) c - 1) := by ring
            _ < c := h4
        · rw [doublings_zero _ _ _ (by omega)]
          simpa using (by omega : a < c)

theorem halvings_spec :
    ∀ (fuel a c : Nat), 1 ≤ c → c ≤ a → a < c * 2 ^ fuel →
      c * 2 ^ Dbl.halvings fuel a c ≤ a
  | 0, a, c, _, hca, hf => by
    simp only [pow_zero, mul_one] at hf
    omega
  | fuel + 1, a, c, hc, hca, hf => by
    by_cases h2 : a < 2 * c
    · have : Dbl.halvings (fuel + 1) a c = 0 := by simp [Dbl.halvings, h2]
      rw [this]
      simpa using hca
    · have hstep : Dbl.halvings (fuel + 1) a c = Dbl.halvings fuel a (2 * c) + 1 := by
        simp [Dbl.halvings, h2]
      have ih := halvings_spec fuel a (2 * c) (by omega) (by omega) (by
        rw [pow_succ] at hf
        calc a < c * (2 ^ fuel * 2) := hf
          _ = 2 * c * 2 ^ fuel := by ring)
      rw [hstep, pow_succ]
      calc c * (2 ^ Dbl.halvings fuel a (2 * c) * 2)
          = 2 * c * 2 ^ Dbl.halvings fuel a (2 * c) := by ring
        _ ≤ a := ih

theorem roundQuot_ge_one (a c : Nat) (hc : 1 ≤ c) (hca : c ≤ a) (ha : a < 2 ^ 31) :
    ∃ j : Nat, j ≤ 30 ∧ (Dbl.roundQuot a c).2 = (j : Int) - 52 ∧
      2 ^ 52 ≤ (Dbl.roundQuot a c).1 := by
  have hfuel : a < c * 2 ^ a :=
    calc a < 2 ^ a := Nat.lt_two_pow a
      _ ≤ c * 2 ^ a := Nat.le_mul_of_pos_left _ (by omega)
  have hj := halvings_spec a a c hc hca hfuel
  have hj30 : Dbl.halvings a a c ≤ 30 := by
    by_contra hgt
    have h31 : 2 ^ 31 ≤ 2 ^ Dbl.halvings a a c := Nat.pow_le_pow_right (by omega) (by omega)
    have h2 : 2 ^ Dbl.halvings a a c ≤ c * 2 ^ Dbl.halvings a a c :=
      Nat.le_mul_of_pos_left _ (by omega)
    omega
  have he : Dbl.exponent a c = (Dbl.halvings a a c : Int) := by
    simp [Dbl.exponent, hca]
  refine ⟨Dbl.halvings a a c, hj30, ?_, ?_⟩
  · simp only [Dbl.roundQuot, he]
  · generalize Dbl.halvings a a c = j at hj hj30 he
    have hk1 : ((52 : Int) - (j : Int)).toNat = 52 - j := by omega
    have hk2 : (-((52 : Int) - (j : Int))).toNat = 0 := by omega
    have hn : 2 ^ 52 ≤ a * 2 ^ (52 - j) / (c * 2 ^ 0) := by
      rw [Nat.le_div_iff_mul_le (by simpa using hc)]
      have h52 : 2 ^ 52 = 2 ^ j * 2 ^ (52 - j) := by
        rw [← pow_add]
        congr 1
        omega
      calc 2 ^ 52 * (c * 2 ^ 0) = c * 2 ^ j * 2 ^ (52 - j) := by rw [h52]; ring
        _ ≤ a * 2 ^ (52 - j) := Nat.mul_le_mul_right _ hj
    simp only [Dbl.roundQuot, he, hk1, hk2]
    split
    · omega
    · exact hn

theorem roundQuot_lt_one (a c : Nat) (ha : 1 ≤ a) (hac : a < c) :
    ∃ d : Nat, 1 ≤ d ∧ c ≤ a * 2 ^ d ∧ a * 2 ^ (d - 1) < c ∧
      (Dbl.roundQuot a c).2 = -(d : Int) - 52 ∧
      (Dbl.roundQuot a c).1 =
        (if c < 2 * (a * 2 ^ (52 + d) % c) ∨
            (2 * (a * 2 ^ (52 + d) % c) = c ∧ a * 2 ^ (52 + d) / c % 2 = 1)
          then a * 2 ^ (52 + d) / c + 1 else a * 2 ^ (52 + d) / c) := by
  have hfuel : c ≤ a * 2 ^ c :=
    calc c ≤ 2 ^ c := (Nat.lt_two_pow c).le
      _ ≤ a * 2 ^ c := Nat.le_mul_of_pos_left _ (by omega)
  obtain ⟨h1, h2⟩ := doublings_spec c a c ha hfuel
  obtain ⟨h3, h4⟩ := h2 hac
  have he : Dbl.exponent a c = -(Dbl.doublings c a c : Int) := by
    simp [Dbl.exponent, Nat.not_le.2 hac]
  refine ⟨Dbl.doublings c a c, h3, h1, h4, ?_, ?_⟩
  · simp only [Dbl.roundQuot, he]
  · generalize Dbl.doublings c a c = d at he
    have hk1 : ((52 : Int) - -(d : Int)).toNat = 52 + d := by omega
    have hk2 : (-((52 : Int) - -(d : Int))).toNat = 0 := by omega
    simp only [Dbl.roundQuot, he, hk1, hk2, pow_zero, mul_one]

theorem finLt_three_quarters (a c : Nat) (ha : 1 ≤ a) (hc : 1 ≤ c) (ha2 : a < 2 ^ 31)
    (hc2 : c < 2 ^ 31) :
    Dbl.finLt 3 (-2) ((Dbl.roundQuot a c).1 : Int) (Dbl.roundQuot a c).2 =
      decide (3 * c < 4 * a) := by
  by_cases hca : c ≤ a
  · obtain ⟨j, hj, h2, h1⟩ := roundQuot_ge_one a c hc hca ha2
    generalize (Dbl.roundQuot a c).1 = m at h1
    rw [h2]
    have hmin : min (-2 : Int) ((j : Int) - 52) = (j : Int) - 52 := by omega
    have hx1 : ((-2 : Int) - ((j : Int) - 52)).toNat = 50 - j := by omega
    have hx2 : (((j : Int) - 52) - ((j : Int) - 52)).toNat = 0 := by omega
    have hp : 2 ^ (50 - j) ≤ 2 ^ 50 := Nat.pow_le_pow_right (by omega) (by omega)
    have hlt : (3 : Int) * 2 ^ (50 - j) < (m : Int) * 2 ^ 0 := by
      have : 3 * 2 ^ (50 - j) < m * 2 ^ 0 := by omega
      exact_mod_cast this
    simp only [Dbl.finLt, hmin, hx1, hx2]
    rw [decide_eq_true hlt, decide_eq_true (by omega : 3 * c < 4 * a)]
  · have hac : a < c := Nat.not_le.1 hca
    obtain ⟨d, hd, hle, hlt, h2, h1⟩ := roundQuot_lt_one a c ha hac
    rw [h2]
    have hmin : min (-2 : Int) (-(d : Int) - 52) = -(d : Int) - 52 := by omega
    have hx1 : ((-2 : Int) - (-(d : Int) - 52)).toNat = d + 50 := by omega
    have hx2 : ((-(d : Int) - 52) - (-(d : Int) - 52)).toNat = 0 := by omega
    simp only [Dbl.finLt, hmin, hx1, hx2]
    have hm_le : (Dbl.roundQuot a c).1 ≤ a * 2 ^ (52 + d) / c + 1 := by
      rw [h1]
      split <;> omega
    have hm_ge : a * 2 ^ (52 + d) / c ≤ (Dbl.roundQuot a c).1 := by
      rw [h1]
      split <;> omega
    have hm_eq : a * 2 ^ (52 + d) % c = 0 →
        (Dbl.roundQuot a c).1 = a * 2 ^ (52 + d) / c := by
      intro h0
      rw [h1, h0]
      have hne : ¬ (c < 2 * 0 ∨ (2 * 0 = c ∧ a * 2 ^ (52 + d) / c % 2 = 1)) := by omega
      rw [if_neg hne]
    generalize (Dbl.roundQuot a c).1 = m at hm_le hm_ge hm_eq
    have hcast : ((3 : Int) * 2 ^ (d + 50) < (m : Int) * 2 ^ 0) ↔
        (3 * 2 ^ (d + 50) < m) := by
      simp only [pow_zero, mul_one]
      exact_mod_cast Iff.rfl
    simp only [hcast, decide_eq_decide]
    by_cases hd1 : d = 1
    · subst hd1
      simp only [pow_one] at hle
      have e53 : (2 : Nat) ^ (52 + 1) = 9007199254740992 := by norm_num
      have e51 : (2 : Nat) ^ (1 + 50) = 2251799813685248 := by norm_num
      rw [e53] at hm_le hm_ge hm_eq
      rw [e51]
      obtain ⟨n, hn⟩ : ∃ n, n = a * 9007199254740992 / c := ⟨_, rfl⟩
      rw [← hn] at hm_le hm_ge hm_eq
      norm_num at ha2 hc2
      by_cases h34 : 3 * c < 4 * a
      · have hn1 : 6755399441055745 ≤ n := by
          rw [hn, Nat.le_div_iff_mul_le (by omega)]
          omega
        exact ⟨fun _ => h34, fun _ => by omega⟩
      · have hgoal : ¬ (3 * 2251799813685248 < m) := by
          by_cases h4 : 4 * a = 3 * c
          · have hnum : a * 9007199254740992 = 6755399441055744 * c := by omega
            have hmn := hm_eq (by rw [hnum, Nat.mul_mod_left])
            rw [hnum, Nat.mul_div_cancel _ (by omega : 0 < c)] at hn
            omega
          · have hn1 : n < 6755399441055744 := by
              rw [hn, Nat.div_lt_iff_lt_mul (by omega)]
              omega
            omega
        exact ⟨fun h => absurd h hgoal, fun h => absurd h h34⟩
    · have hd2 : 2 ≤ d := by omega
      have hpow : 2 ≤ 2 ^ (d - 1) := by
        calc 2 = 2 ^ 1 := by norm_num
          _ ≤ 2 ^ (d - 1) := Nat.pow_le_pow_right (by omega) (by omega)
      have h2a : 2 * a < c :=
        calc 2 * a = a * 2 := by ring
          _ ≤ a * 2 ^ (d - 1) := Nat.mul_le_mul_left _ hpow
          _ < c := hlt
      have hn : a * 2 ^ (52 + d) / c < 2 ^ 53 := by
        rw [Nat.div_lt_iff_lt_mul (by omega)]
        have h53 : 2 ^ (52 + d) = 2 ^ (d - 1) * 2 ^ 53 := by
          rw [← pow_add]
          congr 1
          omega
        calc a * 2 ^ (52 + d) = a * 2 ^ (d - 1) * 2 ^ 53 := by rw [h53]; ring
          _ < c * 2 ^ 53 := Nat.mul_lt_mul_of_pos_right hlt (by positivity)
          _ = 2 ^ 53 * c := by ring
      have hbig : 2 ^ 52 ≤ 2 ^ (d + 50) := Nat.pow_le_pow_right (by omega) (by omega)
      have hgoal : ¬ (3 * 2 ^ (d + 50) < m) := by
        generalize 2 ^ (d + 50) = X at hbig
        generalize a * 2 ^ (52 + d) / c = n at hn hm_le
        norm_num at hn hbig
        omega
      exact ⟨fun h => absurd h hgoal, fun h => absurd h (by omega)⟩

theorem gt_div_three_quarters (u b : Int) (hb1 : 1 ≤ b) (hb2 : b ≤ 2147483647)
    (hu2 : u ≤ 2147483647) :
    Dbl.gt (Dbl.div (Dbl.ofInt u) (Dbl.ofInt b)) Dbl.three_quarters =
      decide (3 * b < 4 * u) := by
  obtain ⟨c, rfl⟩ := Int.eq_ofNat_of_zero_le (by omega : 0 ≤ b)
  have hb0 : ¬ ((c : Int) = 0) := by omega
  have hbpos : (0 : Int) < (c : Int) := by omega
  by_cases hu0 : u = 0
  · subst hu0
    have hr : ¬ ((3 : Int) * (c : Int) < 4 * 0) := by omega
    rw [decide_eq_false hr]
    simp [Dbl.gt, Dbl.ofInt, Dbl.three_quarters, Dbl.div, hb0, Dbl.lt, Dbl.finLt]
  · by_cases hneg : u < 0
    · have hr : ¬ ((3 : Int) * (c : Int) < 4 * u) := by omega
      rw [decide_eq_false hr]
      have hsign : ¬ (decide (0 < u) = decide (0 < (c : Int))) := by
        simp [hbpos, not_lt.2 hneg.le]
      simp only [Dbl.gt, Dbl.ofInt, Dbl.three_quarters, Dbl.div, if_neg hb0, if_neg hu0,
        if_neg hsign, Dbl.lt, Dbl.finLt]
      rw [decide_eq_false]
      intro hlt
      have h1 : (0 : Int) < 3 * 2 ^ (-2 - min (-2) ((Dbl.roundQuot u.natAbs
          (c : Int).natAbs).2 + 0 - 0)).toNat := by positivity
      have h2 : -1 * ((Dbl.roundQuot u.natAbs (c : Int).natAbs).1 : Int) *
          2 ^ ((Dbl.roundQuot u.natAbs (c : Int).natAbs).2 + 0 - 0 -
            min (-2) ((Dbl.roundQuot u.natAbs (c : Int).natAbs).2 + 0 - 0)).toNat ≤ 0 := by
        have hp : (0 : Int) ≤ 2 ^ ((Dbl.roundQuot u.natAbs (c : Int).natAbs).2 + 0 - 0 -
            min (-2) ((Dbl.roundQuot u.natAbs (c : Int).natAbs).2 + 0 - 0)).toNat := by
          positivity
        have hm : (0 : Int) ≤ ((Dbl.roundQuot u.natAbs (c : Int).natAbs).1 : Int) :=
          Int.ofNat_nonneg _
        nlinarith
      omega
    · obtain ⟨a, rfl⟩ := Int.eq_ofNat_of_zero_le (by omega : 0 ≤ u)
      have hapos : (0 : Int) < (a : Int) := by omega
      have hsign : decide (0 < (a : Int)) = decide (0 < (c : Int)) := by
        simp [hapos, hbpos]
      have hq := finLt_three_quarters a c (by omega) (by omega)
        (by norm_num; omega) (by norm_num; omega)
      simp only [Dbl.gt, Dbl.ofInt, Dbl.three_quarters, Dbl.div, if_neg hb0, if_neg hu0,
        if_pos hsign, Dbl.lt, Int.natAbs_ofNat, one_mul, add_zero, sub_zero]
      rw [hq]
      simp only [decide_eq_decide]
      omega

end DblLemmas

section Counter

variable {K V : Type} (hash_fn_ : K → Nat)

theorem countP_set_none (a : Nat) :
    ∀ (l : List (Option Nat)) (i : Nat), l[i]? = some none →
      (l.set i (some a)).countP (fun p => p.isSome) = l.countP (fun p => p.isSome) + 1
  | [], _, h => by simp at h
  | x :: xs, 0, h => by
    simp only [List.getElem?_cons_zero, Option.some.injEq] at h
    subst h
    simp [List.countP_cons]
  | x :: xs, i + 1, h => by
    simp only [List.getElem?_cons_succ] at h
    have ih := countP_set_none a xs i h
    simp only [List.set_cons_succ, List.countP_cons, ih]
    omega

theorem countP_set_some (a b : Nat) :
    ∀ (l : List (Option Nat)) (i : Nat), l[i]? = some (some b) →
      (l.set i (some a)).countP (fun p => p.isSome) = l.countP (fun p => p.isSome)
  | [], _, h => by simp at h
  | x :: xs, 0, h => by
    simp only [List.getElem?_cons_zero, Option.some.injEq] at h
    subst h
    simp [List.countP_cons]
  | x :: xs, i + 1, h => by
    simp only [List.getElem?_cons_succ] at h
    have ih := countP_set_some a b xs i h
    simp only [List.set_cons_succ, List.countP_cons, ih]

theorem countP_replicate_none (n : Nat) :
    (List.replicate n (none : Option Nat)).countP (fun p => p.isSome) = 0 := by
  rw [List.countP_eq_zero]
  intro p hp
  rw [List.eq_of_mem_replicate hp]
  simp

/-- The call `put(DataNode*)` keeps the distance between the counter
`used_bucket_num_` and the number of occupied buckets. -/
theorem put_node_counter {t t1 : HashTable K V} {a : Nat}
    (h : t.put_node hash_fn_ a = some t1) :
    t1.used_bucket_num_ - t1.occupied_bucket_count =
      t.used_bucket_num_ - t.occupied_bucket_count := by
  unfold HashTable.put_node at h
  simp only [Option.bind_eq_bind, Option.bind_eq_some] at h
  obtain ⟨nn, -, node, hnode, h⟩ := h
  split at h
  · simp only [Option.bind_eq_some] at h
    obtain ⟨h1, -, h2, -, h3, -, h⟩ := h
    cases h
    simp only [HashTable.occupied_bucket_count, countP_set_none a _ _ hnode]
    push_cast
    omega
  · rename_i first
    simp only [Option.bind_eq_some] at h
    obtain ⟨n, -, h1, -, h2, -, h3, -, nn3, -, h⟩ := h
    split at h
    · simp only [Option.bind_eq_some] at h
      obtain ⟨h4, -, h⟩ := h
      cases h
      simp only [HashTable.occupied_bucket_count, countP_set_some a first _ _ hnode]
    · split at h <;> cases h <;>
        simp only [HashTable.occupied_bucket_count, countP_set_some a first _ _ hnode]

theorem rehash_loop_counter :
    ∀ (fuel : Nat) (t : HashTable K V) (p : Option Nat) (t1 : HashTable K V),
      HashTable.rehash_loop hash_fn_ fuel t p = some t1 →
      t1.used_bucket_num_ - t1.occupied_bucket_count =
        t.used_bucket_num_ - t.occupied_bucket_count
  | 0, _, _, _, h => by simp [HashTable.rehash_loop] at h
  | _ + 1, t, none, t1, h => by
    simp only [HashTable.rehash_loop, Option.some.injEq] at h
    subst h
    rfl
  | fuel + 1, t, some curr, t1, h => by
    simp only [HashTable.rehash_loop] at h
    split at h
    · cases h
    · split at h
      · cases h
      · rename_i t2 hput
        rw [rehash_loop_counter fuel t2 _ t1 h, put_node_counter hash_fn_ hput]

/-- After `rehash` the counter `used_bucket_num_` is the number of occupied
buckets, whatever it was before. -/
theorem rehash_counter {t t1 : HashTable K V} {b : Bool}
    (h : t.rehash hash_fn_ = some (b, t1)) :
    t1.used_bucket_num_ = t1.occupied_bucket_count := by
  obtain ⟨h1, h2, -⟩ := rehash_some_bound hash_fn_ h
  simp only [HashTable.rehash] at h
  rw [checked_of_range h1 (by omega)] at h
  simp only [] at h
  rw [checked_of_range (by omega) h2] at h
  simp only [] at h
  split at h
  · cases h
  · rename_i t2 hloop
    cases h
    have hc := rehash_loop_counter hash_fn_ _ _ _ _ hloop
    simp only [HashTable.occupied_bucket_count, countP_replicate_none] at hc
    simp only [HashTable.occupied_bucket_count]
    omega

/-- The insertion proper of `put` keeps the distance between the counter
`used_bucket_num_` and the number of occupied buckets. -/
theorem put_insert_counter [DecidableEq K] {t t1 : HashTable K V} {k : K} {v : V}
    {r b : Bool} (h : t.put_insert hash_fn_ k v r = some (b, t1)) :
    t1.used_bucket_num_ - t1.occupied_bucket_count =
      t.used_bucket_num_ - t.occupied_bucket_count := by
  unfold HashTable.put_insert at h
  simp only [Option.bind_eq_bind, Option.bind_eq_some] at h
  obtain ⟨node, hnode, h⟩ := h
  split at h
  · simp only [Option.bind_eq_some] at h
    obtain ⟨h1, -, h2, -, h3, -, h⟩ := h
    cases h
    simp only [HashTable.occupied_bucket_count, countP_set_none _ _ _ hnode]
    push_cast
    omega
  · rename_i first
    simp only [Option.bind_eq_some] at h
    obtain ⟨found, -, h⟩ := h
    split at h
    · split at h
      · split at h
        · cases h
          rfl
        · cases h
      · cases h
        rfl
    · simp only [Option.bind_eq_some] at h
      obtain ⟨n, -, h1, -, h2, -, h3, -, nn3, -, h⟩ := h
      split at h
      · simp only [Option.bind_eq_some] at h
        obtain ⟨h4, -, h⟩ := h
        cases h
        simp only [HashTable.occupied_bucket_count, countP_set_some _ first _ _ hnode]
      · split at h <;> cases h <;>
          simp only [HashTable.occupied_bucket_count, countP_set_some _ first _ _ hnode]

/-- The method `put` leaves the counter `used_bucket_num_` equal to the number of
occupied buckets when it rehashes first, and keeps their distance otherwise. -/
theorem put_counter [DecidableEq K] {t t1 : HashTable K V} {kv : K × V} {r b : Bool}
    (h : t.put hash_fn_ kv r = some (b, t1)) :
    (t.over_load = true → t1.used_bucket_num_ = t1.occupied_bucket_count) ∧
      (t.over_load = false → t1.used_bucket_num_ - t1.occupied_bucket_count =
        t.used_bucket_num_ - t.occupied_bucket_count) := by
  unfold HashTable.put at h
  simp only [Option.bind_eq_bind, Option.bind_eq_some] at h
  obtain ⟨t0, h0, h⟩ := h
  have hc := put_insert_counter hash_fn_ h
  split at h0
  · rename_i hov
    split at h0
    · rename_i r0 hre
      cases h0
      have hre1 : t.rehash hash_fn_ = some (r0.1, r0.2) := hre
      have h1 := rehash_counter hash_fn_ hre1
      refine ⟨fun _ => by omega, fun hf => ?_⟩
      rw [hov] at hf
      cases hf
    · cases h0
  · rename_i hov
    cases h0
    refine ⟨fun ht => absurd ht hov, fun _ => hc⟩

end Counter

section ClaimsFour

variable {K V : Type} [DecidableEq K] (hash_fn_ : K → Nat)

/-- C20 as stated fails for the constructor argument `2 ^ 30`: a `rehash()` on
the new table computes `bucket_num_ * 2 + 1` beyond the largest `int`, so the
call has no defined result; where the overflow wraps around, the bucket count
it leaves is -2147483647, below 1. -/
theorem bucket_count_overflow_counterexample :
    ReachAll id table_big ∧ table_big.bucket_num_ = 1073741824 ∧
      2147483647 < table_big.bucket_num_ * 2 + 1 ∧
      table_big.rehash id = none ∧
      (table_big.bucket_num_ * 2 + 1 + 2147483648) % 4294967296 - 2147483648
        = -2147483647 :=
  ⟨ReachAll.construct false 1073741824 Dbl.three_quarters 0, rfl, by decide, rfl, by decide⟩

/-- C20, amended: at every state reached from a newly constructed table (any
constructor arguments) by `put`, `remove` and `rehash` calls that return, the
bucket count is at least 1, the bucket array has that many slots, and for every
key `k` the index `hash(k) mod bucket_num_` is below the bucket count, so
`table[index(k)]` is a slot of the array. A `rehash()`, explicit or inside
`put`, that would leave the range of `int` does not return. -/
theorem index_in_bounds (t : HashTable K V) (hr : ReachAll hash_fn_ t) (k : K) :
    1 ≤ t.bucket_num_ ∧ (t.table.length : Int) = t.bucket_num_ ∧
      ((t.index hash_fn_ k : Nat) : Int) < t.bucket_num_ ∧
      t.index hash_fn_ k < t.table.length ∧
      (∃ p, t.table[t.index hash_fn_ k]? = some p) ∧
      (2147483647 < t.bucket_num_ * 2 + 1 →
        t.rehash hash_fn_ = none ∧
        ∀ (kv : K × V) (r : Bool), t.over_load = true → t.put hash_fn_ kv r = none) := by
  obtain ⟨hpos, hlen⟩ := ReachAll.bounds hash_fn_ hr
  have hlt : t.index hash_fn_ k < t.table.length := by
    unfold HashTable.index
    have h3 : t.bucket_num_.toNat = t.table.length := by omega
    rw [h3]
    exact Nat.mod_lt _ (by omega)
  refine ⟨hpos, hlen, by omega, hlt, ?_, ?_⟩
  · exact ⟨t.table[t.index hash_fn_ k], List.getElem?_eq_getElem hlt⟩
  · intro hov
    exact ⟨rehash_none_of_overflow hash_fn_ hov, fun kv r ho => put_none_of_overflow hash_fn_ kv r ho hov⟩

/-- C20, amended, at a concrete state: `table_210` after `remove(1)`, where `table[1]`
is left dangling but still a slot of the array. -/
theorem index_in_bounds_witness :
    ReachAll id (table_210.after_remove 1) ∧
      1 ≤ (table_210.after_remove 1).bucket_num_ ∧
      ((table_210.after_remove 1).table.length : Int) =
        (table_210.after_remove 1).bucket_num_ ∧
      (((table_210.after_remove 1).index id 14 : Nat) : Int) <
        (table_210.after_remove 1).bucket_num_ ∧
      (table_210.after_remove 1).index id 14 < (table_210.after_remove 1).table.length ∧
      (∃ p, (table_210.after_remove 1).table[(table_210.after_remove 1).index id 14]? =
        some p) ∧
      (2147483647 < (table_210.after_remove 1).bucket_num_ * 2 + 1 →
        (table_210.after_remove 1).rehash id = none ∧
        ∀ (kv : Nat × Nat) (r : Bool), (table_210.after_remove 1).over_load = true →
          (table_210.after_remove 1).put id kv r = none) :=
  ⟨ReachAll.remove 1 true (ReachPut.reachAll id reachPut_table_210) rfl,
    index_in_bounds id (table_210.after_remove 1)
      (ReachAll.remove 1 true (ReachPut.reachAll id reachPut_table_210) rfl) 14⟩

end ClaimsFour

section ScenarioLemmas

variable {K V : Type} [DecidableEq K] (hash_fn_ : K → Nat)

theorem put_eq_insert {t : HashTable K V} (kv : K × V) (r : Bool)
    (h : t.over_load = false) :
    t.put hash_fn_ kv r = t.put_insert hash_fn_ kv.1 kv.2 r := by
  unfold HashTable.put
  simp only [h, Bool.false_eq_true, if_false, Option.bind_eq_bind, Option.some_bind]

theorem put_eq_rehash_insert {t t0 : HashTable K V} (kv : K × V) (r b : Bool)
    (h : t.over_load = true) (hre : t.rehash hash_fn_ = some (b, t0)) :
    t.put hash_fn_ kv r = t0.put_insert hash_fn_ kv.1 kv.2 r := by
  unfold HashTable.put
  simp only [h, hre, if_true, Option.bind_eq_bind, Option.some_bind]

theorem scenario_put_a :
    scenario_new.put abc_hash ("a", 1) true = some (false, scenario_a) := rfl

theorem scenario_put_b :
    scenario_a.put abc_hash ("b", 2) true = some (false, scenario_ab) := rfl

theorem scenario_put_c :
    scenario_ab.put abc_hash ("c", 3) true = some (false, scenario_abc) := rfl

theorem reachPut_scenario_a : ReachPut abc_hash scenario_a :=
  ReachPut.put ("a", 1) true false (ReachPut.construct true 1 Dbl.three_quarters 0) scenario_put_a

theorem reachPut_scenario_abc : ReachPut abc_hash scenario_abc :=
  ReachPut.put ("c", 3) true false
    (ReachPut.put ("b", 2) true false reachPut_scenario_a scenario_put_b) scenario_put_c

theorem reachAll_table_012 : ReachAll id table_012 :=
  ReachAll.rehash true (ReachPut.reachAll id reachPut_table_210) rfl

end ScenarioLemmas

section ClaimsFive

theorem reachPut_table_sixty : ReachPut id table_sixty :=
  ReachPut.put (2, 12) true false
    (ReachPut.put (1, 11) true false
      (ReachPut.put (0, 10) true false (ReachPut.construct true 5 six_tenths 0) rfl) rfl) rfl

theorem over_load_three_quarters {K V : Type} (t : HashTable K V)
    (hlf : t.load_factor_ = Dbl.three_quarters) (hb1 : 1 ≤ t.bucket_num_)
    (hb2 : t.bucket_num_ ≤ 2147483647) (hu : t.used_bucket_num_ ≤ 2147483647) :
    t.over_load = true ↔
      (t.auto_rehash_ = true ∧ 3 * t.bucket_num_ < 4 * t.used_bucket_num_) := by
  unfold HashTable.over_load
  rw [hlf, gt_div_three_quarters _ _ hb1 hb2 hu]
  simp

/-- C12 as stated fails in two ways. On `table_sixty`, with automatic rehash, 3
of 5 buckets occupied and the load factor the `double` 0.6, the ratio 3 / 5 is
strictly greater than the load factor, which is the number
5404319552844595 / 2 ^ 53, but the quotient line 230 computes is rounded to that
same `double`, so the test fails and `put` leaves 5 buckets. And on
`table_big`, with `2 ^ 30` buckets, an explicit `rehash()` does not return true:
the new bucket count overflows `int`. -/
theorem growth_counterexample :
    ReachPut id table_sixty ∧ table_sixty.auto_rehash_ = true ∧
      table_sixty.load_factor_ = Dbl.fin 5404319552844595 (-53) ∧
      table_sixty.used_bucket_num_ = 3 ∧ table_sixty.occupied_bucket_count = 3 ∧
      table_sixty.bucket_num_ = 5 ∧
      (5 : Int) * 5404319552844595 < 3 * 2 ^ 53 ∧
      Dbl.div (Dbl.ofInt table_sixty.used_bucket_num_) (Dbl.ofInt table_sixty.bucket_num_)
        = Dbl.fin 5404319552844595 (-53) ∧
      table_sixty.over_load = false ∧
      (table_sixty.put id (3, 13) true).map (fun r => r.2.bucket_num_) = some 5 ∧
      ReachPut id table_big ∧ table_big.bucket_num_ = 1073741824 ∧
      table_big.rehash id = none :=
  ⟨reachPut_table_sixty, rfl, rfl, rfl, rfl, rfl, by decide, rfl, rfl, rfl,
    ReachPut.construct false 1073741824 Dbl.three_quarters 0, rfl, rfl⟩

/-- C12, amended. For every table and every `put` call that returns: the bucket
count afterwards is `old * 2 + 1` when the test of line 230 holds, that is when
automatic rehash is enabled and the `double` quotient of the field
`used_bucket_num_` by the bucket count, rounded to nearest, is greater than the
load factor, and it is the old bucket count otherwise. For the load factor 0.75
and a bucket count and counter within `int` the test is exactly
`4 * used_bucket_num_ > 3 * bucket_num_`. The field `used_bucket_num_` is the
number of occupied buckets after every `rehash`, and `put` keeps it so when it
was so before the call. An explicit `rehash()` that returns has returned true
and set the bucket count to `old * 2 + 1`. On a table reached by `put` and
`rehash` calls, `rehash()` returns exactly when `old * 2 + 1` is an `int`, and
`put` returns exactly when it does not rehash or `old * 2 + 1` is an `int`. -/
theorem growth_policy {K V : Type} [DecidableEq K] (hash_fn_ : K → Nat) (t : HashTable K V)
    (kv : K × V) (replacing : Bool) :
    (∀ b t1, t.put hash_fn_ kv replacing = some (b, t1) →
      t1.bucket_num_ =
        (if t.over_load = true then t.bucket_num_ * 2 + 1 else t.bucket_num_) ∧
      (t.over_load = true → t1.used_bucket_num_ = t1.occupied_bucket_count) ∧
      (t.used_bucket_num_ = t.occupied_bucket_count →
        t1.used_bucket_num_ = t1.occupied_bucket_count)) ∧
    (t.load_factor_ = Dbl.three_quarters → 1 ≤ t.bucket_num_ →
      t.bucket_num_ ≤ 2147483647 → t.used_bucket_num_ ≤ 2147483647 →
      (t.over_load = true ↔
        (t.auto_rehash_ = true ∧ 4 * t.used_bucket_num_ > 3 * t.bucket_num_))) ∧
    (∀ b t2, t.rehash hash_fn_ = some (b, t2) →
      b = true ∧ t2.bucket_num_ = t.bucket_num_ * 2 + 1 ∧
      t2.used_bucket_num_ = t2.occupied_bucket_count) ∧
    (Reach hash_fn_ t →
      ((∃ res, t.rehash hash_fn_ = some res) ↔ t.bucket_num_ * 2 + 1 ≤ 2147483647) ∧
      ((∃ res, t.put hash_fn_ kv replacing = some res) ↔
        (t.over_load = true → t.bucket_num_ * 2 + 1 ≤ 2147483647))) := by
  refine ⟨?_, ?_, ?_, ?_⟩
  · intro b t1 hput
    obtain ⟨hc1, hc2⟩ := put_counter hash_fn_ hput
    refine ⟨?_, hc1, ?_⟩
    · have hput0 := hput
      unfold HashTable.put at hput
      simp only [Option.bind_eq_bind, Option.bind_eq_some] at hput
      obtain ⟨t0, h0, h⟩ := hput
      obtain ⟨hb, -⟩ := put_insert_bounds hash_fn_ h
      split at h0
      · rename_i hov
        split at h0
        · rename_i r0 hre
          cases h0
          have hre1 : t.rehash hash_fn_ = some (r0.1, r0.2) := hre
          rw [if_pos hov, hb, (rehash_bounds hash_fn_ hre1).1]
        · cases h0
      · rename_i hov
        cases h0
        rw [if_neg hov, hb]
    · intro hu
      cases hov : t.over_load with
      | true => exact hc1 hov
      | false =>
        have := hc2 hov
        omega
  · intro hlf hb1 hb2 hu
    rw [over_load_three_quarters t hlf hb1 hb2 hu]
  · intro b t2 hre
    exact ⟨(rehash_some_bound hash_fn_ hre).2.2, (rehash_bounds hash_fn_ hre).1,
      rehash_counter hash_fn_ hre⟩
  · intro hr
    obtain ⟨L, hR⟩ := Reach.rep hash_fn_ hr
    refine ⟨⟨?_, ?_⟩, put_defined_iff hash_fn_ hR kv replacing⟩
    · rintro ⟨res, hre⟩
      exact (rehash_some_bound hash_fn_ hre).2.1
    · intro hov
      obtain ⟨t1, hre, -⟩ := rehash_rep hash_fn_ hR hov
      exact ⟨_, hre⟩

/-- C12, amended, at a concrete table: `scenario_a` has one bucket, which is
occupied, automatic rehash and the load factor 0.75, so the next `put` rehashes
and leaves 3 buckets. -/
theorem growth_policy_witness :
    Reach abc_hash scenario_a ∧ scenario_a.over_load = true ∧
      scenario_a.used_bucket_num_ = 1 ∧ scenario_a.occupied_bucket_count = 1 ∧
      scenario_a.bucket_num_ = 1 ∧
      (scenario_a.put abc_hash ("b", 2) true).map (fun r => r.2.bucket_num_) = some 3 ∧
      ((∀ b t1, scenario_a.put abc_hash ("b", 2) true = some (b, t1) →
        t1.bucket_num_ =
          (if scenario_a.over_load = true then scenario_a.bucket_num_ * 2 + 1
            else scenario_a.bucket_num_) ∧
        (scenario_a.over_load = true → t1.used_bucket_num_ = t1.occupied_bucket_count) ∧
        (scenario_a.used_bucket_num_ = scenario_a.occupied_bucket_count →
          t1.used_bucket_num_ = t1.occupied_bucket_count)) ∧
      (scenario_a.load_factor_ = Dbl.three_quarters → 1 ≤ scenario_a.bucket_num_ →
        scenario_a.bucket_num_ ≤ 2147483647 → scenario_a.used_bucket_num_ ≤ 2147483647 →
        (scenario_a.over_load = true ↔
          (scenario_a.auto_rehash_ = true ∧
            4 * scenario_a.used_bucket_num_ > 3 * scenario_a.bucket_num_))) ∧
      (∀ b t2, scenario_a.rehash abc_hash = some (b, t2) →
        b = true ∧ t2.bucket_num_ = scenario_a.bucket_num_ * 2 + 1 ∧
        t2.used_bucket_num_ = t2.occupied_bucket_count) ∧
      (Reach abc_hash scenario_a →
        ((∃ res, scenario_a.rehash abc_hash = some res) ↔
          scenario_a.bucket_num_ * 2 + 1 ≤ 2147483647) ∧
        ((∃ res, scenario_a.put abc_hash ("b", 2) true = some res) ↔
          (scenario_a.over_load = true → scenario_a.bucket_num_ * 2 + 1 ≤ 2147483647)))) :=
  ⟨ReachPut.reach abc_hash reachPut_scenario_a, rfl, rfl, rfl, rfl, rfl,
    growth_policy abc_hash scenario_a ("b", 2) true⟩

/-- C14, the example scenario, fails on the code for a hash function that sends
"a", "b", "c" to three different buckets of the three-bucket table: the three
`put` calls give `size() == 3` and `get("b") == 2`, `remove("b")` returns true and
`size()` becomes 2 with the keys "c", "a" left on the list that `get_all_keys()`
walks, but `table[1]` still
points at the deleted node of "b", so `has_key("b")` reads freed memory instead
of answering false. -/
theorem scenario_has_key_undefined :
    scenario_new.put abc_hash ("a", 1) true = some (false, scenario_a) ∧
      scenario_a.put abc_hash ("b", 2) true = some (false, scenario_ab) ∧
      scenario_ab.put abc_hash ("c", 3) true = some (false, scenario_abc) ∧
      scenario_abc.size = 3 ∧ scenario_abc.bucket_num_ = 3 ∧
      scenario_abc.get abc_hash "b" = some (some 2) ∧
      scenario_abc.remove abc_hash "b" = some (true, scenario_ac) ∧
      scenario_ac.size = 2 ∧ scenario_ac.get_all_keys_result = some ["c", "a"] ∧
      scenario_ac.table[1]? = some (some 1) ∧ deref scenario_ac.heap 1 = none ∧
      scenario_ac.has_key abc_hash "b" = none :=
  ⟨scenario_put_a, scenario_put_b, scenario_put_c, rfl, rfl, rfl, rfl, rfl, rfl, rfl, rfl,
    rfl⟩

/-- C15, the counter of used buckets, fails on the code in two ways. The
constructor never assigns `used_bucket_num_`: a new table holds whatever was in
memory (here 7) although no bucket has an entry. And `remove` does not decrement it
when the removed bucket head is followed by an entry of another bucket: after an
explicit `rehash()` the table `table_012` counts 3 used buckets for its 3 entries,
and after `remove(1)` it still counts 3 with 2 entries left, more than `size()`. -/
theorem used_count_wrong :
    (HashTable.construct false 13 Dbl.three_quarters 7 : HashTable Nat Nat).used_bucket_num_ = 7 ∧
      (HashTable.construct false 13 Dbl.three_quarters 7 : HashTable Nat Nat).get_all_keys_result = some [] ∧
      ReachAll id table_012 ∧
      table_012.used_bucket_num_ = 3 ∧ table_012.get_all_keys_result = some [0, 1, 2] ∧
      table_012.remove id 1 = some (true, table_012.after_remove 1) ∧
      (table_012.after_remove 1).get_all_keys_result = some [0, 2] ∧
      (table_012.after_remove 1).size = 2 ∧
      (table_012.after_remove 1).used_bucket_num_ = 3 :=
  ⟨rfl, rfl, reachAll_table_012, rfl, rfl, rfl, rfl, rfl, rfl⟩

/-- C19, remove leaves other keys alone, fails on the code: in `table_210` the key
14 is absent (`has_key(14)` false, `get(14)` null) and maps to the bucket of the key
1; `remove(1)` returns true and keeps the bucket count, but leaves `table[1]`
pointing at the deleted node, so `has_key(14)` and `get(14)` read freed memory
afterwards. -/
theorem remove_disturbs_bucket_mate :
    ReachPut id table_210 ∧
      table_210.has_key id 14 = some false ∧ table_210.get id 14 = some none ∧
      table_210.remove id 1 = some (true, table_210.after_remove 1) ∧
      (table_210.after_remove 1).bucket_num_ = table_210.bucket_num_ ∧
      (table_210.after_remove 1).has_key id 14 = none ∧
      (table_210.after_remove 1).get id 14 = none :=
  ⟨reachPut_table_210, rfl, rfl, rfl, rfl, rfl, rfl⟩

end ClaimsFive

section PutAll

variable {K V : Type}

theorem place_fresh (ix : K → Nat) (e : K × V) (acc : List (K × V))
    (h : ∀ p ∈ acc, ix p.1 ≠ ix e.1) : place ix e acc = e :: acc := by
  unfold place
  have hany : acc.any (fun p => decide (ix p.1 = ix e.1)) = false := by
    rw [List.any_eq_false]
    intro p hp
    simpa using h p hp
  simp [hany]

theorem foldl_place_reverse (ix : K → Nat) :
    ∀ (kvs acc : List (K × V)), ((kvs ++ acc).map (fun e => ix e.1)).Nodup →
      kvs.foldl (fun acc e => place ix e acc) acc = kvs.reverse ++ acc
  | [], _, _ => rfl
  | e :: rest, acc, hn => by
    simp only [List.cons_append, List.map_cons, List.nodup_cons, List.mem_map, not_exists,
      not_and] at hn
    have hfresh : ∀ p ∈ acc, ix p.1 ≠ ix e.1 :=
      fun p hp => hn.1 p (List.mem_append_right _ hp)
    have hn2 : ((rest ++ e :: acc).map (fun e => ix e.1)).Nodup := by
      have hp : (rest ++ e :: acc).Perm (e :: (rest ++ acc)) := List.perm_middle
      refine (hp.map _).nodup_iff.2 ?_
      simp only [List.map_cons, List.nodup_cons, List.mem_map, not_exists, not_and]
      exact hn
    simp only [List.foldl_cons, place_fresh ix e acc hfresh, List.reverse_cons,
      List.append_assoc, List.singleton_append]
    exact foldl_place_reverse ix rest (e :: acc) hn2

theorem over_load_of_off {t : HashTable K V} (h : t.auto_rehash_ = false) :
    t.over_load = false := by
  simp [HashTable.over_load, h]

theorem put_all_defined [DecidableEq K] (hash_fn_ : K → Nat) :
    ∀ (kvs : List (K × V)) (t : HashTable K V) (L : List (Cell K V)),
      Rep hash_fn_ t L → t.auto_rehash_ = false → ∃ t1, t.put_all hash_fn_ kvs = some t1
  | [], t, _, _, _ => ⟨t, rfl⟩
  | kv :: rest, t, L, hR, hoff => by
    obtain ⟨b, t1, t0, L0, L1, hput, hR1, -, -, -, -, har, -⟩ :=
      put_rep hash_fn_ hR kv.1 kv.2 true (fun h => by
        rw [over_load_of_off hoff] at h
        cases h)
    obtain ⟨t2, hall⟩ := put_all_defined hash_fn_ rest t1 L1 hR1 (har.trans hoff)
    refine ⟨t2, ?_⟩
    show (match t.put hash_fn_ kv true with
      | some r => HashTable.put_all hash_fn_ r.2 rest
      | none => none) = some t2
    have hput1 : t.put hash_fn_ kv true = some (b, t1) := hput
    rw [hput1]
    exact hall

theorem put_all_rep [DecidableEq K] (hash_fn_ : K → Nat) :
    ∀ (kvs : List (K × V)) (t : HashTable K V) (L : List (Cell K V)) (t2 : HashTable K V),
      Rep hash_fn_ t L → (kvs.map Prod.fst).Nodup → (∀ e ∈ kvs, e.1 ∉ L.map Cell.key) →
      t.put_all hash_fn_ kvs = some t2 →
      ∃ L2, Rep hash_fn_ t2 L2 ∧
        (L2.map (fun c => (c.key, c.value))).Perm
          (kvs ++ L.map (fun c => (c.key, c.value))) ∧
        t2.auto_rehash_ = t.auto_rehash_ ∧
        (t.auto_rehash_ = false → t2.bucket_num_ = t.bucket_num_ ∧
          L2.map (fun c => (c.key, c.value)) =
            kvs.foldl (fun acc e => place (t.index hash_fn_) e acc)
              (L.map (fun c => (c.key, c.value))))
  | [], t, L, t2, hR, _, _, hall => by
    have h2 : t = t2 := by
      simpa [HashTable.put_all] using hall
    subst h2
    exact ⟨L, hR, List.Perm.refl _, rfl, fun _ => ⟨rfl, rfl⟩⟩
  | kv :: rest, t, L, t2, hR, hn, hk, hall => by
    have hall1 : (match t.put hash_fn_ kv true with
      | some r => HashTable.put_all hash_fn_ r.2 rest
      | none => none) = some t2 := hall
    cases hp : t.put hash_fn_ kv true with
    | none =>
      rw [hp] at hall1
      cases hall1
    | some r =>
      rw [hp] at hall1
      have hp1 : t.put hash_fn_ (kv.1, kv.2) true = some r := hp
      obtain ⟨b, t1, t0, L0, L1, hput, hR1, hR0, hperm, hif, hbn, har, -, habs, -⟩ :=
        put_rep hash_fn_ hR kv.1 kv.2 true (put_some_bound hash_fn_ hp1)
      rw [hp1] at hput
      cases hput
      have hl : lookup kv.1 L = none := lookup_eq_none.2 (hk kv (List.mem_cons_self _ _))
      obtain ⟨-, hL1⟩ := habs hl
      simp only [List.map_cons, List.nodup_cons] at hn
      have hp2 : L1.Perm (⟨t0.heap.length, kv.1, kv.2⟩ :: L) := by
        rw [hL1]
        exact (link_perm _ L0).trans (hperm.cons _)
      have hk1 : ∀ e ∈ rest, e.1 ∉ L1.map Cell.key := by
        intro e he hm
        have hm1 := (hp2.map Cell.key).subset hm
        simp only [List.map_cons, List.mem_cons] at hm1
        rcases hm1 with h1 | h1
        · exact hn.1 (by rw [← h1]; exact List.mem_map.2 ⟨e, he, rfl⟩)
        · exact hk e (List.mem_cons_of_mem _ he) h1
      obtain ⟨L2, hR2, hperm2, har2, hoff⟩ :=
        put_all_rep hash_fn_ rest t1 L1 t2 hR1 hn.2 hk1 hall1
      refine ⟨L2, hR2, ?_, har2.trans har, ?_⟩
      · refine hperm2.trans ?_
        have hp3 := hp2.map (fun c : Cell K V => (c.key, c.value))
        simp only [List.map_cons] at hp3
        exact (hp3.append_left rest).trans List.perm_middle
      · intro hoffT
        have htr : ¬ (t.over_load = true) := by
          rw [over_load_of_off hoffT]
          simp
        rw [if_neg htr] at hif
        obtain ⟨h0, hL0⟩ := hif
        subst h0
        subst hL0
        obtain ⟨hbn2, hL2⟩ := hoff (har.trans hoffT)
        refine ⟨hbn2.trans hbn, ?_⟩
        rw [hL2, index_congr hash_fn_ hbn, hL1, map_link]
        rfl

end PutAll

section ClaimsSix

variable {K V : Type} [DecidableEq K] (hash_fn_ : K → Nat)

/-- C11 as stated fails: on a table of 13 buckets without automatic rehash and with
a number hashed to itself, after the calls `put((0, 10))`, `put((1, 11))`,
`put((13, 12))` the walks of `get_all_keys()` and `get_all_values()` collect the
keys 1, 13, 0 and the values 11, 12, 10: the key 13 is linked in front of the
key 0 of its own bucket, not in front of the list. On a table of one bucket with
automatic rehash, after `put` of the keys 0, 1, 2, 3 the walk collects the keys
3, 0, 1, 2: the fourth call rehashes first, which turns the order of the three
entries around. -/
theorem put_order_counterexample :
    ([(0, 10), (1, 11), (13, 12)].map Prod.fst : List Nat).Nodup ∧
      ((HashTable.construct false 13 Dbl.three_quarters 0 : HashTable Nat Nat).put_all id
        [(0, 10), (1, 11), (13, 12)]).bind (fun t => t.get_all_keys_result)
          = some [1, 13, 0] ∧
      ((HashTable.construct false 13 Dbl.three_quarters 0 : HashTable Nat Nat).put_all id
        [(0, 10), (1, 11), (13, 12)]).bind (fun t => t.get_all_values_result)
          = some [11, 12, 10] ∧
      ([(0, 10), (1, 11), (2, 12), (3, 13)].map Prod.fst : List Nat).Nodup ∧
      ((HashTable.construct true 1 Dbl.three_quarters 0 : HashTable Nat Nat).put_all id
        [(0, 10), (1, 11), (2, 12), (3, 13)]).bind (fun t => t.get_all_keys_result)
          = some [3, 0, 1, 2] ∧
      ((HashTable.construct true 1 Dbl.three_quarters 0 : HashTable Nat Nat).put_all id
        [(0, 10), (1, 11), (2, 12), (3, 13)]).bind (fun t => t.get_all_values_result)
          = some [13, 10, 11, 12] :=
  ⟨by decide, rfl, rfl, by decide, rfl, rfl⟩

/-- C11, amended: take any hash function, any construction and any list of pairs
with pairwise distinct keys, and `put` the pairs in list order on the new table.
Without automatic rehash all the calls return. Whenever they all return, the
keys and values that the walks of `get_all_keys()` and `get_all_values()`
collect afterwards are the two columns of a permutation of the pairs; without
automatic rehash that permutation is `regroup`: every new entry is linked in
front of the first entry of its own bucket, or in front of the list when its
bucket is empty; when moreover the keys have pairwise different bucket indices
the order is the most recent first, `[kn, ..., k1]` and `[vn, ..., v1]`. With or
without automatic rehash, one more `put` of a new key returns unless its
automatic rehash overflows `int`, and then the pairs collected after it are
those collected before, regrouped by `regroup` in the new buckets when the call
rehashed first, with the new pair placed by `place`. -/
theorem put_all_enumeration (auto_rehash : Bool) (bucket_num : Int) (load_factor : Dbl)
    (used0 : Int) (kvs : List (K × V)) (hd : (kvs.map Prod.fst).Nodup) :
    (auto_rehash = false →
      ∃ t, (HashTable.construct auto_rehash bucket_num load_factor used0 :
        HashTable K V).put_all hash_fn_ kvs = some t) ∧
    ∀ t, (HashTable.construct auto_rehash bucket_num load_factor used0 :
        HashTable K V).put_all hash_fn_ kvs = some t →
      ∃ ks vs, t.get_all_keys_result = some ks ∧ t.get_all_values_result = some vs ∧
        ks.length = vs.length ∧ (ks.zip vs).Perm kvs ∧
        (auto_rehash = false → ks.zip vs = regroup (t.index hash_fn_) kvs) ∧
        (auto_rehash = false → (kvs.map (fun e => t.index hash_fn_ e.1)).Nodup →
          ks = (kvs.map Prod.fst).reverse ∧ vs = (kvs.map Prod.snd).reverse) ∧
        ∀ k v, k ∉ kvs.map Prod.fst →
          ((∃ res, t.put hash_fn_ (k, v) true = some res) ↔
            (t.over_load = true → t.bucket_num_ * 2 + 1 ≤ 2147483647)) ∧
          ∀ b t1, t.put hash_fn_ (k, v) true = some (b, t1) →
            t1.bucket_num_ = (if t.over_load = true then t.bucket_num_ * 2 + 1
              else t.bucket_num_) ∧
            t1.get_all_keys_result = some ((place (t1.index hash_fn_) (k, v)
              (if t.over_load = true then regroup (t1.index hash_fn_) (ks.zip vs)
                else ks.zip vs)).map Prod.fst) ∧
            t1.get_all_values_result = some ((place (t1.index hash_fn_) (k, v)
              (if t.over_load = true then regroup (t1.index hash_fn_) (ks.zip vs)
                else ks.zip vs)).map Prod.snd) := by
  have hR0 := Rep_construct (V := V) hash_fn_ auto_rehash bucket_num load_factor used0
  refine ⟨fun ha => put_all_defined hash_fn_ kvs _ [] hR0 ha, ?_⟩
  intro t hall
  obtain ⟨L, hR, hperm, -, hoff⟩ := put_all_rep hash_fn_ kvs _ [] t hR0 hd (by simp) hall
  have hreg : auto_rehash = false →
      L.map (fun c => (c.key, c.value)) = regroup (t.index hash_fn_) kvs := by
    intro ha
    obtain ⟨hbn, hL⟩ := hoff ha
    rw [hL, index_congr hash_fn_ hbn]
    rfl
  refine ⟨_, _, get_all_keys_result_spec hash_fn_ hR.shape,
    get_all_values_result_spec hash_fn_ hR.shape, by simp, ?_, ?_, ?_, ?_⟩
  · rw [zip_key_value]
    simpa using hperm
  · intro ha
    rw [zip_key_value]
    exact hreg ha
  · intro ha hix
    have hrev : L.map (fun c => (c.key, c.value)) = kvs.reverse := by
      rw [hreg ha]
      have := foldl_place_reverse (t.index hash_fn_) kvs [] (by simpa using hix)
      simpa [regroup] using this
    constructor
    · have h1 : L.map Cell.key = (L.map (fun c => (c.key, c.value))).map Prod.fst := by
        simp
      rw [h1, hrev, List.map_reverse]
    · have h1 : L.map Cell.value = (L.map (fun c => (c.key, c.value))).map Prod.snd := by
        simp
      rw [h1, hrev, List.map_reverse]
  · intro k v hk
    refine ⟨put_defined_iff hash_fn_ hR (k, v) true, ?_⟩
    intro b1 t2 hput1
    obtain ⟨b, t1, t0, L0, L1, hput, hR1, hR0, -, hif, hbn, -, -, habs, -⟩ :=
      put_rep hash_fn_ hR k v true (put_some_bound hash_fn_ hput1)
    rw [hput1] at hput
    cases hput
    have hkL : k ∉ L.map Cell.key := by
      intro hm
      have h1 : L.map Cell.key = (L.map (fun c => (c.key, c.value))).map Prod.fst := by
        simp
      rw [h1] at hm
      have h2 := (hperm.map Prod.fst).subset hm
      simp only [List.map_nil, List.append_nil] at h2
      exact hk h2
    obtain ⟨-, hL1⟩ := habs (lookup_eq_none.2 hkL)
    have hix : t2.index hash_fn_ = t0.index hash_fn_ := index_congr hash_fn_ hbn
    have hpairs : L1.map (fun c => (c.key, c.value)) =
        place (t2.index hash_fn_) (k, v)
          (if t.over_load = true then regroup (t2.index hash_fn_)
            ((L.map Cell.key).zip (L.map Cell.value))
            else (L.map Cell.key).zip (L.map Cell.value)) := by
      rw [hL1, map_link, hix, zip_key_value]
      by_cases htr : t.over_load = true
      · rw [if_pos htr] at hif
        rw [if_pos htr, hif.2, map_relink]
      · rw [if_neg htr] at hif
        rw [if_neg htr, hif.2]
    refine ⟨?_, ?_, ?_⟩
    · rw [hbn]
      by_cases htr : t.over_load = true
      · rw [if_pos htr] at hif
        rw [if_pos htr]
        exact (rehash_bounds hash_fn_ hif.1).1
      · rw [if_neg htr] at hif
        rw [if_neg htr, hif.1]
    · rw [get_all_keys_result_spec hash_fn_ hR1.shape, ← hpairs]
      simp
    · rw [get_all_values_result_spec hash_fn_ hR1.shape, ← hpairs]
      simp

/-- C11, amended, at concrete pairs: the keys 0, 1, 2 fall into three different
buckets of 13, and come back most recent first. -/
theorem put_all_enumeration_witness :
    ([(0, 10), (1, 11), (2, 12)].map Prod.fst : List Nat).Nodup ∧
      ((HashTable.construct false 13 Dbl.three_quarters 0 : HashTable Nat Nat).put_all id
        [(0, 10), (1, 11), (2, 12)]).bind (fun t => t.get_all_keys_result)
          = some [2, 1, 0] ∧
      ([(0, 10), (1, 11), (2, 12)].map (fun e => table_210.index id e.1)).Nodup ∧
      ((false = false →
        ∃ t, (HashTable.construct false 13 Dbl.three_quarters 0 :
          HashTable Nat Nat).put_all id [(0, 10), (1, 11), (2, 12)] = some t) ∧
      ∀ t, (HashTable.construct false 13 Dbl.three_quarters 0 :
          HashTable Nat Nat).put_all id [(0, 10), (1, 11), (2, 12)] = some t →
        ∃ ks vs, t.get_all_keys_result = some ks ∧ t.get_all_values_result = some vs ∧
          ks.length = vs.length ∧ (ks.zip vs).Perm [(0, 10), (1, 11), (2, 12)] ∧
          (false = false → ks.zip vs = regroup (t.index id) [(0, 10), (1, 11), (2, 12)]) ∧
          (false = false →
            ([(0, 10), (1, 11), (2, 12)].map (fun e => t.index id e.1)).Nodup →
            ks = ([(0, 10), (1, 11), (2, 12)].map Prod.fst).reverse ∧
              vs = ([(0, 10), (1, 11), (2, 12)].map Prod.snd).reverse) ∧
          ∀ k v, k ∉ [(0, 10), (1, 11), (2, 12)].map Prod.fst →
            ((∃ res, t.put id (k, v) true = some res) ↔
              (t.over_load = true → t.bucket_num_ * 2 + 1 ≤ 2147483647)) ∧
            ∀ b t1, t.put id (k, v) true = some (b, t1) →
              t1.bucket_num_ = (if t.over_load = true then t.bucket_num_ * 2 + 1
                else t.bucket_num_) ∧
              t1.get_all_keys_result = some ((place (t1.index id) (k, v)
                (if t.over_load = true then regroup (t1.index id) (ks.zip vs)
                  else ks.zip vs)).map Prod.fst) ∧
              t1.get_all_values_result = some ((place (t1.index id) (k, v)
                (if t.over_load = true then regroup (t1.index id) (ks.zip vs)
                  else ks.zip vs)).map Prod.snd)) :=
  ⟨by decide, rfl, by decide,
    put_all_enumeration id false 13 Dbl.three_quarters 0 [(0, 10), (1, 11), (2, 12)]
      (by decide)⟩

end ClaimsSix

end Hashtable
